import Mathlib

/-!
# FluxGraph: verification of the core against its specification

A shallow embedding of the FluxGraph dataflow simulation engine
(signal store, namespaces, transforms, the thermal-mass model, the graph
compiler with cycle detection and topological ordering, the tick engine,
and the gRPC tick coordinator), translated from the C++ sources, together
with proofs about the embedded definitions.

Modelling conventions, used throughout:
* `double` is modelled as `ℚ` (exact arithmetic; the source's float
  operations on the claims' paths are `+ - * /` and comparisons, which the
  claims treat symbolically).  `std::exp` (used by the first-order-lag
  transform) and the Gaussian sampler (used by the noise transform) are
  abstracted as parameters, since their float behaviour is not part of any
  algebraic claim.
* `+infinity` (the stability limit of a model with `h <= 0`, and the
  default clamp bounds of the linear transform) is modelled as `none` in
  an `Option ℚ`, with the comparison functions spelled out.
* `std::map` / `std::set` members are modelled as functions, association
  lists, or `Finset`s; `std::map` iteration (ascending key order) is
  modelled by sorting where the order is observable.
* C++ exceptions are modelled with `Except`: a function that throws
  returns `.error e` and, being pure, leaves no partial state behind;
  call sites that would observe the partial state of the C++ object after
  a throw (the service layer) model that state explicitly.
* `SignalNamespace::resolve` returns `Option SignalId`, with `none`
  standing for the reserved sentinel `INVALID_SIGNAL = 0xFFFFFFFF`;
  `SignalStore.write` keeps the explicit sentinel check of the source.
* Error kinds are an inductive type; the C++ raises `std::runtime_error`
  with distinguishing messages, which the spec names as error kinds
  (`MultipleWriters`, `AlgebraicLoop`, `StabilityViolation`, ...).
-/

deriving instance DecidableEq for Except

namespace FluxGraph

/-- Dense identifier for a signal (`using SignalId = uint32_t` in
`core/types.hpp`).  Ids are assigned densely from 0 by interning, so we
use `ℕ`; the reserved sentinel is `INVALID_SIGNAL`. -/
abbrev SignalId := ℕ

/-- `constexpr SignalId INVALID_SIGNAL = 0xFFFFFFFF` from `core/types.hpp`. -/
def INVALID_SIGNAL : SignalId := 4294967295

abbrev DeviceId := ℕ
abbrev FunctionId := ℕ

/-- `struct Signal { double value = 0.0; std::string unit = "dimensionless"; }`
from `core/signal_store.hpp`. -/
structure Signal where
  value : ℚ
  unit : String
deriving DecidableEq, Repr

/-- The default `Signal()` value. -/
def Signal.default : Signal := ⟨0, "dimensionless"⟩

/-- Store-level error: the only store error is the unit mismatch thrown by
`SignalStore::write` / `validate_unit`. -/
inductive StoreErr where
  | unitMismatch (id : SignalId) (expected got : String)
deriving DecidableEq, Repr

/-- `class SignalStore` state (`signal_store.hpp`): `signals_`,
`physics_driven_`, `declared_units_`, each a `std::map`/`std::set`
modelled as a function. -/
structure SignalStore where
  signals : SignalId → Option Signal
  physicsDriven : SignalId → Bool
  declaredUnits : SignalId → Option String

namespace SignalStore

/-- `SignalStore()` — all maps empty. -/
def init : SignalStore :=
  { signals := fun _ => none
    physicsDriven := fun _ => false
    declaredUnits := fun _ => none }

/-- The empty-unit normalisation of `SignalStore::write`:
`unit.empty() ? "dimensionless" : unit`. -/
def normalizeUnit (unit : String) : String :=
  if unit = "" then "dimensionless" else unit

/-- `SignalStore::write` from `core/signal_store.cpp`:
sentinel ids are silently ignored; the first write whose normalised unit
is not `"dimensionless"` declares the unit if none is declared; a declared
unit is validated against the normalised unit (throwing on mismatch); the
value is stored with its normalised unit. -/
def write (s : SignalStore) (id : SignalId) (value : ℚ) (unit : String) :
    Except StoreErr SignalStore :=
  if id = INVALID_SIGNAL then
    .ok s
  else
    let normalized := normalizeUnit unit
    let declared :=
      match s.declaredUnits id with
      | none => if normalized ≠ "dimensionless" then some normalized else none
      | some d => some d
    match declared with
    | some d =>
        if d ≠ normalized then
          .error (.unitMismatch id d normalized)
        else
          .ok { s with
                signals := fun i => if i = id then some ⟨value, normalized⟩ else s.signals i
                declaredUnits := fun i => if i = id then some d else s.declaredUnits i }
    | none =>
        .ok { s with
              signals := fun i => if i = id then some ⟨value, normalized⟩ else s.signals i }

/-- `SignalStore::read`: default signal for the sentinel and for unknown ids. -/
def read (s : SignalStore) (id : SignalId) : Signal :=
  if id = INVALID_SIGNAL then Signal.default
  else match s.signals id with
    | some sig => sig
    | none => Signal.default

/-- `SignalStore::read_value`. -/
def readValue (s : SignalStore) (id : SignalId) : ℚ := (s.read id).value

/-- `SignalStore::is_physics_driven`. -/
def isPhysicsDriven (s : SignalStore) (id : SignalId) : Bool := s.physicsDriven id

/-- `SignalStore::mark_physics_driven`. -/
def markPhysicsDriven (s : SignalStore) (id : SignalId) (driven : Bool) : SignalStore :=
  { s with physicsDriven := fun i => if i = id then driven else s.physicsDriven i }

/-- `SignalStore::declare_unit`. -/
def declareUnit (s : SignalStore) (id : SignalId) (expectedUnit : String) : SignalStore :=
  { s with declaredUnits := fun i => if i = id then some expectedUnit else s.declaredUnits i }

/-- `SignalStore::clear` from `core/signal_store.cpp`: drops `signals_`
and `physics_driven_`, keeps `declared_units_`. -/
def clear (s : SignalStore) : SignalStore :=
  { signals := fun _ => none
    physicsDriven := fun _ => false
    declaredUnits := s.declaredUnits }

end SignalStore

/-! ## Transforms (`include/fluxgraph/transform/*.hpp`)

Each transform is a stateful scalar operator with `apply`, `reset` and
`clone`.  The family is closed, so we embed it as a sum type whose
constructor fields are exactly the C++ data members.

Two pieces of external behaviour are abstracted into an environment `Env`:
* `expQ` stands for `std::exp` (first-order lag).
* The noise transform holds a `std::mt19937 rng_` (engine state type `R`,
  seeded by `rngInit`) and a `std::normal_distribution<double> dist_`.
  Conforming `normal_distribution` implementations are stateful — both
  GNU libstdc++ and LLVM libc++ use the Marsaglia polar method, which
  produces samples in pairs and caches the second in the distribution
  object; `reset()` and construction empty the cache.  We model the
  distribution state as `Option ℚ` (the cached spare) and one polar round
  as `gaussPair amplitude rng = (sample, spare, rng')`. -/

/-- Abstract environment for the float/library functions the transforms use. -/
structure Env (R : Type) where
  expQ : ℚ → ℚ
  rngInit : ℕ → R
  gaussPair : ℚ → R → ℚ × ℚ × R

/-- `std::clamp(v, lo, hi)` (= `max lo (min v hi)` for `lo ≤ hi`; the C++
definition is `v < lo ? lo : hi < v ? hi : v`). -/
def cppClamp (v lo hi : ℚ) : ℚ :=
  if v < lo then lo else if hi < v then hi else v

/-- A clamp bound that may be infinite (the linear transform defaults to
`±std::numeric_limits<double>::infinity()`); `none` is the corresponding
infinity, which never clamps. -/
def clampLow : Option ℚ → ℚ → ℚ
  | none, v => v
  | some lo, v => if v < lo then lo else v

def clampHigh : Option ℚ → ℚ → ℚ
  | none, v => v
  | some hi, v => if hi < v then hi else v

/-- The closed set of transform kinds, one constructor per
`include/fluxgraph/transform/*.hpp` class; fields are the data members. -/
inductive Transform (R : Type) where
  /-- `LinearTransform(scale_, offset_, clamp_min_, clamp_max_)`;
  `none` bounds are the infinite defaults. -/
  | linear (scale offset : ℚ) (clampMin clampMax : Option ℚ)
  /-- `FirstOrderLagTransform(tau_s_, output_, initialized_)`. -/
  | firstOrderLag (tauS : ℚ) (output : ℚ) (inited : Bool)
  /-- `DelayTransform(delay_sec_, buffer_, time_accumulated_)`. -/
  | delay (delaySec : ℚ) (buffer : List ℚ) (timeAccumulated : ℚ)
  /-- `NoiseTransform(amplitude_, seed_, rng_, dist_)`; the last field is
  the distribution's cached spare sample. -/
  | noise (amplitude : ℚ) (seed : ℕ) (rng : R) (spare : Option ℚ)
  /-- `SaturationTransform(min_, max_)`. -/
  | saturation (min max : ℚ)
  /-- `DeadbandTransform(threshold_)`. -/
  | deadband (threshold : ℚ)
  /-- `RateLimiterTransform(max_rate_, last_output_, initialized_)`. -/
  | rateLimiter (maxRate : ℚ) (lastOutput : ℚ) (inited : Bool)
  /-- `MovingAverageTransform(window_size_, samples_)`. -/
  | movingAverage (windowSize : ℕ) (samples : List ℚ)
deriving DecidableEq

namespace Transform

variable {R : Type}

/-- `ITransform::apply(input, dt)`, one case per header; returns the
output together with the transform's updated state. -/
def apply (env : Env R) (t : Transform R) (input dt : ℚ) : ℚ × Transform R :=
  match t with
  | linear scale offset cmin cmax =>
      (clampHigh cmax (clampLow cmin (scale * input + offset)),
       linear scale offset cmin cmax)
  | firstOrderLag tauS output inited =>
      if !inited then (input, firstOrderLag tauS input true)
      else if tauS ≤ 0 then (input, firstOrderLag tauS input true)
      else
        let alpha := 1 - env.expQ (-dt / tauS)
        let output' := output + alpha * (input - output)
        (output', firstOrderLag tauS output' true)
  | delay delaySec buffer timeAccumulated =>
      if delaySec ≤ 0 then (input, delay delaySec buffer timeAccumulated)
      else
        -- required_samples = static_cast<size_t>(delay_sec / dt + 0.5), min 1
        let requiredSamples := max 1 (delaySec / dt + 1/2).floor.toNat
        let buffer' := buffer ++ [input]
        if buffer'.length > requiredSamples then
          (buffer'.headD 0, delay delaySec buffer'.tail timeAccumulated)
        else
          (buffer'.headD 0, delay delaySec buffer' timeAccumulated)
  | noise amplitude seed rng spare =>
      if amplitude ≤ 0 then (input, noise amplitude seed rng spare)
      else
        match spare with
        | some c => (input + c, noise amplitude seed rng none)
        | none =>
            let (v, w, rng') := env.gaussPair amplitude rng
            (input + v, noise amplitude seed rng' (some w))
  | saturation lo hi => (cppClamp input lo hi, saturation lo hi)
  | deadband threshold =>
      (if |input| < threshold then 0 else input, deadband threshold)
  | rateLimiter maxRate lastOutput inited =>
      if !inited then (input, rateLimiter maxRate input true)
      else if maxRate ≤ 0 ∨ dt ≤ 0 then (input, rateLimiter maxRate input true)
      else
        let maxChange := maxRate * dt
        let deltaV := cppClamp (input - lastOutput) (-maxChange) maxChange
        (lastOutput + deltaV, rateLimiter maxRate (lastOutput + deltaV) true)
  | movingAverage windowSize samples =>
      let samples' := samples ++ [input]
      let samples'' := if samples'.length > windowSize then samples'.tail else samples'
      ((samples''.sum / samples''.length), movingAverage windowSize samples'')

/-- `ITransform::reset()`, one case per header.  The noise case reseeds
the engine (`rng_.seed(seed_)`) and resets the distribution
(`dist_.reset()`, emptying the cache). -/
def reset (env : Env R) (t : Transform R) : Transform R :=
  match t with
  | linear scale offset cmin cmax => linear scale offset cmin cmax
  | firstOrderLag tauS _ _ => firstOrderLag tauS 0 false
  | delay delaySec _ _ => delay delaySec [] 0
  | noise amplitude seed _ _ => noise amplitude seed (env.rngInit seed) none
  | saturation lo hi => saturation lo hi
  | deadband threshold => deadband threshold
  | rateLimiter maxRate _ _ => rateLimiter maxRate 0 false
  | movingAverage windowSize _ => movingAverage windowSize []

/-- `ITransform::clone()`, one case per header.  Every stateful transform
copies its members verbatim, except `NoiseTransform::clone`, which
constructs `new NoiseTransform(amplitude_, seed_)` (fresh distribution,
empty cache) and then copies only `rng_`. -/
def clone (t : Transform R) : Transform R :=
  match t with
  | linear scale offset cmin cmax => linear scale offset cmin cmax
  | firstOrderLag tauS output inited => firstOrderLag tauS output inited
  | delay delaySec buffer timeAccumulated => delay delaySec buffer timeAccumulated
  | noise amplitude seed rng _ => noise amplitude seed rng none
  | saturation lo hi => saturation lo hi
  | deadband threshold => deadband threshold
  | rateLimiter maxRate lastOutput inited => rateLimiter maxRate lastOutput inited
  | movingAverage windowSize samples => movingAverage windowSize samples

/-- Run a transform over a sequence of `(input, dt)` calls, collecting the
outputs (the observable behaviour `clone` is specified against). -/
def applySeq (env : Env R) : Transform R → List (ℚ × ℚ) → List ℚ
  | _, [] => []
  | t, (input, dt) :: rest =>
      let (y, t') := Transform.apply env t input dt
      y :: applySeq env t' rest

/-- Whether a transform is the noise transform. -/
def isNoise : Transform R → Bool
  | noise _ _ _ _ => true
  | _ => false

end Transform

/-- A concrete instantiation of the abstract environment used for closed
evaluations: the RNG state is a counter and one polar round returns the
counter and its successor as the (sample, spare) pair.  It is one
conforming realisation of a stateful `std::normal_distribution`. -/
def envCex : Env ℕ :=
  { expQ := fun q => q
    rngInit := fun n => n
    gaussPair := fun _ r => ((r : ℚ), (r : ℚ) + 1, r + 2) }

/-! ## The thermal-mass model (`model/thermal_mass.cpp`) -/

/-- `class ThermalMassModel` data members (`model/thermal_mass.hpp`):
the three interned signal ids, the physical parameters `C` and `h`, the
current temperature and the initial temperature kept for `reset()`. -/
structure ThermalMassModel where
  id : String
  tempSignal : SignalId
  powerSignal : SignalId
  ambientSignal : SignalId
  thermalMass : ℚ
  heatTransferCoeff : ℚ
  temperature : ℚ
  initialTemp : ℚ
deriving DecidableEq, Repr

namespace ThermalMassModel

/-- `ThermalMassModel::tick` (`model/thermal_mass.cpp` lines 20-35):
read `P_in` and `T_amb`, integrate forward Euler, write the temperature
with unit `"degC"` (the store write may throw a unit mismatch), and mark
the temperature signal physics-driven. -/
def tick (m : ThermalMassModel) (dt : ℚ) (store : SignalStore) :
    Except StoreErr (ThermalMassModel × SignalStore) := do
  let netPower := store.readValue m.powerSignal
  let ambient := store.readValue m.ambientSignal
  let heatLoss := m.heatTransferCoeff * (m.temperature - ambient)
  let dT := (netPower - heatLoss) / m.thermalMass * dt
  let m' := { m with temperature := m.temperature + dT }
  let store' ← store.write m.tempSignal m'.temperature "degC"
  return (m', store'.markPhysicsDriven m.tempSignal true)

/-- `ThermalMassModel::reset`. -/
def reset (m : ThermalMassModel) : ThermalMassModel :=
  { m with temperature := m.initialTemp }

/-- `ThermalMassModel::compute_stability_limit` (lines 39-48): `2*C/h`,
`+infinity` (modelled as `none`) when `h <= 0`. -/
def computeStabilityLimit (m : ThermalMassModel) : Option ℚ :=
  if m.heatTransferCoeff ≤ 0 then none
  else some (2 * m.thermalMass / m.heatTransferCoeff)

end ThermalMassModel

/-- `dt > limit` where the limit may be `+infinity` (`none`); the double
comparison `dt > inf` is false. -/
def dtExceeds (dt : ℚ) : Option ℚ → Bool
  | none => false
  | some l => dt > l

/-! ## Namespaces (`core/namespace.cpp`)

`SignalNamespace` assigns dense ids in first-intern order, so its whole
state is the list of interned paths: the id of a path is its index, and
`next_id_` is the list's length.  `resolve` returns `Option SignalId`,
`none` standing for the `INVALID_SIGNAL` sentinel. -/

structure SignalNamespace where
  paths : List String
deriving DecidableEq, Repr

namespace SignalNamespace

/-- Fresh namespace / `clear()`. -/
def empty : SignalNamespace := ⟨[]⟩

/-- `SignalNamespace::intern`: return the existing id, or assign
`next_id_` (the number of interned paths) and record the path. -/
def intern (ns : SignalNamespace) (path : String) : SignalId × SignalNamespace :=
  if path ∈ ns.paths then (ns.paths.indexOf path, ns)
  else (ns.paths.length, ⟨ns.paths ++ [path]⟩)

/-- `SignalNamespace::resolve`: existing id or the sentinel (`none`). -/
def resolve (ns : SignalNamespace) (path : String) : Option SignalId :=
  if path ∈ ns.paths then some (ns.paths.indexOf path) else none

/-- `SignalNamespace::lookup`: path of an id, or the empty string. -/
def lookup (ns : SignalNamespace) (id : SignalId) : String :=
  (ns.paths.getD id "")

end SignalNamespace

/-- `FunctionNamespace`: two independent interning tables (devices and
functions), each modelled like `SignalNamespace`. -/
structure FunctionNamespace where
  devices : List String
  functions : List String
deriving DecidableEq, Repr

namespace FunctionNamespace

def empty : FunctionNamespace := ⟨[], []⟩

def internDevice (fn : FunctionNamespace) (name : String) : DeviceId × FunctionNamespace :=
  if name ∈ fn.devices then (fn.devices.indexOf name, fn)
  else (fn.devices.length, { fn with devices := fn.devices ++ [name] })

def internFunction (fn : FunctionNamespace) (name : String) : FunctionId × FunctionNamespace :=
  if name ∈ fn.functions then (fn.functions.indexOf name, fn)
  else (fn.functions.length, { fn with functions := fn.functions ++ [name] })

def lookupDevice (fn : FunctionNamespace) (id : DeviceId) : String :=
  fn.devices.getD id ""

def lookupFunction (fn : FunctionNamespace) (id : FunctionId) : String :=
  fn.functions.getD id ""

end FunctionNamespace

/-! ## Graph specification PODs (`graph/spec.hpp`) -/

/-- `using Variant = std::variant<double, int64_t, bool, std::string>`. -/
inductive Variant where
  | f (x : ℚ)
  | i (n : ℤ)
  | b (v : Bool)
  | s (v : String)
deriving DecidableEq, Repr

/-- A `std::map<std::string, Variant>` parameter map; loaders produce maps,
so keys are unique and lookup is by key. -/
abbrev Params := List (String × Variant)

/-- `params.find(name)`. -/
def Params.find (params : Params) (name : String) : Option Variant :=
  (params.find? (fun p => p.1 = name)).map (·.2)

structure TransformSpec where
  type : String
  params : Params
deriving DecidableEq, Repr

structure EdgeSpec where
  sourcePath : String
  targetPath : String
  transform : TransformSpec
deriving DecidableEq, Repr

structure ModelSpec where
  id : String
  type : String
  params : Params
deriving DecidableEq, Repr

structure ActionSpec where
  device : String
  function : String
  args : Params
deriving DecidableEq, Repr

structure RuleSpec where
  id : String
  condition : String
  actions : List ActionSpec
  onError : String
deriving DecidableEq, Repr

structure GraphSpec where
  models : List ModelSpec
  edges : List EdgeSpec
  rules : List RuleSpec
deriving DecidableEq, Repr

/-! ## Compiler (`graph/compiler.cpp`)

The C++ throws `std::runtime_error` with a distinguishing message for each
failure; the spec names these error kinds, which we carry as constructors. -/

inductive CompileErr where
  | missingParam (context name : String)
  | typeError (path expected got : String)
  | unknownTransformKind (type : String)
  | unknownModelKind (type : String)
  | invalidWindowSize
  | stabilityViolation (modelId : String)
  | multipleWriters (id : SignalId)
  | algebraicLoop
  | toposortIncomplete
  | fuelExhausted
  | invalidCondition (ruleId : String)
deriving DecidableEq, Repr

/-- `variant_type_name`. -/
def variantTypeName : Variant → String
  | .f _ => "double"
  | .i _ => "int64"
  | .b _ => "bool"
  | .s _ => "string"

/-- `require_param`. -/
def requireParam (params : Params) (name context : String) : Except CompileErr Variant :=
  match params.find name with
  | some v => .ok v
  | none => .error (.missingParam context name)

/-- `as_double`: doubles pass through, int64 widens, others are type errors. -/
def asDouble (v : Variant) (path : String) : Except CompileErr ℚ :=
  match v with
  | .f x => .ok x
  | .i n => .ok (n : ℚ)
  | _ => .error (.typeError path "number" (variantTypeName v))

/-- `as_int64`. -/
def asInt64 (v : Variant) (path : String) : Except CompileErr ℤ :=
  match v with
  | .i n => .ok n
  | _ => .error (.typeError path "int64" (variantTypeName v))

/-- `as_string`. -/
def asString (v : Variant) (path : String) : Except CompileErr String :=
  match v with
  | .s x => .ok x
  | _ => .error (.typeError path "string" (variantTypeName v))

/-- `GraphCompiler::parse_transform` (`graph/compiler.cpp` lines 226-309),
one branch per transform kind, with the alias and default handling of the
source.  The noise seed cast `static_cast<uint32_t>` is the value mod
`2^32`. -/
def parseTransform {R : Type} (env : Env R) (spec : TransformSpec) :
    Except CompileErr (Transform R) := do
  let type := spec.type
  let context := "transform[" ++ type ++ "]"
  if type = "linear" then
    let scale ← asDouble (← requireParam spec.params "scale" context) (context ++ "/scale")
    let offset ← asDouble (← requireParam spec.params "offset" context) (context ++ "/offset")
    let clampMin ←
      match spec.params.find "clamp_min" with
      | some v => do pure (some (← asDouble v (context ++ "/clamp_min")))
      | none => pure none
    let clampMax ←
      match spec.params.find "clamp_max" with
      | some v => do pure (some (← asDouble v (context ++ "/clamp_max")))
      | none => pure none
    return .linear scale offset clampMin clampMax
  else if type = "first_order_lag" then
    let tauS ← asDouble (← requireParam spec.params "tau_s" context) (context ++ "/tau_s")
    return .firstOrderLag tauS 0 false
  else if type = "delay" then
    let delaySec ← asDouble (← requireParam spec.params "delay_sec" context)
      (context ++ "/delay_sec")
    return .delay delaySec [] 0
  else if type = "noise" then
    let amplitude ← asDouble (← requireParam spec.params "amplitude" context)
      (context ++ "/amplitude")
    let seed ←
      match spec.params.find "seed" with
      | some v => do pure ((← asInt64 v (context ++ "/seed")) % 4294967296).toNat
      | none => pure 0
    return .noise amplitude seed (env.rngInit seed) none
  else if type = "saturation" then
    let minVal ←
      match spec.params.find "min" with
      | some v => asDouble v (context ++ "/min")
      | none => do
          asDouble (← requireParam spec.params "min_value" context) (context ++ "/min_value")
    let maxVal ←
      match spec.params.find "max" with
      | some v => asDouble v (context ++ "/max")
      | none => do
          asDouble (← requireParam spec.params "max_value" context) (context ++ "/max_value")
    return .saturation minVal maxVal
  else if type = "deadband" then
    let threshold ← asDouble (← requireParam spec.params "threshold" context)
      (context ++ "/threshold")
    return .deadband threshold
  else if type = "rate_limiter" then
    let maxRate ←
      match spec.params.find "max_rate_per_sec" with
      | some v => asDouble v (context ++ "/max_rate_per_sec")
      | none => do
          asDouble (← requireParam spec.params "max_rate" context) (context ++ "/max_rate")
    return .rateLimiter maxRate 0 false
  else if type = "moving_average" then
    let windowSizeRaw ← asInt64 (← requireParam spec.params "window_size" context)
      (context ++ "/window_size")
    if windowSizeRaw ≤ 0 then
      .error .invalidWindowSize
    else
      return .movingAverage windowSizeRaw.toNat []
  else
    .error (.unknownTransformKind type)

/-- `GraphCompiler::parse_model` (lines 311-341): only `thermal_mass`; the
constructor interns the temperature, power and ambient paths in member
declaration order. -/
def parseModel (spec : ModelSpec) (ns : SignalNamespace) :
    Except CompileErr (ThermalMassModel × SignalNamespace) := do
  let type := spec.type
  let context := "model[" ++ spec.id ++ ":" ++ type ++ "]"
  if type = "thermal_mass" then
    let thermalMass ← asDouble (← requireParam spec.params "thermal_mass" context)
      (context ++ "/thermal_mass")
    let heatTransferCoeff ← asDouble
      (← requireParam spec.params "heat_transfer_coeff" context)
      (context ++ "/heat_transfer_coeff")
    let initialTemp ← asDouble (← requireParam spec.params "initial_temp" context)
      (context ++ "/initial_temp")
    let tempPath ← asString (← requireParam spec.params "temp_signal" context)
      (context ++ "/temp_signal")
    let powerPath ← asString (← requireParam spec.params "power_signal" context)
      (context ++ "/power_signal")
    let ambientPath ← asString (← requireParam spec.params "ambient_signal" context)
      (context ++ "/ambient_signal")
    let (tempId, ns1) := ns.intern tempPath
    let (powerId, ns2) := ns1.intern powerPath
    let (ambientId, ns3) := ns2.intern ambientPath
    return (⟨spec.id, tempId, powerId, ambientId, thermalMass, heatTransferCoeff,
             initialTemp, initialTemp⟩, ns3)
  else
    .error (.unknownModelKind type)

/-- The model-compilation loop of `GraphCompiler::compile` (spec order). -/
def parseModels (specs : List ModelSpec) (ns : SignalNamespace) :
    Except CompileErr (List ThermalMassModel × SignalNamespace) :=
  match specs with
  | [] => .ok ([], ns)
  | spec :: rest => do
      let (m, ns1) ← parseModel spec ns
      let (ms, ns2) ← parseModels rest ns1
      return (m :: ms, ns2)

/-- `GraphCompiler::validate_stability` (lines 490-501): fail on the first
model whose stability limit is exceeded by `expected_dt`. -/
def validateStability (models : List ThermalMassModel) (expectedDt : ℚ) :
    Except CompileErr Unit :=
  match models with
  | [] => .ok ()
  | m :: rest =>
      if dtExceeds expectedDt m.computeStabilityLimit then
        .error (.stabilityViolation m.id)
      else
        validateStability rest expectedDt

/-- `struct CompiledEdge` (`graph/compiler.hpp`): resolved ids, the owned
transform, and the delay flag. -/
structure CompiledEdge (R : Type) where
  source : SignalId
  target : SignalId
  transform : Transform R
  isDelay : Bool
deriving DecidableEq

/-- The edge-compilation loop of `GraphCompiler::compile` (lines 162-168):
intern source and target, instantiate the transform, and flag the edge as
a delay edge iff its transform kind is `"delay"`. -/
def parseEdges {R : Type} (env : Env R) (specs : List EdgeSpec) (ns : SignalNamespace) :
    Except CompileErr (List (CompiledEdge R) × SignalNamespace) :=
  match specs with
  | [] => .ok ([], ns)
  | spec :: rest => do
      let (src, ns1) := ns.intern spec.sourcePath
      let (tgt, ns2) := ns1.intern spec.targetPath
      let tf ← parseTransform env spec.transform
      let (es, ns3) ← parseEdges env rest ns2
      return (⟨src, tgt, tf, spec.transform.type = "delay"⟩ :: es, ns3)

/-- The model-output half of the writer-ownership pass (lines 186-194):
for each `thermal_mass` model, re-read the `temp_signal` parameter and
intern it (a no-op when the model already parsed). -/
def modelOutputIds (specs : List ModelSpec) (ns : SignalNamespace) :
    Except CompileErr (List SignalId × SignalNamespace) :=
  match specs with
  | [] => .ok ([], ns)
  | spec :: rest =>
      if spec.type = "thermal_mass" then do
        let context := "model[" ++ spec.id ++ ":" ++ spec.type ++ "]"
        let tempPath ← asString (← requireParam spec.params "temp_signal" context)
          (context ++ "/temp_signal")
        let (id, ns1) := ns.intern tempPath
        let (ids, ns2) ← modelOutputIds rest ns1
        return (id :: ids, ns2)
      else do
        let (ids, ns1) ← modelOutputIds rest ns
        return (ids, ns1)

/-- `register_writer` folded over the writer list (lines 170-194): the
first id seen twice fails with `MultipleWriters`. -/
def checkWriters (ids : List SignalId) (seen : List SignalId) : Except CompileErr Unit :=
  match ids with
  | [] => .ok ()
  | id :: rest =>
      if id ∈ seen then .error (.multipleWriters id)
      else checkWriters rest (id :: seen)

/-! ### Cycle detection (`GraphCompiler::detect_cycles`, lines 422-488)

A colouring DFS over the non-delay subgraph: white (0, unvisited),
gray (1, on the recursion stack), black (2, done); a gray neighbour is a
back edge, i.e. an algebraic loop.  The C++ recursion is embedded with a
fuel argument (recursion depth is bounded by the number of white nodes,
and the chosen fuel is proved sufficient); the `stack`/`cycle_path`
bookkeeping of the source only feeds the error message and is omitted. -/

inductive Color where
  | white
  | gray
  | black
deriving DecidableEq, Repr

/-- One `state[...] = ...` assignment. -/
def setColor (c : SignalId → Color) (n : SignalId) (col : Color) : SignalId → Color :=
  fun x => if x = n then col else c x

/-- Result of a DFS visit: a back edge was found, or the updated colour
map; `outOfFuel` is the embedding artefact, proved unreachable. -/
inductive DfsRes where
  | cycleFound
  | ok (color : SignalId → Color)
  | outOfFuel

/-- The `for (SignalId neighbor : graph[node])` loop of `dfs`: white
neighbours are visited recursively (`visit`), gray neighbours are back
edges, black neighbours are skipped. -/
def dfsGo (visit : SignalId → (SignalId → Color) → DfsRes) :
    List SignalId → (SignalId → Color) → DfsRes
  | [], c => .ok c
  | nb :: rest, c =>
      match c nb with
      | .white =>
          match visit nb c with
          | .ok c' => dfsGo visit rest c'
          | r => r
      | .gray => .cycleFound
      | .black => dfsGo visit rest c

/-- The recursive `dfs` lambda of `detect_cycles`: mark the node gray,
process its neighbours, then mark it black. -/
def dfsVisit (adj : SignalId → List SignalId) : ℕ → SignalId → (SignalId → Color) → DfsRes
  | 0, _, _ => .outOfFuel
  | fuel + 1, n, c =>
      match dfsGo (dfsVisit adj fuel) (adj n) (setColor c n .gray) with
      | .ok c' => .ok (setColor c' n .black)
      | r => r

/-- The outer loop of `detect_cycles`: start a DFS from every still-white
node, in ascending id order (`std::map` key order). -/
def detectLoop (adj : SignalId → List SignalId) (fuel : ℕ) :
    List SignalId → (SignalId → Color) → Except CompileErr Unit
  | [], _ => .ok ()
  | n :: rest, c =>
      if c n = .white then
        match dfsVisit adj fuel n c with
        | .ok c' => detectLoop adj fuel rest c'
        | .cycleFound => .error .algebraicLoop
        | .outOfFuel => .error .fuelExhausted
      else
        detectLoop adj fuel rest c

/-- The node set of the non-delay subgraph: every source and target of a
non-delay edge (the keys of the C++ adjacency map). -/
def nonDelayNodes {R : Type} (edges : List (CompiledEdge R)) : Finset SignalId :=
  (edges.filter (fun e => !e.isDelay)).foldl
    (fun acc e => insert e.target (insert e.source acc)) ∅

/-- The adjacency of the non-delay subgraph, in edge order. -/
def nonDelayAdj {R : Type} (edges : List (CompiledEdge R)) : SignalId → List SignalId :=
  fun s => ((edges.filter (fun e => !e.isDelay)).filter (fun e => e.source = s)).map (·.target)

/-- `GraphCompiler::detect_cycles`. -/
def detectCycles {R : Type} (edges : List (CompiledEdge R)) : Except CompileErr Unit :=
  let nodes := nonDelayNodes edges
  detectLoop (nonDelayAdj edges) (nodes.card + 1) (nodes.sort (· ≤ ·)) (fun _ => .white)

/-! ### Topological ordering (`GraphCompiler::topological_sort`, lines 343-420)

Kahn's algorithm over the non-delay (immediate) subgraph, with the
`std::set<SignalId> ready` modelled as an ascending sorted list so that
`*ready.begin()` is its head; delay edges are emitted first in spec
order, followed by the sorted immediate edges. -/

/-- `std::set` insertion into an ascending sorted list. -/
def insertSorted (x : ℕ) : List ℕ → List ℕ
  | [] => [x]
  | y :: ys =>
      if x < y then x :: y :: ys
      else if x = y then y :: ys
      else y :: insertSorted x ys

/-- The mutable state of the Kahn loop: the ready set, the in-degree map,
the processed-edge-index set, and the output order of immediate edge
indices. -/
structure KahnState where
  ready : List SignalId
  deg : SignalId → ℤ
  processed : List ℕ
  order : List ℕ

/-- The inner loop over `outgoing[sig]`: skip already-processed edges,
emit the edge, decrement its target's in-degree and enqueue the target
when the in-degree reaches zero. -/
def kahnProcessOut {R : Type} (edges : List (CompiledEdge R)) (idxs : List ℕ)
    (st : KahnState) : KahnState :=
  match idxs with
  | [] => st
  | idx :: rest =>
      if idx ∈ st.processed then kahnProcessOut edges rest st
      else
        match edges.get? idx with
        | none => kahnProcessOut edges rest st
        | some e =>
            let d' := st.deg e.target - 1
            kahnProcessOut edges rest
              { ready := if d' = 0 then insertSorted e.target st.ready else st.ready
                deg := fun s => if s = e.target then d' else st.deg s
                processed := idx :: st.processed
                order := st.order ++ [idx] }

/-- The `while (!ready.empty())` loop: pop the smallest ready signal and
process its outgoing immediate edges.  `fuel` bounds the iteration count
(an embedding artefact; exhaustion surfaces as a distinct failure). -/
def kahnLoop {R : Type} (edges : List (CompiledEdge R))
    (outgoing : SignalId → List ℕ) : ℕ → KahnState → Option (List ℕ)
  | _, { ready := [], deg := _, processed := _, order := order } => some order
  | 0, _ => none
  | fuel + 1, st =>
      match st.ready with
      | [] => some st.order
      | sig :: rest =>
          kahnLoop edges outgoing fuel
            (kahnProcessOut edges (outgoing sig) { st with ready := rest })

/-- The immediate (non-delay) edge indices, in spec order. -/
def immediateIndices {R : Type} (edges : List (CompiledEdge R)) : List ℕ :=
  ((List.range edges.length).filter
    (fun i => match edges.get? i with
      | some e => !e.isDelay
      | none => false))

/-- `outgoing[s]`: the immediate edge indices with source `s`, in
insertion (= index) order. -/
def kahnOutgoing {R : Type} (edges : List (CompiledEdge R)) : SignalId → List ℕ :=
  fun s => (immediateIndices edges).filter
    (fun i => match edges.get? i with
      | some e => e.source = s
      | none => false)

/-- `in_degree[s]`: the number of immediate edges targeting `s`. -/
def kahnDeg0 {R : Type} (edges : List (CompiledEdge R)) : SignalId → ℤ :=
  fun s => ((immediateIndices edges).filter
    (fun i => match edges.get? i with
      | some e => e.target = s
      | none => false)).length

/-- `GraphCompiler::topological_sort`:  returns the reordered edge list
(delay edges first in spec order, then the Kahn order of the immediate
edges), or fails when the immediate subgraph could not be fully sorted
(the C++ `"topological sort failed"` throw). -/
def topologicalSort {R : Type} (edges : List (CompiledEdge R)) :
    Except CompileErr (List (CompiledEdge R)) :=
  let immIdx := immediateIndices edges
  let nodes := nonDelayNodes edges
  let ready0 := (nodes.filter (fun s => kahnDeg0 edges s = 0)).sort (· ≤ ·)
  let fuel := nodes.card + edges.length + 1
  match kahnLoop edges (kahnOutgoing edges)
      fuel ⟨ready0, kahnDeg0 edges, [], []⟩ with
  | none => .error .fuelExhausted
  | some order =>
      if order.length ≠ immIdx.length then .error .toposortIncomplete
      else
        .ok (edges.filter (·.isDelay) ++ order.filterMap (edges.get? ·))

/-! ### Rule compilation (`compile_condition_expr`, lines 89-138)

The condition grammar is the anchored regular expression
`^([A-Za-z0-9_.\x2f-]+)\s*(<=|>=|==|!=|<|>)\s*(number)$` (with `\x2f`
the slash character, written so here to avoid a nested comment) applied to the
trimmed condition string, with `number` = `[-+]?(\d+\.?\d*|\.\d+)([eE][-+]?\d+)?`.
It is embedded as a direct character-level parser (the alternation is
prefix-free against the path character class, so the greedy scan below
recognises exactly the regex language).  The decimal literal is read
exactly into `ℚ` (`std::stod` rounds to double; no claim depends on
condition values). -/

inductive CmpOp where
  | lt
  | le
  | gt
  | ge
  | eq
  | ne
deriving DecidableEq, Repr

/-- The comparator closure body: `store.read_value(signal_id) <op> rhs`. -/
def CmpOp.eval (op : CmpOp) (lhs rhs : ℚ) : Bool :=
  match op with
  | .lt => lhs < rhs
  | .le => lhs ≤ rhs
  | .gt => lhs > rhs
  | .ge => lhs ≥ rhs
  | .eq => lhs = rhs
  | .ne => lhs ≠ rhs

/-- The path character class `[A-Za-z0-9_.\x2f-]` (`\x2f` = slash). -/
def isPathChar (c : Char) : Bool :=
  c.isAlphanum || c = '_' || c = '.' || c = '/' || c = '-'

/-- `trim_copy` (whitespace as in `std::isspace`). -/
def trimChars (cs : List Char) : List Char :=
  ((cs.dropWhile Char.isWhitespace).reverse.dropWhile Char.isWhitespace).reverse

/-- The comparator alternation, longest operators first. -/
def parseOp : List Char → Option (CmpOp × List Char)
  | '<' :: '=' :: r => some (.le, r)
  | '>' :: '=' :: r => some (.ge, r)
  | '=' :: '=' :: r => some (.eq, r)
  | '!' :: '=' :: r => some (.ne, r)
  | '<' :: r => some (.lt, r)
  | '>' :: r => some (.gt, r)
  | _ => none

/-- A maximal run of decimal digits, as digit values. -/
def takeDigits (cs : List Char) : List ℕ × List Char :=
  match cs with
  | c :: rest =>
      if c.isDigit then
        let (ds, r) := takeDigits rest
        ((c.toNat - 48) :: ds, r)
      else ([], cs)
  | [] => ([], [])

def digitsVal (ds : List ℕ) : ℕ := ds.foldl (fun acc d => 10 * acc + d) 0

/-- The `number` production, anchored at end of input: optional sign,
mantissa (`\d+\.?\d*` or `\.\d+`), optional exponent. -/
def parseNumber (cs : List Char) : Option ℚ := do
  let (sgn, cs1) : ℚ × List Char :=
    match cs with
    | '+' :: r => (1, r)
    | '-' :: r => (-1, r)
    | _ => (1, cs)
  let (d1, cs2) := takeDigits cs1
  let (mant, scale, rest) ← (do
    if d1 ≠ [] then
      match cs2 with
      | '.' :: r =>
          let (d2, cs3) := takeDigits r
          pure (digitsVal (d1 ++ d2), d2.length, cs3)
      | _ => pure (digitsVal d1, 0, cs2)
    else
      match cs2 with
      | '.' :: r =>
          let (d2, cs3) := takeDigits r
          if d2 = [] then none else pure (digitsVal d2, d2.length, cs3)
      | _ => none : Option (ℕ × ℕ × List Char))
  let (eVal, rest') ← (do
    match rest with
    | c :: r =>
        if c = 'e' ∨ c = 'E' then
          let (esgn, r1) : ℤ × List Char :=
            match r with
            | '+' :: r2 => (1, r2)
            | '-' :: r2 => (-1, r2)
            | _ => (1, r)
          let (ed, r2) := takeDigits r1
          if ed = [] then none else pure (esgn * digitsVal ed, r2)
        else pure ((0 : ℤ), rest)
    | [] => pure ((0 : ℤ), rest) : Option (ℤ × List Char))
  if rest' = [] then
    pure (sgn * (mant : ℚ) / (10 : ℚ) ^ scale * (10 : ℚ) ^ eVal)
  else none

/-- `compile_condition_expr`: match the grammar against the trimmed
condition, intern the signal path, and capture `(signal_id, op, rhs)`
(the closure's captures). -/
def compileConditionExpr (expr : String) (ns : SignalNamespace) (ruleId : String) :
    Except CompileErr ((SignalId × CmpOp × ℚ) × SignalNamespace) :=
  let cs := trimChars expr.toList
  let pathCs := cs.takeWhile isPathChar
  if pathCs = [] then .error (.invalidCondition ruleId)
  else
    let rest1 := (cs.drop pathCs.length).dropWhile Char.isWhitespace
    match parseOp rest1 with
    | none => .error (.invalidCondition ruleId)
    | some (op, rest2) =>
        match parseNumber (rest2.dropWhile Char.isWhitespace) with
        | none => .error (.invalidCondition ruleId)
        | some rhs =>
            let (sid, ns') := ns.intern (String.mk pathCs)
            .ok ((sid, op, rhs), ns')

/-- `struct CompiledRule` (`graph/compiler.hpp`): the condition closure is
its captured `(signal_id, op, rhs)` triple. -/
structure CompiledRule where
  id : String
  condSignal : SignalId
  condOp : CmpOp
  condRhs : ℚ
  deviceFunctions : List (DeviceId × FunctionId)
  argsList : List Params
  onError : String
deriving DecidableEq, Repr

/-- A rule's compiled condition evaluated against a store. -/
def CompiledRule.condition (r : CompiledRule) (store : SignalStore) : Bool :=
  r.condOp.eval (store.readValue r.condSignal) r.condRhs

/-- The per-rule action loop: intern device and function names. -/
def compileActions (actions : List ActionSpec) (fn : FunctionNamespace) :
    List (DeviceId × FunctionId) × List Params × FunctionNamespace :=
  match actions with
  | [] => ([], [], fn)
  | a :: rest =>
      let (devId, fn1) := fn.internDevice a.device
      let (funcId, fn2) := fn1.internFunction a.function
      let (dfs, args, fn3) := compileActions rest fn2
      ((devId, funcId) :: dfs, a.args :: args, fn3)

/-- The rule-compilation loop of `GraphCompiler::compile` (lines 205-221). -/
def compileRules (specs : List RuleSpec) (ns : SignalNamespace) (fn : FunctionNamespace) :
    Except CompileErr (List CompiledRule × SignalNamespace × FunctionNamespace) :=
  match specs with
  | [] => .ok ([], ns, fn)
  | spec :: rest => do
      let ((sid, op, rhs), ns1) ← compileConditionExpr spec.condition ns spec.id
      let (dfs, args, fn1) := compileActions spec.actions fn
      let (rules, ns2, fn2) ← compileRules rest ns1 fn1
      return (⟨spec.id, sid, op, rhs, dfs, args, spec.onError⟩ :: rules, ns2, fn2)

/-- `struct CompiledProgram`. -/
structure CompiledProgram (R : Type) where
  edges : List (CompiledEdge R)
  models : List ThermalMassModel
  rules : List CompiledRule
deriving DecidableEq

/-- `GraphCompiler::compile` (lines 145-224): models, optional stability
validation, edges, writer ownership, cycle detection, topological
ordering, rules.  The mutated namespace references are threaded through
and returned. -/
def compile {R : Type} (env : Env R) (spec : GraphSpec) (ns : SignalNamespace)
    (fn : FunctionNamespace) (expectedDt : ℚ) :
    Except CompileErr (CompiledProgram R × SignalNamespace × FunctionNamespace) := do
  let (models, ns1) ← parseModels spec.models ns
  if expectedDt > 0 then validateStability models expectedDt else pure ()
  let (edges, ns2) ← parseEdges env spec.edges ns1
  let (outIds, ns3) ← modelOutputIds spec.models ns2
  checkWriters (edges.map (·.target) ++ outIds) []
  detectCycles edges
  let sortedEdges ← topologicalSort edges
  let (rules, ns4, fn1) ← compileRules spec.rules ns3 fn
  return (⟨sortedEdges, models, rules⟩, ns4, fn1)

/-! ### The namespace mutation trace of a failing `compile`

The C++ `compile` receives `signal_ns` and `func_ns` **by reference**
(`graph/compiler.hpp`), so when a phase throws, every intern already
performed stays in the caller's namespaces.  The functions below replay
exactly the interns the C++ performs up to the first throw, phase by
phase: a failing `parse_model` interns nothing for the failing model (its
constructor, which interns, runs after all parameter reads); the edge
loop interns source and target before `parse_transform` can throw; the
writer-ownership pass registers the edge targets (no interning), then per
`thermal_mass` model reads `temp_signal` (throws leave the namespace as
accumulated) and interns it *before* `register_writer` can throw; cycle
detection and the topological sort never intern; each rule interns its
condition path only when the condition parses, then its actions' device
and function names. -/

/-- The signal namespace as left by the model loop (lines 152-155), also
when a `parse_model` throws. -/
def parseModelsNs (specs : List ModelSpec) (ns : SignalNamespace) : SignalNamespace :=
  match specs with
  | [] => ns
  | spec :: rest =>
      match parseModel spec ns with
      | .error _ => ns
      | .ok (_, ns1) => parseModelsNs rest ns1

/-- The signal namespace as left by the edge loop (lines 162-169), also
when a `parse_transform` throws: both endpoint paths of the failing edge
are already interned. -/
def parseEdgesNs {R : Type} (env : Env R) (specs : List EdgeSpec)
    (ns : SignalNamespace) : SignalNamespace :=
  match specs with
  | [] => ns
  | spec :: rest =>
      let (_, ns1) := ns.intern spec.sourcePath
      let (_, ns2) := ns1.intern spec.targetPath
      match parseTransform env spec.transform with
      | .error _ => ns2
      | .ok _ => parseEdgesNs env rest ns2

/-- The signal namespace as left by the model half of the
writer-ownership pass (lines 186-194), also when it throws: the failing
model's `temp_signal` is interned before `register_writer` can reject it,
but not when its parameter read throws. -/
def writersNs (specs : List ModelSpec) (ns : SignalNamespace) (seen : List SignalId) :
    SignalNamespace :=
  match specs with
  | [] => ns
  | spec :: rest =>
      if spec.type = "thermal_mass" then
        let context := "model[" ++ spec.id ++ ":" ++ spec.type ++ "]"
        match requireParam spec.params "temp_signal" context with
        | .error _ => ns
        | .ok v =>
            match asString v (context ++ "/temp_signal") with
            | .error _ => ns
            | .ok tempPath =>
                let (id, ns1) := ns.intern tempPath
                if id ∈ seen then ns1
                else writersNs rest ns1 (id :: seen)
      else writersNs rest ns seen

/-- The namespaces as left by the rule loop (lines 205-221), also when a
condition throws: earlier rules' condition paths and action names are
interned, the failing rule's are not. -/
def compileRulesNs (specs : List RuleSpec) (ns : SignalNamespace)
    (fn : FunctionNamespace) : SignalNamespace × FunctionNamespace :=
  match specs with
  | [] => (ns, fn)
  | spec :: rest =>
      match compileConditionExpr spec.condition ns spec.id with
      | .error _ => (ns, fn)
      | .ok (_, ns1) =>
          let (_, _, fn1) := compileActions spec.actions fn
          compileRulesNs rest ns1 fn1

/-- The namespaces as `compile` leaves them in its by-reference arguments
— on success the returned pair, on a throw everything interned up to the
failure point. -/
def compileNsTrace {R : Type} (env : Env R) (spec : GraphSpec) (ns : SignalNamespace)
    (fn : FunctionNamespace) (expectedDt : ℚ) : SignalNamespace × FunctionNamespace :=
  match parseModels spec.models ns with
  | .error _ => (parseModelsNs spec.models ns, fn)
  | .ok (models, ns1) =>
      if expectedDt > 0 ∧ validateStability models expectedDt ≠ .ok () then (ns1, fn)
      else
        match parseEdges env spec.edges ns1 with
        | .error _ => (parseEdgesNs env spec.edges ns1, fn)
        | .ok (edges, ns2) =>
            match checkWriters (edges.map (·.target)) [] with
            | .error _ => (ns2, fn)
            | .ok _ =>
                match modelOutputIds spec.models ns2 with
                | .error _ => (writersNs spec.models ns2 (edges.map (·.target)), fn)
                | .ok (outIds, ns3) =>
                    match checkWriters (edges.map (·.target) ++ outIds) [] with
                    | .error _ => (writersNs spec.models ns2 (edges.map (·.target)), fn)
                    | .ok _ =>
                        match detectCycles edges with
                        | .error _ => (ns3, fn)
                        | .ok _ =>
                            match topologicalSort edges with
                            | .error _ => (ns3, fn)
                            | .ok _ => compileRulesNs spec.rules ns3 fn

/-! ## Commands and the engine (`command.hpp`, `engine.cpp`) -/

/-- `struct Command { DeviceId device; FunctionId function; args; }`. -/
structure Command where
  device : DeviceId
  function : FunctionId
  args : Params
deriving DecidableEq, Repr

/-- Engine-level runtime errors: not loaded, non-positive `dt`, the
runtime stability guard, or a store unit mismatch escaping a stage. -/
inductive EngineErr where
  | notLoaded
  | nonPositiveDt
  | stabilityViolation (modelId : String)
  | storeErr (e : StoreErr)
deriving DecidableEq, Repr

/-- `class Engine` state (`engine.hpp`): loaded flag, owned edges, models
and rules, and the FIFO command queue. -/
structure Engine (R : Type) where
  loaded : Bool
  edges : List (CompiledEdge R)
  models : List ThermalMassModel
  rules : List CompiledRule
  commandQueue : List Command

namespace Engine

variable {R : Type}

/-- `Engine()` — unloaded, everything empty. -/
def init : Engine R :=
  { loaded := false, edges := [], models := [], rules := [], commandQueue := [] }

/-- `Engine::load`: move the program in, mark loaded (the command queue is
left as is, matching the source). -/
def load (e : Engine R) (program : CompiledProgram R) : Engine R :=
  { e with loaded := true, edges := program.edges, models := program.models
           rules := program.rules }

/-- Stage 2, `Engine::update_models`: tick each model in order; a store
unit mismatch propagates. -/
def updateModels (dt : ℚ) : List ThermalMassModel → SignalStore →
    Except StoreErr (List ThermalMassModel × SignalStore)
  | [], store => .ok ([], store)
  | m :: rest, store => do
      let (m', store') ← m.tick dt store
      let (ms, store'') ← updateModels dt rest store'
      return (m' :: ms, store'')

/-- Stage 3, `Engine::process_edges`: for each edge in compiled order,
read the source, apply the transform, write the target with the source's
unit. -/
def processEdges (env : Env R) (dt : ℚ) : List (CompiledEdge R) → SignalStore →
    Except StoreErr (List (CompiledEdge R) × SignalStore)
  | [], store => .ok ([], store)
  | e :: rest, store => do
      let source := store.read e.source
      let (output, tf') := e.transform.apply env source.value dt
      let store' ← store.write e.target output source.unit
      let (es, store'') ← processEdges env dt rest store'
      return ({ e with transform := tf' } :: es, store'')

/-- Stage 5, `Engine::evaluate_rules`: for each rule in order whose
condition holds, push one command per action. -/
def evaluateRules (rules : List CompiledRule) (store : SignalStore)
    (queue : List Command) : List Command :=
  match rules with
  | [] => queue
  | r :: rest =>
      if r.condition store then
        let cmds := (r.deviceFunctions.zip r.argsList).map
          (fun p => Command.mk p.1.1 p.1.2 p.2)
        evaluateRules rest store (queue ++ cmds)
      else
        evaluateRules rest store queue

/-- `Engine::tick` (`engine.cpp` lines 17-50): fail when unloaded or
`dt <= 0`; enforce every model's stability limit before any stage; then
run the stages in order (stage 1, the input boundary freeze, and stage 4,
commit, are no-ops). -/
def tick (env : Env R) (e : Engine R) (dt : ℚ) (store : SignalStore) :
    Except EngineErr (Engine R × SignalStore) := do
  if !e.loaded then
    .error .notLoaded
  else if dt ≤ 0 then
    .error .nonPositiveDt
  else
    match e.models.find? (fun m => dtExceeds dt m.computeStabilityLimit) with
    | some m => .error (.stabilityViolation m.id)
    | none => do
        let (models', store1) ←
          (updateModels dt e.models store).mapError EngineErr.storeErr
        let (edges', store2) ←
          (processEdges env dt e.edges store1).mapError EngineErr.storeErr
        let queue' := evaluateRules e.rules store2 e.commandQueue
        return ({ e with models := models', edges := edges', commandQueue := queue' },
                store2)

/-- `Engine::drain_commands`: return and empty the queue. -/
def drainCommands (e : Engine R) : List Command × Engine R :=
  (e.commandQueue, { e with commandQueue := [] })

/-- `Engine::reset`: reset every model and transform, clear the queue. -/
def reset (env : Env R) (e : Engine R) : Engine R :=
  { e with
    models := e.models.map ThermalMassModel.reset
    edges := e.edges.map (fun ed => { ed with transform := ed.transform.reset env })
    commandQueue := [] }

end Engine

/-! ## The tick coordinator (`server/service.cpp`)

`FluxGraphServiceImpl`, the gRPC service guarding all state with one
mutex.  Each RPC handler is embedded as a pure transition on the state
below.  The parts outside the core are modelled as inputs: the YAML/JSON
loader outcome is a parameter of `loadConfig` (the loaders are external
collaborators), the steady-clock reading is a `now` parameter (in
milliseconds), and the generated session id (wall clock + random suffix)
is a parameter of `registerProvider`.  The condition-variable wait of an
early arriver is a concurrency feature outside the embedding: the
early-arriver branch returns a `timedWait` marker with the state as left
by the call. -/

/-- `struct ProviderSession` (`server/service.hpp`). -/
structure ProviderSession where
  providerId : String
  deviceIds : List String
  lastUpdate : ℕ
  lastTickGeneration : Option ℕ
deriving DecidableEq, Repr

/-- The data members of `FluxGraphServiceImpl` (`server/service.hpp`).
`sessions_` is a `std::map<std::string, ProviderSession>` kept as an
association list (no claim observes its iteration order). -/
structure CoordState (R : Type) where
  engine : Engine R
  store : SignalStore
  signalNs : SignalNamespace
  funcNs : FunctionNamespace
  tickGeneration : ℕ
  lastCompletedGeneration : ℕ
  lastCompletedSimTime : ℚ
  lastCompletedCommands : List Command
  loaded : Bool
  currentConfigHash : String
  dt : ℚ
  simTime : ℚ
  protectedWriteSignals : Finset SignalId
  physicsOwnedSignals : Finset SignalId
  sessions : List (String × ProviderSession)
  sessionTimeoutMs : ℕ

namespace CoordState

variable {R : Type}

/-- `FluxGraphServiceImpl(dt)` with the member defaults of the header. -/
def init (dt : ℚ) : CoordState R :=
  { engine := Engine.init
    store := SignalStore.init
    signalNs := SignalNamespace.empty
    funcNs := FunctionNamespace.empty
    tickGeneration := 0
    lastCompletedGeneration := 0
    lastCompletedSimTime := 0
    lastCompletedCommands := []
    loaded := false
    currentConfigHash := ""
    dt := dt
    simTime := 0
    protectedWriteSignals := ∅
    physicsOwnedSignals := ∅
    sessions := []
    sessionTimeoutMs := 5000 }

/-- `sessions_.find(session_id)`. -/
def findSession (st : CoordState R) (sessionId : String) : Option ProviderSession :=
  (st.sessions.find? (fun p => p.1 = sessionId)).map (·.2)

/-- Update one session in place. -/
def mapSession (st : CoordState R) (sessionId : String)
    (f : ProviderSession → ProviderSession) : CoordState R :=
  { st with sessions := st.sessions.map (fun p => if p.1 = sessionId then (p.1, f p.2) else p) }

/-- `prune_stale_sessions_locked`: erase every session other than the
active one whose age exceeds the session timeout. -/
def pruneStaleSessions (st : CoordState R) (activeSessionId : String) (now : ℕ) :
    CoordState R :=
  let keep := fun (p : String × ProviderSession) =>
    p.1 = activeSessionId || !(now - p.2.lastUpdate > st.sessionTimeoutMs)
  { st with sessions := st.sessions.filter keep }

/-- The protected-write set built after a successful load: every edge
target that resolves. -/
def protectedFromEdges (ns : SignalNamespace) (edges : List EdgeSpec) : Finset SignalId :=
  edges.foldl
    (fun acc e =>
      match ns.resolve e.targetPath with
      | some id => insert id acc
      | none => acc) ∅

/-- The physics-owned model outputs: each `thermal_mass` model whose
`temp_signal` parameter is a string that resolves. -/
def physicsOwnedFromModels (ns : SignalNamespace) (models : List ModelSpec) :
    Finset SignalId :=
  models.foldl
    (fun acc m =>
      if m.type = "thermal_mass" then
        match m.params.find "temp_signal" with
        | some (.s path) =>
            match ns.resolve path with
            | some id => insert id acc
            | none => acc
        | _ => acc
      else acc) ∅

/-- `LoadConfig` outcome. -/
inductive LoadResult where
  | okNoChange
  | okChanged
  | parseError (message : String)
  | compileError (e : CompileErr)
deriving DecidableEq, Repr

/-- `FluxGraphServiceImpl::LoadConfig` (`server/service.cpp` lines 31-146).
`parsed` is the external loader's outcome for the request content.  On a
hash match, a no-op.  On a parse failure, the state is untouched.
Otherwise both namespaces are cleared and the spec is compiled against
them — by reference — with the coordinator's `dt`; a compile failure is
caught by the handler's catch block, which reports the error and leaves
every member as it was, the namespaces holding whatever `compile`
interned into them before throwing (`compileNsTrace` from the cleared
namespaces) and `loaded_` keeping its old value.  On success the engine
is loaded and the simulation state is rebuilt. -/
def loadConfig (env : Env R) (st : CoordState R)
    (parsed : Except String GraphSpec) (hash : String) : LoadResult × CoordState R :=
  if hash ≠ "" ∧ hash = st.currentConfigHash then
    (.okNoChange, st)
  else
    match parsed with
    | .error msg => (.parseError msg, st)
    | .ok spec =>
        match compile env spec SignalNamespace.empty FunctionNamespace.empty st.dt with
        | .error e =>
            (.compileError e,
             { st with
                 signalNs := (compileNsTrace env spec SignalNamespace.empty
                   FunctionNamespace.empty st.dt).1
                 funcNs := (compileNsTrace env spec SignalNamespace.empty
                   FunctionNamespace.empty st.dt).2 })
        | .ok (program, ns1, fn1) =>
            let physicsOwned := physicsOwnedFromModels ns1 spec.models
            let store0 : SignalStore := SignalStore.init
            let store1 := (physicsOwned.sort (· ≤ ·)).foldl
              (fun acc id => acc.markPhysicsDriven id true) store0
            (.okChanged,
             { engine := st.engine.load program
               store := store1
               signalNs := ns1
               funcNs := fn1
               tickGeneration := 0
               lastCompletedGeneration := 0
               lastCompletedSimTime := 0
               lastCompletedCommands := []
               loaded := true
               currentConfigHash := hash
               dt := st.dt
               simTime := 0
               protectedWriteSignals := protectedFromEdges ns1 spec.edges ∪ physicsOwned
               physicsOwnedSignals := physicsOwned
               sessions := []
               sessionTimeoutMs := st.sessionTimeoutMs })

/-- `RegisterProvider` outcome. -/
inductive RegisterResult where
  | notLoaded
  | invalidArgument
  | alreadyExists
  | ownershipConflict
  | registered (sessionId : String)
deriving DecidableEq, Repr

/-- `FluxGraphServiceImpl::RegisterProvider` (lines 152-224).  The
generated session id (wall-clock + random suffix in the source) is the
`newSessionId` parameter. -/
def registerProvider (st : CoordState R) (now : ℕ) (providerId : String)
    (deviceIds : List String) (newSessionId : String) :
    RegisterResult × CoordState R :=
  if !st.loaded then (.notLoaded, st)
  else if providerId = "" then (.invalidArgument, st)
  else
    let st1 := st.pruneStaleSessions "" now
    if st1.sessions.any (fun p => p.2.providerId = providerId) then
      (.alreadyExists, st1)
    else if st1.sessions.any (fun p => deviceIds.any (fun d => d ∈ p.2.deviceIds)) then
      (.ownershipConflict, st1)
    else
      (.registered newSessionId,
       { st1 with sessions := st1.sessions ++
           [(newSessionId, ⟨providerId, deviceIds, now, none⟩)] })

/-- `filter_commands_for_session_locked` (lines 543-570). -/
def filterCommandsForSession (st : CoordState R) (sessionId : String)
    (allCommands : List Command) : List Command :=
  match st.findSession sessionId with
  | none => []
  | some sess =>
      if sess.deviceIds = [] then []
      else allCommands.filter
        (fun cmd => sess.deviceIds.any (fun d => st.funcNs.lookupDevice cmd.device = d))

/-- The signal-writing loop of `UpdateSignals` (lines 289-300): resolve
each path, reject the sentinel and protected ids, and write; the first
failure stops the loop, leaving the writes made so far (the C++ returns
from inside the loop, and a store throw propagates). -/
inductive UpdWriteErr where
  | unknownSignal (path : String)
  | permissionDenied (path : String)
  | storeFailure (e : StoreErr)
deriving DecidableEq, Repr

def applyUpdates (ns : SignalNamespace) (protectedIds : Finset SignalId) :
    List (String × ℚ × String) → SignalStore → Option UpdWriteErr × SignalStore
  | [], store => (none, store)
  | (path, value, unit) :: rest, store =>
      match ns.resolve path with
      | none => (some (.unknownSignal path), store)
      | some id =>
          if id ∈ protectedIds then (some (.permissionDenied path), store)
          else
            match store.write id value unit with
            | .error e => (some (.storeFailure e), store)
            | .ok store' => applyUpdates ns protectedIds rest store'

/-- `UpdateSignals` outcome.  `ticked` is the completer's response built
from the completed-tick snapshot; `timedWait` marks the early arriver
parking on the condition variable (its later wake-up is concurrency,
outside this embedding). -/
inductive UpdResult where
  | notLoaded
  | unknownSession
  | writeError (e : UpdWriteErr)
  | engineFailure (e : EngineErr)
  | ticked (simTime : ℚ) (commands : List Command)
  | timedWait (generation : ℕ)
deriving DecidableEq, Repr

/-- `FluxGraphServiceImpl::UpdateSignals` (lines 263-375): loaded and
session checks; touch the session's `last_update` and prune other stale
sessions; write the submitted signals (stopping at the first failure);
record this session's submission for the current generation; if every
session has submitted for it, run one engine tick, advance `sim_time` and
the generation, drain the commands into the completed-tick snapshot and
answer from it; otherwise park (`timedWait`). -/
def updateSignals (env : Env R) (st : CoordState R) (now : ℕ) (sessionId : String)
    (signals : List (String × ℚ × String)) : UpdResult × CoordState R :=
  if !st.loaded then (.notLoaded, st)
  else
    match st.findSession sessionId with
    | none => (.unknownSession, st)
    | some _ =>
        let st1 := (st.mapSession sessionId
          (fun s => { s with lastUpdate := now })).pruneStaleSessions sessionId now
        let currentGeneration := st1.tickGeneration
        match applyUpdates st1.signalNs st1.protectedWriteSignals signals st1.store with
        | (some e, store') => (.writeError e, { st1 with store := store' })
        | (none, store') =>
            let st2 := CoordState.mapSession { st1 with store := store' } sessionId
              (fun s => { s with lastTickGeneration := some currentGeneration })
            let allReady := !st2.sessions.isEmpty &&
              st2.sessions.all (fun p =>
                match p.2.lastTickGeneration with
                | none => false
                | some v => !(v < currentGeneration))
            if allReady then
              match Engine.tick env st2.engine st2.dt st2.store with
              | .error e => (.engineFailure e, st2)
              | .ok (engine', store'') =>
                  let simTime' := st2.simTime + st2.dt
                  let generation' := st2.tickGeneration + 1
                  let (drained, engine'') := engine'.drainCommands
                  let st3 :=
                    { st2 with
                      engine := engine''
                      store := store''
                      simTime := simTime'
                      tickGeneration := generation'
                      lastCompletedGeneration := generation'
                      lastCompletedSimTime := simTime'
                      lastCompletedCommands := drained }
                  (.ticked st3.lastCompletedSimTime
                     (st3.filterCommandsForSession sessionId st3.lastCompletedCommands),
                   st3)
            else
              (.timedWait currentGeneration, st2)

/-- `FluxGraphServiceImpl::ReadSignals` (lines 381-409): `none` when not
loaded; otherwise one `(path, value, unit, physics_driven)` tuple per
known path, unknown paths silently skipped. -/
def readSignals (st : CoordState R) (paths : List String) :
    Option (List (String × ℚ × String × Bool)) :=
  if !st.loaded then none
  else some (paths.filterMap (fun path =>
    match st.signalNs.resolve path with
    | none => none
    | some id =>
        let sig := st.store.read id
        some (path, sig.value, sig.unit, st.store.isPhysicsDriven id)))

/-- `Reset` outcome. -/
inductive ResetResult where
  | notLoaded
  | ok
deriving DecidableEq, Repr

/-- `FluxGraphServiceImpl::Reset` (lines 415-460): reset the engine,
clear the store, re-mark the physics-owned signals, zero the simulation
clock and the generation counters, clear the snapshot, and require every
session to resubmit for generation 0. -/
def resetCoord (env : Env R) (st : CoordState R) : ResetResult × CoordState R :=
  if !st.loaded then (.notLoaded, st)
  else
    let store1 := (st.physicsOwnedSignals.sort (· ≤ ·)).foldl
      (fun acc id => acc.markPhysicsDriven id true) st.store.clear
    (.ok,
     { st with
       engine := st.engine.reset env
       store := store1
       simTime := 0
       tickGeneration := 0
       lastCompletedGeneration := 0
       lastCompletedSimTime := 0
       lastCompletedCommands := []
       sessions := st.sessions.map (fun p => (p.1, { p.2 with lastTickGeneration := none })) })

end CoordState

/-! ## Proofs -/

namespace SignalNamespace

/-- Namespace evolution during compilation is append-only. -/
def Extends (ns ns' : SignalNamespace) : Prop := ns.paths <+: ns'.paths

theorem Extends.refl (ns : SignalNamespace) : Extends ns ns := List.prefix_refl _

theorem Extends.trans {a b c : SignalNamespace} (h1 : Extends a b) (h2 : Extends b c) :
    Extends a c := List.IsPrefix.trans h1 h2

theorem intern_extends (ns : SignalNamespace) (p : String) :
    Extends ns (ns.intern p).2 := by
  unfold intern
  split
  · exact Extends.refl ns
  · exact ⟨[p], rfl⟩

/-- Resolutions survive interning more paths. -/
theorem resolve_of_extends {ns ns' : SignalNamespace} (h : Extends ns ns')
    {p : String} {i : SignalId} (hr : ns.resolve p = some i) : ns'.resolve p = some i := by
  rcases h with ⟨t, ht⟩
  unfold resolve at hr ⊢
  rw [← ht]
  split at hr
  · rename_i hmem
    cases hr
    simp [List.mem_append, hmem, List.indexOf_append_of_mem hmem]
  · cases hr

/-- Interning makes the path resolvable, to the returned id. -/
theorem resolve_intern (ns : SignalNamespace) (p : String) :
    (ns.intern p).2.resolve p = some (ns.intern p).1 := by
  unfold intern resolve
  by_cases hmem : p ∈ ns.paths
  · simp [hmem]
  · simp [hmem, List.indexOf_append_of_not_mem hmem]

/-- Distinct paths never resolve to the same id (interned ids are dense
and unique). -/
theorem resolve_inj {ns : SignalNamespace} {p q : String} {i : SignalId}
    (hp : ns.resolve p = some i) (hq : ns.resolve q = some i) : p = q := by
  unfold resolve at hp hq
  split at hp
  · rename_i hpm
    cases hp
    split at hq
    · rename_i hqm
      have hq' := Option.some.inj hq
      have h1 : ns.paths.get ⟨ns.paths.indexOf p, List.indexOf_lt_length.mpr hpm⟩ = p :=
        List.indexOf_get _
      have h2 : ns.paths.get ⟨ns.paths.indexOf q, List.indexOf_lt_length.mpr hqm⟩ = q :=
        List.indexOf_get _
      rw [← h1, ← h2]
      congr 1
      exact Fin.ext hq'.symm
    · cases hq
  · cases hp

end SignalNamespace

/-- The per-edge correspondence established by the edge-compilation loop:
in the resulting namespace, each compiled edge's source and target are
the resolutions of its spec's paths, and the delay flag reflects the
transform kind. -/
theorem parseEdges_spec {R : Type} (env : Env R) :
    ∀ (specs : List EdgeSpec) (ns : SignalNamespace) (edges : List (CompiledEdge R))
      (ns' : SignalNamespace),
      parseEdges env specs ns = .ok (edges, ns') →
      ns.Extends ns' ∧
      List.Forall₂ (fun (es : EdgeSpec) (e : CompiledEdge R) =>
        ns'.resolve es.sourcePath = some e.source ∧
        ns'.resolve es.targetPath = some e.target ∧
        e.isDelay = decide (es.transform.type = "delay")) specs edges := by
  intro specs
  induction specs with
  | nil =>
      intro ns edges ns' h
      unfold parseEdges at h
      cases h
      exact ⟨SignalNamespace.Extends.refl ns, List.Forall₂.nil⟩
  | cons es rest ih =>
      intro ns edges ns' h
      unfold parseEdges at h
      rcases hsrc : ns.intern es.sourcePath with ⟨src, ns1⟩
      rw [hsrc] at h
      dsimp only at h
      rcases htgt : ns1.intern es.targetPath with ⟨tgt, ns2⟩
      rw [htgt] at h
      dsimp only at h
      cases htf : parseTransform env es.transform with
      | error e => rw [htf] at h; exact absurd h (by simp [bind, Except.bind])
      | ok tf =>
          rw [htf] at h
          cases hrest : parseEdges env rest ns2 with
          | error e => rw [hrest] at h; exact absurd h (by simp [bind, Except.bind])
          | ok pr =>
              rw [hrest] at h
              simp only [bind, Except.bind, pure, Except.pure] at h
              cases h
              obtain ⟨es', ns3⟩ := pr
              rcases ih ns2 es' ns3 hrest with ⟨hext, hfa⟩
              have hext1 : ns.Extends ns1 := by
                have := SignalNamespace.intern_extends ns es.sourcePath
                rw [hsrc] at this; exact this
              have hext2 : ns1.Extends ns2 := by
                have := SignalNamespace.intern_extends ns1 es.targetPath
                rw [htgt] at this; exact this
              have hsrcr : ns1.resolve es.sourcePath = some src := by
                have := SignalNamespace.resolve_intern ns es.sourcePath
                rw [hsrc] at this; exact this
              have htgtr : ns2.resolve es.targetPath = some tgt := by
                have := SignalNamespace.resolve_intern ns1 es.targetPath
                rw [htgt] at this; exact this
              refine ⟨(hext1.trans hext2).trans hext, List.Forall₂.cons ⟨?_, ?_, ?_⟩ hfa⟩
              · exact SignalNamespace.resolve_of_extends hext
                  (SignalNamespace.resolve_of_extends hext2 hsrcr)
              · exact SignalNamespace.resolve_of_extends hext htgtr
              · simp

/-- The correspondence established by the model-output half of the
ownership pass: each id is the resolution of the `temp_signal` parameter
of the matching `thermal_mass` model. -/
theorem modelOutputIds_spec :
    ∀ (specs : List ModelSpec) (ns : SignalNamespace) (ids : List SignalId)
      (ns' : SignalNamespace),
      modelOutputIds specs ns = .ok (ids, ns') →
      ns.Extends ns' ∧
      List.Forall₂ (fun (ms : ModelSpec) (id : SignalId) =>
        ∃ path, ms.params.find "temp_signal" = some (.s path) ∧
          ns'.resolve path = some id)
        (specs.filter (fun ms => ms.type = "thermal_mass")) ids := by
  intro specs
  induction specs with
  | nil =>
      intro ns ids ns' h
      unfold modelOutputIds at h
      cases h
      exact ⟨SignalNamespace.Extends.refl ns, by simp⟩
  | cons ms rest ih =>
      intro ns ids ns' h
      unfold modelOutputIds at h
      by_cases hty : ms.type = "thermal_mass"
      · rw [if_pos hty] at h
        dsimp only at h
        cases hreq : requireParam ms.params "temp_signal"
            ("model[" ++ ms.id ++ ":" ++ ms.type ++ "]") with
        | error e => rw [hreq] at h; exact absurd h (by simp [bind, Except.bind])
        | ok v =>
            rw [hreq] at h
            simp only [bind, Except.bind] at h
            cases hstr : asString v
                ("model[" ++ ms.id ++ ":" ++ ms.type ++ "]" ++ "/temp_signal") with
            | error e =>
                rw [hstr] at h
                exact absurd h (by simp [bind, Except.bind])
            | ok path =>
                rw [hstr] at h
                simp only [bind, Except.bind] at h
                cases hrest : modelOutputIds rest (ns.intern path).2 with
                | error e => rw [hrest] at h; exact absurd h (by simp [bind, Except.bind])
                | ok pr =>
                    rw [hrest] at h
                    simp only [pure, Except.pure] at h
                    cases h
                    obtain ⟨ids1, ns2⟩ := pr
                    rcases ih (ns.intern path).2 ids1 ns2 hrest with ⟨hext, hfa⟩
                    have hext1 : ns.Extends (ns.intern path).2 :=
                      SignalNamespace.intern_extends ns path
                    have hres : (ns.intern path).2.resolve path = some (ns.intern path).1 :=
                      SignalNamespace.resolve_intern ns path
                    have hv : ms.params.find "temp_signal" = some v := by
                      unfold requireParam at hreq
                      cases hf : ms.params.find "temp_signal" with
                      | none => rw [hf] at hreq; cases hreq
                      | some w =>
                          rw [hf] at hreq
                          dsimp only at hreq
                          cases hreq
                          rfl
                    have hfind : ms.params.find "temp_signal" = some (.s path) := by
                      cases v with
                      | s x =>
                          unfold asString at hstr
                          cases hstr
                          exact hv
                      | f x => exact absurd hstr (by simp [asString])
                      | i x => exact absurd hstr (by simp [asString])
                      | b x => exact absurd hstr (by simp [asString])
                    refine ⟨hext1.trans hext, ?_⟩
                    rw [List.filter_cons_of_pos (by simp [hty])]
                    exact List.Forall₂.cons
                      ⟨path, hfind, SignalNamespace.resolve_of_extends hext hres⟩ hfa
      · rw [if_neg hty] at h
        cases hrest : modelOutputIds rest ns with
        | error e => rw [hrest] at h; exact absurd h (by simp [bind, Except.bind])
        | ok pr =>
            rw [hrest] at h
            simp only [bind, Except.bind, pure, Except.pure] at h
            cases h
            obtain ⟨ids1, ns2⟩ := pr
            rcases ih ns ids1 ns2 hrest with ⟨hext, hfa⟩
            refine ⟨hext, ?_⟩
            rw [List.filter_cons_of_neg (by simp [hty])]
            exact hfa

/-- `checkWriters` either passes or reports a duplicate writer. -/
theorem checkWriters_dichotomy :
    ∀ (ids seen : List SignalId), checkWriters ids seen = .ok () ∨
      ∃ id, checkWriters ids seen = .error (.multipleWriters id) := by
  intro ids
  induction ids with
  | nil => intro seen; left; rfl
  | cons id rest ih =>
      intro seen
      by_cases hmem : id ∈ seen
      · right; exact ⟨id, by simp [checkWriters, hmem]⟩
      · have := ih (id :: seen)
        simpa [checkWriters, hmem] using this

/-- `checkWriters` passes exactly when the writer list has no duplicates
(and avoids the already-seen set). -/
theorem checkWriters_ok_iff :
    ∀ (ids seen : List SignalId),
      checkWriters ids seen = .ok () ↔ ids.Nodup ∧ ∀ x ∈ ids, x ∉ seen := by
  intro ids
  induction ids with
  | nil => intro seen; simp [checkWriters]
  | cons id rest ih =>
      intro seen
      by_cases hmem : id ∈ seen
      · simp only [checkWriters, if_pos hmem]
        constructor
        · intro h; cases h
        · rintro ⟨_, h⟩
          exact absurd hmem (h id (List.mem_cons_self id rest))
      · rw [show checkWriters (id :: rest) seen = checkWriters rest (id :: seen) from by
          simp [checkWriters, hmem]]
        rw [ih (id :: seen)]
        constructor
        · rintro ⟨hnd, hnm⟩
          refine ⟨List.nodup_cons.mpr ⟨fun hc => ?_, hnd⟩, ?_⟩
          · exact (hnm id hc) (List.mem_cons_self id seen)
          · intro x hx
            rcases List.mem_cons.mp hx with rfl | hx'
            · exact hmem
            · exact fun hc => (hnm x hx') (List.mem_cons.mpr (Or.inr hc))
        · rintro ⟨hnd, hnm⟩
          rcases List.nodup_cons.mp hnd with ⟨hnin, hnd'⟩
          refine ⟨hnd', fun x hx hc => ?_⟩
          rcases List.mem_cons.mp hc with rfl | hc'
          · exact hnin hx
          · exact (hnm x (List.mem_cons.mpr (Or.inr hx))) hc'

/-! ### Plumbing: how `compile` composes its phases -/

section CompilePlumbing

variable {R : Type} (env : Env R) (spec : GraphSpec) (ns : SignalNamespace)
  (fn : FunctionNamespace) (dt : ℚ)

theorem compile_err_models {e : CompileErr}
    (hpm : parseModels spec.models ns = .error e) :
    compile env spec ns fn dt = .error e := by
  simp only [compile, hpm, bind, Except.bind]

theorem compile_err_stability {models ns1 e}
    (hpm : parseModels spec.models ns = .ok (models, ns1)) (hdt : 0 < dt)
    (hval : validateStability models dt = .error e) :
    compile env spec ns fn dt = .error e := by
  simp only [compile, hpm, hval, hdt, if_pos, bind, Except.bind]

theorem compile_err_edges {models ns1 e}
    (hpm : parseModels spec.models ns = .ok (models, ns1))
    (hval : 0 < dt → validateStability models dt = .ok ())
    (hpe : parseEdges env spec.edges ns1 = .error e) :
    compile env spec ns fn dt = .error e := by
  by_cases hdt : 0 < dt
  · simp only [compile, hpm, hval hdt, hpe, if_pos hdt, bind, Except.bind]
  · simp only [compile, hpm, hpe, if_neg hdt, bind, Except.bind, pure, Except.pure]

theorem compile_err_modelOutputs {models ns1 edges ns2 e}
    (hpm : parseModels spec.models ns = .ok (models, ns1))
    (hval : 0 < dt → validateStability models dt = .ok ())
    (hpe : parseEdges env spec.edges ns1 = .ok (edges, ns2))
    (hmo : modelOutputIds spec.models ns2 = .error e) :
    compile env spec ns fn dt = .error e := by
  by_cases hdt : 0 < dt
  · simp only [compile, hpm, hval hdt, hpe, hmo, if_pos hdt, bind, Except.bind]
  · simp only [compile, hpm, hpe, hmo, if_neg hdt, bind, Except.bind, pure, Except.pure]

theorem compile_err_writers {models ns1 edges ns2 outIds ns3 e}
    (hpm : parseModels spec.models ns = .ok (models, ns1))
    (hval : 0 < dt → validateStability models dt = .ok ())
    (hpe : parseEdges env spec.edges ns1 = .ok (edges, ns2))
    (hmo : modelOutputIds spec.models ns2 = .ok (outIds, ns3))
    (hcw : checkWriters (edges.map (·.target) ++ outIds) [] = .error e) :
    compile env spec ns fn dt = .error e := by
  by_cases hdt : 0 < dt
  · simp only [compile, hpm, hval hdt, hpe, hmo, hcw, if_pos hdt, bind, Except.bind]
  · simp only [compile, hpm, hpe, hmo, hcw, if_neg hdt, bind, Except.bind, pure, Except.pure]

theorem compile_err_detect {models ns1 edges ns2 outIds ns3 e}
    (hpm : parseModels spec.models ns = .ok (models, ns1))
    (hval : 0 < dt → validateStability models dt = .ok ())
    (hpe : parseEdges env spec.edges ns1 = .ok (edges, ns2))
    (hmo : modelOutputIds spec.models ns2 = .ok (outIds, ns3))
    (hcw : checkWriters (edges.map (·.target) ++ outIds) [] = .ok ())
    (hdc : detectCycles edges = .error e) :
    compile env spec ns fn dt = .error e := by
  by_cases hdt : 0 < dt
  · simp only [compile, hpm, hval hdt, hpe, hmo, hcw, hdc, if_pos hdt, bind, Except.bind]
  · simp only [compile, hpm, hpe, hmo, hcw, hdc, if_neg hdt, bind, Except.bind,
      pure, Except.pure]

theorem compile_err_toposort {models ns1 edges ns2 outIds ns3 e}
    (hpm : parseModels spec.models ns = .ok (models, ns1))
    (hval : 0 < dt → validateStability models dt = .ok ())
    (hpe : parseEdges env spec.edges ns1 = .ok (edges, ns2))
    (hmo : modelOutputIds spec.models ns2 = .ok (outIds, ns3))
    (hcw : checkWriters (edges.map (·.target) ++ outIds) [] = .ok ())
    (hdc : detectCycles edges = .ok ())
    (hts : topologicalSort edges = .error e) :
    compile env spec ns fn dt = .error e := by
  by_cases hdt : 0 < dt
  · simp only [compile, hpm, hval hdt, hpe, hmo, hcw, hdc, hts, if_pos hdt, bind, Except.bind]
  · simp only [compile, hpm, hpe, hmo, hcw, hdc, hts, if_neg hdt, bind, Except.bind,
      pure, Except.pure]

theorem compile_err_rules {models ns1 edges ns2 outIds ns3 sortedEdges e}
    (hpm : parseModels spec.models ns = .ok (models, ns1))
    (hval : 0 < dt → validateStability models dt = .ok ())
    (hpe : parseEdges env spec.edges ns1 = .ok (edges, ns2))
    (hmo : modelOutputIds spec.models ns2 = .ok (outIds, ns3))
    (hcw : checkWriters (edges.map (·.target) ++ outIds) [] = .ok ())
    (hdc : detectCycles edges = .ok ())
    (hts : topologicalSort edges = .ok sortedEdges)
    (hcr : compileRules spec.rules ns3 fn = .error e) :
    compile env spec ns fn dt = .error e := by
  by_cases hdt : 0 < dt
  · simp only [compile, hpm, hval hdt, hpe, hmo, hcw, hdc, hts, hcr, if_pos hdt,
      bind, Except.bind]
  · simp only [compile, hpm, hpe, hmo, hcw, hdc, hts, hcr, if_neg hdt, bind, Except.bind,
      pure, Except.pure]

theorem compile_ok_build {models ns1 edges ns2 outIds ns3 sortedEdges rules ns4 fn1}
    (hpm : parseModels spec.models ns = .ok (models, ns1))
    (hval : 0 < dt → validateStability models dt = .ok ())
    (hpe : parseEdges env spec.edges ns1 = .ok (edges, ns2))
    (hmo : modelOutputIds spec.models ns2 = .ok (outIds, ns3))
    (hcw : checkWriters (edges.map (·.target) ++ outIds) [] = .ok ())
    (hdc : detectCycles edges = .ok ())
    (hts : topologicalSort edges = .ok sortedEdges)
    (hcr : compileRules spec.rules ns3 fn = .ok (rules, ns4, fn1)) :
    compile env spec ns fn dt = .ok (⟨sortedEdges, models, rules⟩, ns4, fn1) := by
  by_cases hdt : 0 < dt
  · simp only [compile, hpm, hval hdt, hpe, hmo, hcw, hdc, hts, hcr, if_pos hdt,
      bind, Except.bind, pure, Except.pure]
  · simp only [compile, hpm, hpe, hmo, hcw, hdc, hts, hcr, if_neg hdt, bind, Except.bind,
      pure, Except.pure]

end CompilePlumbing

/-- Forall₂ membership extraction. -/
theorem forall₂_mem_left {α β : Type _} {r : α → β → Prop} :
    ∀ {l₁ : List α} {l₂ : List β}, List.Forall₂ r l₁ l₂ → ∀ {a}, a ∈ l₁ →
      ∃ b, b ∈ l₂ ∧ r a b := by
  intro l₁ l₂ h
  induction h with
  | nil => intro a ha; cases ha
  | cons hr _ ih =>
      intro a ha
      rcases List.mem_cons.mp ha with rfl | ha'
      · exact ⟨_, List.mem_cons_self _ _, hr⟩
      · rcases ih ha' with ⟨b, hb, hrb⟩
        exact ⟨b, List.mem_cons.mpr (Or.inr hb), hrb⟩

namespace SignalStore

theorem read_write_self (s : SignalStore) (id : SignalId) (v : ℚ) (u : String)
    (hid : id ≠ INVALID_SIGNAL) (s' : SignalStore) (h : s.write id v u = .ok s') :
    s'.read id = ⟨v, normalizeUnit u⟩ := by
  unfold write at h
  simp only [if_neg hid] at h
  rcases hd : s.declaredUnits id with _ | d
  · simp only [hd] at h
    split at h
    · split at h
      · exact absurd h (by simp)
      · cases h
        simp [read, hid]
    · cases h
      simp [read, hid]
  · simp only [hd] at h
    split at h
    · exact absurd h (by simp)
    · cases h
      simp [read, hid]

end SignalStore

/-- The unit-contract statement of the signal store, for a non-sentinel
signal id: (1) a first write with a non-dimensionless normalised unit
declares that unit and stores the value; (2) a first write with a
dimensionless normalised unit stores the value without declaring a unit;
(3) once a unit is declared, a write whose normalised unit differs fails
with the unit mismatch; (4) a write whose normalised unit matches the
declared unit succeeds, updates the value and keeps the declaration;
(5) `clear` erases every value and physics flag and keeps every declared
unit. -/
def UnitContract (s : SignalStore) (id : SignalId) (v : ℚ) (u : String) : Prop :=
  (s.declaredUnits id = none → SignalStore.normalizeUnit u ≠ "dimensionless" →
    ∃ s', s.write id v u = .ok s' ∧
      s'.declaredUnits id = some (SignalStore.normalizeUnit u) ∧
      s'.read id = ⟨v, SignalStore.normalizeUnit u⟩) ∧
  (s.declaredUnits id = none → SignalStore.normalizeUnit u = "dimensionless" →
    ∃ s', s.write id v u = .ok s' ∧ s'.declaredUnits id = none ∧
      s'.read id = ⟨v, SignalStore.normalizeUnit u⟩) ∧
  (∀ d, s.declaredUnits id = some d → SignalStore.normalizeUnit u ≠ d →
    s.write id v u = .error (.unitMismatch id d (SignalStore.normalizeUnit u))) ∧
  (∀ d, s.declaredUnits id = some d → SignalStore.normalizeUnit u = d →
    ∃ s', s.write id v u = .ok s' ∧ s'.declaredUnits id = some d ∧
      s'.read id = ⟨v, SignalStore.normalizeUnit u⟩) ∧
  (∀ j, s.clear.read j = Signal.default ∧ s.clear.isPhysicsDriven j = false ∧
    s.clear.declaredUnits j = s.declaredUnits j)

/-- C6: the signal store's unit contract: the first write whose
empty-normalised unit is not `"dimensionless"` fixes the declared unit;
subsequent writes with a differing normalised unit fail with a unit
mismatch and matching writes succeed and update the value; `clear`
removes values and physics-driven flags but preserves declared units.
(The reserved sentinel id, which `write` ignores by its own contract, is
excluded.) -/
theorem fluxC6_unit_contract (s : SignalStore) (id : SignalId) (v : ℚ) (u : String)
    (hid : id ≠ INVALID_SIGNAL) : UnitContract s id v u := by
  refine ⟨?_, ?_, ?_, ?_, ?_⟩
  · intro hnone hnd
    refine ⟨{ s with
        signals := fun i => if i = id then some ⟨v, SignalStore.normalizeUnit u⟩ else s.signals i
        declaredUnits := fun i =>
          if i = id then some (SignalStore.normalizeUnit u) else s.declaredUnits i },
      ?_, by simp, by simp [SignalStore.read, hid]⟩
    unfold SignalStore.write
    simp [hid, hnone, hnd]
  · intro hnone hd
    refine ⟨{ s with
        signals := fun i => if i = id then some ⟨v, SignalStore.normalizeUnit u⟩ else s.signals i },
      ?_, by simpa using hnone, by simp [SignalStore.read, hid]⟩
    unfold SignalStore.write
    simp [hid, hnone, hd]
  · intro d hdecl hne
    unfold SignalStore.write
    simp [hid, hdecl, Ne.symm hne]
  · intro d hdecl heq
    refine ⟨{ s with
        signals := fun i => if i = id then some ⟨v, SignalStore.normalizeUnit u⟩ else s.signals i
        declaredUnits := fun i => if i = id then some d else s.declaredUnits i },
      ?_, by simp, by simp [SignalStore.read, hid]⟩
    unfold SignalStore.write
    simp [hid, hdecl, heq]
  · intro j
    refine ⟨?_, rfl, rfl⟩
    unfold SignalStore.clear SignalStore.read
    split <;> rfl

/-- Witness for C6 at a concrete input. -/
theorem fluxC6_unit_contract_witness :
    (0 : SignalId) ≠ INVALID_SIGNAL ∧ UnitContract SignalStore.init 0 1 "W" :=
  ⟨by decide, fluxC6_unit_contract SignalStore.init 0 1 "W" (by decide)⟩

namespace Transform

/-- For every transform other than noise, `clone` copies configuration and
state verbatim, so the clone is literally the same value. -/
theorem clone_eq_of_not_noise {R : Type} (t : Transform R) (h : t.isNoise = false) :
    t.clone = t := by
  cases t <;> first
    | rfl
    | exact absurd h (by simp [isNoise])

end Transform

/-- C8 (counterexample): with a conforming stateful realisation of
`std::normal_distribution` (the Marsaglia polar cache of the mainstream
standard libraries, instantiated concretely in `envCex`), a freshly
constructed `NoiseTransform(1, 0)` after a single `apply` call is a
reachable state whose clone — which copies `rng_` but constructs a fresh
distribution — produces a different next output than the original, because
the original's next sample is the distribution's cached spare.  This
refutes the claim that every clone replays the original's outputs on an
identical call sequence. -/
theorem fluxC8_counterexample :
    Transform.applySeq envCex
        (Transform.clone
          ((Transform.apply envCex (.noise 1 0 (envCex.rngInit 0) none) 0 1).2)) [(0, 1)] ≠
      Transform.applySeq envCex
        ((Transform.apply envCex (.noise 1 0 (envCex.rngInit 0) none) 0 1).2) [(0, 1)] := by
  norm_num [Transform.applySeq, Transform.apply, Transform.clone, envCex]

/-- The amended C8 statement: (1) every transform other than noise clones
configuration and internal state verbatim, so the clone's outputs on any
identical `(input, dt)` call sequence coincide with the original's;
(2) the noise clone coincides in behaviour whenever the original's
distribution holds no cached spare; (3) in general the noise clone copies
the amplitude, seed and current RNG engine state and empties the
distribution cache. -/
def CloneContract (R : Type) (env : Env R) : Prop :=
  (∀ (t : Transform R) (l : List (ℚ × ℚ)), t.isNoise = false →
    Transform.applySeq env t.clone l = Transform.applySeq env t l) ∧
  (∀ (amp : ℚ) (seed : ℕ) (rng : R) (l : List (ℚ × ℚ)),
    Transform.applySeq env (Transform.clone (.noise amp seed rng none)) l =
      Transform.applySeq env (.noise amp seed rng none) l) ∧
  (∀ (amp : ℚ) (seed : ℕ) (rng : R) (spare : Option ℚ),
    Transform.clone (.noise amp seed rng spare) = .noise amp seed rng none)

/-- C8 (amended): the clone contract that actually holds. -/
theorem fluxC8_clone_contract (R : Type) (env : Env R) : CloneContract R env := by
  refine ⟨?_, ?_, ?_⟩
  · intro t l h
    rw [Transform.clone_eq_of_not_noise t h]
  · intro amp seed rng l
    rfl
  · intro amp seed rng spare
    rfl

/-- Witness for C8's amended statement at a concrete input. -/
theorem fluxC8_clone_contract_witness :
    Transform.isNoise (R := ℕ) (.linear 2 1 none none) = false ∧
      Transform.applySeq envCex (Transform.clone (.linear 2 1 none none)) [(3, 1)] =
        Transform.applySeq envCex (.linear 2 1 none none) [(3, 1)] :=
  ⟨by decide, (fluxC8_clone_contract ℕ envCex).1 (.linear 2 1 none none) [(3, 1)] (by decide)⟩

/-! ### C9: the thermal-mass tick -/

/-- The amended C9 statement: `tick` reads `P_in` and `T_amb`, updates the
internal temperature by the forward-Euler step
`T + (P_in - h*(T - T_amb)) / C * dt`, writes it to the temperature
signal with unit `"degC"` and marks that signal physics-driven. -/
def ThermalTickSpec (m : ThermalMassModel) (dt : ℚ) (store : SignalStore) : Prop :=
  ∃ store',
    m.tick dt store =
      .ok ({ m with temperature := m.temperature +
              (store.readValue m.powerSignal -
                m.heatTransferCoeff * (m.temperature - store.readValue m.ambientSignal)) /
                m.thermalMass * dt }, store') ∧
    store'.read m.tempSignal =
      ⟨m.temperature +
        (store.readValue m.powerSignal -
          m.heatTransferCoeff * (m.temperature - store.readValue m.ambientSignal)) /
          m.thermalMass * dt, "degC"⟩ ∧
    store'.isPhysicsDriven m.tempSignal = true

/-- C9 (amended): the forward-Euler tick contract, for every store whose
declared unit for the temperature signal is absent or `"degC"` (and a
non-sentinel temperature id, as interning produces).  On any other store
the write throws the unit mismatch instead — see the counterexample. -/
theorem fluxC9_thermal_tick (m : ThermalMassModel) (dt : ℚ) (store : SignalStore)
    (hid : m.tempSignal ≠ INVALID_SIGNAL)
    (hdecl : store.declaredUnits m.tempSignal = none ∨
      store.declaredUnits m.tempSignal = some "degC") :
    ThermalTickSpec m dt store := by
  unfold ThermalTickSpec
  cases hw : store.write m.tempSignal
      (m.temperature +
        (store.readValue m.powerSignal -
          m.heatTransferCoeff * (m.temperature - store.readValue m.ambientSignal)) /
          m.thermalMass * dt) "degC" with
  | error e =>
      exfalso
      unfold SignalStore.write at hw
      rcases hdecl with hdecl | hdecl <;>
        simp [hid, hdecl, SignalStore.normalizeUnit] at hw
  | ok s1 =>
      refine ⟨s1.markPhysicsDriven m.tempSignal true, ?_, ?_, ?_⟩
      · simp only [ThermalMassModel.tick]
        rw [hw]
        rfl
      · have h1 := SignalStore.read_write_self store m.tempSignal _ "degC" hid s1 hw
        have h2 : (s1.markPhysicsDriven m.tempSignal true).read m.tempSignal =
            s1.read m.tempSignal := rfl
        rw [h2, h1]
        rfl
      · simp [SignalStore.markPhysicsDriven, SignalStore.isPhysicsDriven]

/-- A thermal-mass model as the compiler would instantiate it (ids 0-2). -/
def cexThermalModel : ThermalMassModel := ⟨"m", 0, 1, 2, 1000, 10, 25, 25⟩

/-- A store whose declared unit for the temperature signal is `"K"`. -/
def cexThermalStore : SignalStore := SignalStore.init.declareUnit 0 "K"

/-- C9 (counterexample): on a store whose declared unit for the
temperature signal differs from `"degC"`, `tick` does not write or mark
the temperature signal — the store write throws the unit mismatch, which
refutes the claim's quantification over every store. -/
theorem fluxC9_counterexample :
    cexThermalModel.tick (1/10) cexThermalStore = .error (.unitMismatch 0 "K" "degC") := by
  rfl

/-- Witness for C9's amended statement at a concrete input. -/
theorem fluxC9_thermal_tick_witness :
    ((cexThermalModel.tempSignal ≠ INVALID_SIGNAL) ∧
      (SignalStore.init.declaredUnits cexThermalModel.tempSignal = none ∨
        SignalStore.init.declaredUnits cexThermalModel.tempSignal = some "degC")) ∧
      ThermalTickSpec cexThermalModel (1/10) SignalStore.init :=
  ⟨⟨by decide, Or.inl rfl⟩,
   fluxC9_thermal_tick cexThermalModel (1/10) SignalStore.init (by decide) (Or.inl rfl)⟩

/-! ### C3: stability limits -/

/-- If some model of the list exceeds its stability limit for `dt`, the
stability validation fails with a stability violation. -/
theorem validateStability_error (models : List ThermalMassModel) (dt : ℚ)
    (h : ∃ m ∈ models, dtExceeds dt m.computeStabilityLimit = true) :
    ∃ mid, validateStability models dt = .error (.stabilityViolation mid) := by
  induction models with
  | nil => simp at h
  | cons m rest ih =>
      by_cases hm : dtExceeds dt m.computeStabilityLimit = true
      · exact ⟨m.id, by simp [validateStability, hm]⟩
      · rcases h with ⟨m', hm', hp⟩
        rcases List.mem_cons.mp hm' with rfl | hm'
        · exact absurd hp hm
        · rcases ih ⟨m', hm', hp⟩ with ⟨mid, hval⟩
          exact ⟨mid, by simp [validateStability, hm, hval]⟩

/-- The C3 statement: (1) the thermal-mass stability limit is `2*C/h`,
and `+infinity` (`none`) when `h <= 0`; (2) compiling with a positive
`expected_dt` exceeding some model's limit fails with a stability
violation (given that the models parse, so that compilation reaches the
stability check); (3) a loaded engine ticked with a `dt` exceeding some
model's limit fails with a stability violation before any stage runs (the
error carries no state: store, models and command queue are untouched);
(4) `tick` with non-positive `dt` also fails before any stage. -/
def StabilityContract : Prop :=
  (∀ m : ThermalMassModel,
    (m.heatTransferCoeff ≤ 0 → m.computeStabilityLimit = none) ∧
    (0 < m.heatTransferCoeff →
      m.computeStabilityLimit = some (2 * m.thermalMass / m.heatTransferCoeff))) ∧
  (∀ (R : Type) (env : Env R) (spec : GraphSpec) (ns : SignalNamespace)
      (fn : FunctionNamespace) (dt : ℚ) (models : List ThermalMassModel)
      (ns1 : SignalNamespace),
    parseModels spec.models ns = .ok (models, ns1) → 0 < dt →
    (∃ m ∈ models, dtExceeds dt m.computeStabilityLimit = true) →
    ∃ mid, compile env spec ns fn dt = .error (.stabilityViolation mid)) ∧
  (∀ (R : Type) (env : Env R) (e : Engine R) (dt : ℚ) (store : SignalStore),
    e.loaded = true → 0 < dt →
    (∃ m ∈ e.models, dtExceeds dt m.computeStabilityLimit = true) →
    ∃ mid, Engine.tick env e dt store = .error (.stabilityViolation mid)) ∧
  (∀ (R : Type) (env : Env R) (e : Engine R) (dt : ℚ) (store : SignalStore),
    dt ≤ 0 → ∃ er, Engine.tick env e dt store = .error er)

/-- C3: stability limits are enforced at compile time and at tick time. -/
theorem fluxC3_stability : StabilityContract := by
  refine ⟨?_, ?_, ?_, ?_⟩
  · intro m
    constructor
    · intro h
      simp [ThermalMassModel.computeStabilityLimit, h]
    · intro h
      simp [ThermalMassModel.computeStabilityLimit, not_le.mpr h]
  · intro R env spec ns fn dt models ns1 hpm hdt hex
    rcases validateStability_error models dt hex with ⟨mid, hval⟩
    refine ⟨mid, ?_⟩
    simp only [compile, hpm, hval, hdt, if_true, bind, Except.bind]
  · intro R env e dt store hloaded hdt hex
    have hfind : (e.models.find? (fun m => dtExceeds dt m.computeStabilityLimit)).isSome := by
      rw [List.find?_isSome]
      rcases hex with ⟨m, hm, hp⟩
      exact ⟨m, hm, hp⟩
    cases hf : e.models.find? (fun m => dtExceeds dt m.computeStabilityLimit) with
    | none => rw [hf] at hfind; simp at hfind
    | some m =>
        exact ⟨m.id, by simp [Engine.tick, hloaded, not_le.mpr hdt, hf]⟩
  · intro R env e dt store hdt
    cases hl : e.loaded with
    | false => exact ⟨.notLoaded, by simp [Engine.tick, hl]⟩
    | true => exact ⟨.nonPositiveDt, by simp [Engine.tick, hl, hdt]⟩

/-- The stability scenario S5 of the spec: `C = 1`, `h = 100`, limit
`0.02`, checked against `dt = 0.1`. -/
def cexStabSpec : GraphSpec :=
  ⟨[⟨"tm2", "thermal_mass",
     [("thermal_mass", .f 1), ("heat_transfer_coeff", .f 100), ("initial_temp", .f 25),
      ("temp_signal", .s "t"), ("power_signal", .s "p"), ("ambient_signal", .s "amb")]⟩],
   [], []⟩

/-- The parsed form of `cexStabSpec`'s single model. -/
def cexStabModel : ThermalMassModel := ⟨"tm2", 0, 1, 2, 1, 100, 25, 25⟩

/-- Witness for C3 at a concrete input (spec scenario S5). -/
theorem fluxC3_stability_witness :
    (parseModels cexStabSpec.models SignalNamespace.empty =
        .ok ([cexStabModel], ⟨["t", "p", "amb"]⟩) ∧
      (0 : ℚ) < 1/10 ∧
      (∃ m ∈ [cexStabModel], dtExceeds (1/10) m.computeStabilityLimit = true)) ∧
    ∃ mid, compile envCex cexStabSpec SignalNamespace.empty FunctionNamespace.empty (1/10) =
      .error (.stabilityViolation mid) :=
  ⟨⟨by decide, by norm_num,
    ⟨cexStabModel, by decide,
     by norm_num [dtExceeds, ThermalMassModel.computeStabilityLimit, cexStabModel]⟩⟩,
   fluxC3_stability.2.1 ℕ envCex cexStabSpec SignalNamespace.empty FunctionNamespace.empty
     (1/10) [cexStabModel] ⟨["t", "p", "amb"]⟩ (by decide) (by norm_num)
     ⟨cexStabModel, by decide,
      by norm_num [dtExceeds, ThermalMassModel.computeStabilityLimit, cexStabModel]⟩⟩

/-! ### C5: single-writer ownership -/

/-- The C5 statement: under the phases preceding the ownership check
succeeding, a `GraphSpec` in which two distinct edges share a target
path, or an edge target coincides with a `thermal_mass` model's
`temp_signal`, fails to compile with `MultipleWriters`; and the ownership
check itself passes on any duplicate-free writer list. -/
def SingleWriterContract : Prop :=
  (∀ (R : Type) (env : Env R) (spec : GraphSpec) (ns : SignalNamespace)
      (fn : FunctionNamespace) (dt : ℚ) (models : List ThermalMassModel)
      (ns1 : SignalNamespace) (edges : List (CompiledEdge R)) (ns2 : SignalNamespace)
      (outIds : List SignalId) (ns3 : SignalNamespace),
    parseModels spec.models ns = .ok (models, ns1) →
    (0 < dt → validateStability models dt = .ok ()) →
    parseEdges env spec.edges ns1 = .ok (edges, ns2) →
    modelOutputIds spec.models ns2 = .ok (outIds, ns3) →
    ((∃ i j ei ej, i ≠ j ∧ spec.edges.get? i = some ei ∧ spec.edges.get? j = some ej ∧
        ei.targetPath = ej.targetPath) ∨
      (∃ e ∈ spec.edges, ∃ m ∈ spec.models, m.type = "thermal_mass" ∧
        m.params.find "temp_signal" = some (.s e.targetPath))) →
    ∃ id, compile env spec ns fn dt = .error (.multipleWriters id)) ∧
  (∀ ids : List SignalId, ids.Nodup → checkWriters ids [] = .ok ())

/-- C5: duplicate writers are rejected with `MultipleWriters`; a
duplicate-free writer set passes the ownership check. -/
theorem fluxC5_single_writer : SingleWriterContract := by
  constructor
  · intro R env spec ns fn dt models ns1 edges ns2 outIds ns3 hpm hval hpe hmo hdup
    have hfa := (parseEdges_spec env spec.edges ns1 edges ns2 hpe).2
    have hlen : spec.edges.length = edges.length := hfa.length_eq
    have hnodup : ¬ (edges.map (·.target) ++ outIds).Nodup := by
      rcases hdup with ⟨i, j, ei, ej, hij, hgi, hgj, htgt⟩ | ⟨e, he, m, hm, hty, hfind⟩
      · -- two distinct spec edges with the same target path
        have hi : i < spec.edges.length := (List.get?_eq_some.mp hgi).1
        have hj : j < spec.edges.length := (List.get?_eq_some.mp hgj).1
        have hi' : i < edges.length := hlen ▸ hi
        have hj' : j < edges.length := hlen ▸ hj
        rcases List.forall₂_iff_get.mp hfa with ⟨_, hget⟩
        have hri := hget i hi hi'
        have hrj := hget j hj hj'
        have hei : spec.edges.get ⟨i, hi⟩ = ei := by
          have := List.get?_eq_get hi
          rw [this] at hgi
          exact Option.some.inj hgi
        have hej : spec.edges.get ⟨j, hj⟩ = ej := by
          have := List.get?_eq_get hj
          rw [this] at hgj
          exact Option.some.inj hgj
        rw [hei] at hri
        rw [hej] at hrj
        have hteq : (edges.get ⟨i, hi'⟩).target = (edges.get ⟨j, hj'⟩).target := by
          have h1 := hri.2.1
          have h2 := hrj.2.1
          rw [htgt] at h1
          rw [h1] at h2
          exact Option.some.inj h2
        intro hnd
        have hndm : (edges.map (·.target)).Nodup := (List.nodup_append.mp hnd).1
        have hgi' : (edges.map (·.target))[i]? = some (edges.get ⟨i, hi'⟩).target := by
          rw [List.getElem?_map, List.getElem?_eq_getElem hi']
          simp [List.get_eq_getElem]
        have hgj' : (edges.map (·.target))[j]? = some (edges.get ⟨j, hj'⟩).target := by
          rw [List.getElem?_map, List.getElem?_eq_getElem hj']
          simp [List.get_eq_getElem]
        have : i = j := by
          apply List.getElem?_inj (by simpa using hi') hndm
          rw [hgi', hgj', hteq]
        exact hij this
      · -- an edge target coinciding with a model output
        rcases List.mem_iff_get.mp he with ⟨⟨i, hi⟩, hei⟩
        have hi' : i < edges.length := hlen ▸ hi
        rcases List.forall₂_iff_get.mp hfa with ⟨_, hget⟩
        have hri := hget i hi hi'
        rw [hei] at hri
        have hmfa := (modelOutputIds_spec spec.models ns2 outIds ns3 hmo).2
        have hmext : ns2.Extends ns3 := (modelOutputIds_spec spec.models ns2 outIds ns3 hmo).1
        have hmth : m ∈ spec.models.filter (fun ms => ms.type = "thermal_mass") := by
          rw [List.mem_filter]
          exact ⟨hm, by simp [hty]⟩
        rcases forall₂_mem_left hmfa hmth with ⟨o, ho, path, hpath, hres⟩
        have hpath' : path = e.targetPath := by
          rw [hfind] at hpath
          cases hpath
          rfl
        have htres : ns3.resolve e.targetPath = some (edges.get ⟨i, hi'⟩).target :=
          SignalNamespace.resolve_of_extends hmext hri.2.1
        have hto : (edges.get ⟨i, hi'⟩).target = o := by
          rw [hpath'] at hres
          rw [htres] at hres
          exact Option.some.inj hres
        intro hnd
        have hdisj := List.disjoint_of_nodup_append hnd
        have homem : o ∈ edges.map (·.target) := by
          rw [← hto]
          exact List.mem_map.mpr ⟨edges.get ⟨i, hi'⟩, List.get_mem _ _ _, rfl⟩
        exact hdisj homem ho
    rcases checkWriters_dichotomy (edges.map (·.target) ++ outIds) [] with hok | ⟨id, herr⟩
    · exact absurd ((checkWriters_ok_iff _ _).mp hok).1 hnodup
    · exact ⟨id, compile_err_writers env spec ns fn dt hpm hval hpe hmo herr⟩
  · intro ids hnd
    exact (checkWriters_ok_iff ids []).mpr ⟨hnd, by simp⟩

/-! ### C4: algebraic-loop detection

Correctness of the colouring DFS of `detect_cycles`.  The graph relations
used in the statements: -/

/-- The directed-edge relation of a compiled edge list. -/
def edgeRel {R : Type} (edges : List (CompiledEdge R)) (a b : SignalId) : Prop :=
  ∃ e ∈ edges, e.source = a ∧ e.target = b

/-- The non-delay (immediate) edge relation. -/
def nonDelayRel {R : Type} (edges : List (CompiledEdge R)) (a b : SignalId) : Prop :=
  ∃ e ∈ edges, e.isDelay = false ∧ e.source = a ∧ e.target = b

/-- The edge relation of an adjacency function. -/
def adjRel (adj : SignalId → List SignalId) (a b : SignalId) : Prop := b ∈ adj a

/-- The non-delay edge relation of a `GraphSpec`, over signal paths. -/
def specNonDelayRel (spec : GraphSpec) (a b : String) : Prop :=
  ∃ es ∈ spec.edges, es.transform.type ≠ "delay" ∧ es.sourcePath = a ∧ es.targetPath = b

/-- The edge relation of a `GraphSpec`, over signal paths. -/
def specEdgeRel (spec : GraphSpec) (a b : String) : Prop :=
  ∃ es ∈ spec.edges, es.sourcePath = a ∧ es.targetPath = b

/-- No black node lies on a cycle — the key invariant of the DFS: a node
is only blackened after all its targets are black, so a cycle through a
black node would close through an already-black node. -/
def NoBlackCycle (adj : SignalId → List SignalId) (c : SignalId → Color) : Prop :=
  ∀ b, c b = .black → ¬ Relation.TransGen (adjRel adj) b b

/-- The gray nodes are exactly the DFS stack, which is a path. -/
def GrayStack (adj : SignalId → List SignalId) (c : SignalId → Color)
    (st : List SignalId) : Prop :=
  (∀ x, c x = .gray ↔ x ∈ st) ∧ List.Chain' (adjRel adj) st

theorem adjRel_nonDelay_iff {R : Type} (edges : List (CompiledEdge R)) (a b : SignalId) :
    adjRel (nonDelayAdj edges) a b ↔ nonDelayRel edges a b := by
  unfold adjRel nonDelayAdj nonDelayRel
  simp only [List.mem_map, List.mem_filter]
  constructor
  · rintro ⟨e, ⟨⟨he, hd⟩, hs⟩, ht⟩
    exact ⟨e, he, by simpa using hd, by simpa using hs, ht⟩
  · rintro ⟨e, he, hd, hs, ht⟩
    exact ⟨e, ⟨⟨he, by simp [hd]⟩, by simp [hs]⟩, ht⟩

/-- Fold-insert monotonicity for the node set. -/
theorem mem_foldl_insert_of_mem {R : Type} :
    ∀ (l : List (CompiledEdge R)) (acc : Finset SignalId) (x : SignalId), x ∈ acc →
      x ∈ l.foldl (fun acc e => insert e.target (insert e.source acc)) acc := by
  intro l
  induction l with
  | nil => intro acc x hx; exact hx
  | cons e rest ih =>
      intro acc x hx
      exact ih _ x (by simp [hx])

theorem endpoints_mem_foldl_insert {R : Type} :
    ∀ (l : List (CompiledEdge R)) (acc : Finset SignalId) (e : CompiledEdge R), e ∈ l →
      e.source ∈ l.foldl (fun acc e => insert e.target (insert e.source acc)) acc ∧
      e.target ∈ l.foldl (fun acc e => insert e.target (insert e.source acc)) acc := by
  intro l
  induction l with
  | nil => intro acc e he; cases he
  | cons e0 rest ih =>
      intro acc e he
      rcases List.mem_cons.mp he with rfl | he'
      · constructor
        · exact mem_foldl_insert_of_mem rest _ _ (by simp)
        · exact mem_foldl_insert_of_mem rest _ _ (by simp)
      · exact ih _ e he'

/-- Both endpoints of a non-delay edge belong to the non-delay node set. -/
theorem nonDelayRel_mem_nodes {R : Type} {edges : List (CompiledEdge R)} {a b : SignalId}
    (h : nonDelayRel edges a b) :
    a ∈ nonDelayNodes edges ∧ b ∈ nonDelayNodes edges := by
  rcases h with ⟨e, he, hd, hs, ht⟩
  have hmem : e ∈ edges.filter (fun e => !e.isDelay) :=
    List.mem_filter.mpr ⟨he, by simp [hd]⟩
  have := endpoints_mem_foldl_insert (edges.filter (fun e => !e.isDelay)) ∅ e hmem
  unfold nonDelayNodes
  exact ⟨hs ▸ this.1, ht ▸ this.2⟩

/-- Along a chain, every element reaches the last element. -/
theorem chain'_reflTransGen_getLast {r : SignalId → SignalId → Prop} :
    ∀ (st : List SignalId) (hne : st ≠ []), List.Chain' r st → ∀ g ∈ st,
      Relation.ReflTransGen r g (st.getLast hne) := by
  intro st
  induction st with
  | nil => intro hne; exact absurd rfl hne
  | cons a t ih =>
      intro hne hch g hg
      cases t with
      | nil =>
          rcases List.mem_singleton.mp hg with rfl
          exact Relation.ReflTransGen.refl
      | cons b t' =>
          have hch' : List.Chain' r (b :: t') := (List.chain'_cons.mp hch).2
          have hrab : r a b := (List.chain'_cons.mp hch).1
          have hlast : (a :: b :: t').getLast hne = (b :: t').getLast (by simp) := by
            rw [List.getLast_cons]
          rcases List.mem_cons.mp hg with rfl | hg'
          · rw [hlast]
            exact Relation.ReflTransGen.head hrab
              (ih (by simp) hch' b (List.mem_cons_self b t'))
          · rw [hlast]
            exact ih (by simp) hch' g hg'

section DfsCorrectness

variable (adj : SignalId → List SignalId)

/-- Postcondition of the neighbour loop of the DFS, parameterised by the
behaviour of the recursive visit. -/
theorem dfsGo_post (visit : SignalId → (SignalId → Color) → DfsRes)
    (hvisit : ∀ m c c', c m = .white → visit m c = .ok c' →
      (∀ x, c' x = .gray ↔ c x = .gray) ∧ (∀ x, c x = .black → c' x = .black) ∧
      c' m = .black ∧ (NoBlackCycle adj c → NoBlackCycle adj c')) :
    ∀ (l : List SignalId) (c c' : SignalId → Color), dfsGo visit l c = .ok c' →
      (∀ x, c' x = .gray ↔ c x = .gray) ∧ (∀ x, c x = .black → c' x = .black) ∧
      (∀ x ∈ l, c' x = .black) ∧ (NoBlackCycle adj c → NoBlackCycle adj c') := by
  intro l
  induction l with
  | nil =>
      intro c c' h
      cases h
      exact ⟨fun x => Iff.rfl, fun x hb => hb, by simp, id⟩
  | cons nb rest ih =>
      intro c c' h
      unfold dfsGo at h
      cases hc : c nb with
      | white =>
          rw [hc] at h
          dsimp only at h
          cases hv : visit nb c with
          | cycleFound => rw [hv] at h; cases h
          | outOfFuel => rw [hv] at h; cases h
          | ok c1 =>
              rw [hv] at h
              dsimp only at h
              obtain ⟨hg1, hb1, hm1, hinv1⟩ := hvisit nb c c1 hc hv
              obtain ⟨hg2, hb2, hmem2, hinv2⟩ := ih c1 c' h
              refine ⟨fun x => (hg2 x).trans (hg1 x),
                fun x hx => hb2 x (hb1 x hx), ?_, fun hi => hinv2 (hinv1 hi)⟩
              intro x hx
              rcases List.mem_cons.mp hx with rfl | hx'
              · exact hb2 x hm1
              · exact hmem2 x hx'
      | gray => rw [hc] at h; cases h
      | black =>
          rw [hc] at h
          dsimp only at h
          obtain ⟨hg2, hb2, hmem2, hinv2⟩ := ih c c' h
          refine ⟨hg2, hb2, ?_, hinv2⟩
          intro x hx
          rcases List.mem_cons.mp hx with rfl | hx'
          · exact hb2 x hc
          · exact hmem2 x hx'

/-- Postcondition of one DFS visit: grays are restored, blacks persist,
the visited node ends black, and the no-black-cycle invariant is
preserved (this last point is the heart of completeness: a node is
blackened only after all its targets are black). -/
theorem dfsVisit_post :
    ∀ (fuel : ℕ) (n : SignalId) (c c' : SignalId → Color), c n = .white →
      dfsVisit adj fuel n c = .ok c' →
      (∀ x, c' x = .gray ↔ c x = .gray) ∧ (∀ x, c x = .black → c' x = .black) ∧
      c' n = .black ∧ (NoBlackCycle adj c → NoBlackCycle adj c') := by
  intro fuel
  induction fuel with
  | zero => intro n c c' _ h; cases h
  | succ fuel ih =>
      intro n c c' hw h
      unfold dfsVisit at h
      cases hg : dfsGo (dfsVisit adj fuel) (adj n) (setColor c n .gray) with
      | cycleFound => rw [hg] at h; cases h
      | outOfFuel => rw [hg] at h; cases h
      | ok c1 =>
          rw [hg] at h
          dsimp only at h
          cases h
          obtain ⟨hg1, hb1, hnb, hinv1⟩ := dfsGo_post adj (dfsVisit adj fuel) ih
            (adj n) (setColor c n .gray) c1 hg
          have hgray_pres : ∀ x, setColor c1 n Color.black x = .gray ↔ c x = .gray := by
            intro x
            by_cases hx : x = n
            · subst hx
              simp only [setColor, if_pos rfl]
              constructor
              · intro hcon; cases hcon
              · intro hcon; rw [hw] at hcon; cases hcon
            · simp only [setColor, if_neg hx]
              rw [hg1 x]
              simp [setColor, hx]
          have hblack_pres : ∀ x, c x = .black → setColor c1 n Color.black x = .black := by
            intro x hx
            by_cases hxn : x = n
            · simp [setColor, hxn]
            · have : setColor c n Color.gray x = .black := by simp [setColor, hxn, hx]
              simp [setColor, hxn, hb1 x this]
          refine ⟨hgray_pres, hblack_pres, by simp [setColor], ?_⟩
          intro hnc
          have hnc1 : NoBlackCycle adj (setColor c n .gray) := by
            intro b hb hcyc
            by_cases hbn : b = n
            · rw [hbn] at hb; simp [setColor] at hb
            · exact hnc b (by simpa [setColor, hbn] using hb) hcyc
          have hnc2 := hinv1 hnc1
          intro b hb hcyc
          by_cases hbn : b = n
          · subst hbn
            rcases Relation.TransGen.head'_iff.mp hcyc with ⟨y, hby, hyb⟩
            have hymem : y ∈ adj b := hby
            have hyblack : c1 y = .black := hnb y hymem
            exact hnc2 y hyblack (Relation.TransGen.tail' hyb hby)
          · have : c1 b = .black := by simpa [setColor, hbn] using hb
            exact hnc2 b this hcyc

/-- If the neighbour loop reports a back edge, the graph has a cycle:
the gray stack is a path, and the offending neighbour is on it. -/
theorem dfsGo_sound (visit : SignalId → (SignalId → Color) → DfsRes)
    (hvisit_post : ∀ m c c', c m = .white → visit m c = .ok c' →
      (∀ x, c' x = .gray ↔ c x = .gray))
    (hvisit_sound : ∀ m c st (hne : st ≠ []), c m = .white → GrayStack adj c st →
      adjRel adj (st.getLast hne) m → visit m c = .cycleFound →
      ∃ u, Relation.TransGen (adjRel adj) u u) :
    ∀ (l : List SignalId) (c : SignalId → Color) (st : List SignalId) (hne : st ≠ []),
      GrayStack adj c st → (∀ x ∈ l, adjRel adj (st.getLast hne) x) →
      dfsGo visit l c = .cycleFound → ∃ u, Relation.TransGen (adjRel adj) u u := by
  intro l
  induction l with
  | nil => intro c st hne _ _ h; cases h
  | cons nb rest ih =>
      intro c st hne hgs hl h
      unfold dfsGo at h
      cases hc : c nb with
      | white =>
          rw [hc] at h
          dsimp only at h
          cases hv : visit nb c with
          | cycleFound =>
              exact hvisit_sound nb c st hne hc hgs (hl nb (List.mem_cons_self nb rest)) hv
          | outOfFuel => rw [hv] at h; cases h
          | ok c1 =>
              rw [hv] at h
              dsimp only at h
              have hgs1 : GrayStack adj c1 st :=
                ⟨fun x => (hvisit_post nb c c1 hc hv x).trans (hgs.1 x), hgs.2⟩
              exact ih c1 st hne hgs1 (fun x hx => hl x (List.mem_cons.mpr (Or.inr hx))) h
      | gray =>
          have hmem : nb ∈ st := (hgs.1 nb).mp hc
          have hreach := chain'_reflTransGen_getLast st hne hgs.2 nb hmem
          exact ⟨nb, Relation.TransGen.tail' hreach (hl nb (List.mem_cons_self nb rest))⟩
      | black =>
          rw [hc] at h
          dsimp only at h
          exact ih c st hne hgs (fun x hx => hl x (List.mem_cons.mpr (Or.inr hx))) h

/-- If a DFS visit reports a back edge, the graph has a cycle. -/
theorem dfsVisit_sound :
    ∀ (fuel : ℕ) (m : SignalId) (c : SignalId → Color) (st : List SignalId),
      c m = .white → GrayStack adj c st →
      (st = [] ∨ ∃ hne : st ≠ [], adjRel adj (st.getLast hne) m) →
      dfsVisit adj fuel m c = .cycleFound →
      ∃ u, Relation.TransGen (adjRel adj) u u := by
  intro fuel
  induction fuel with
  | zero => intro m c st _ _ _ h; cases h
  | succ fuel ih =>
      intro m c st hw hgs hedge h
      unfold dfsVisit at h
      cases hg : dfsGo (dfsVisit adj fuel) (adj m) (setColor c m .gray) with
      | ok c1 => rw [hg] at h; cases h
      | outOfFuel => rw [hg] at h; cases h
      | cycleFound =>
          have hmns : m ∉ st := fun hmem => by
            have := (hgs.1 m).mpr hmem
            rw [hw] at this
            cases this
          have hgs' : GrayStack adj (setColor c m .gray) (st ++ [m]) := by
            constructor
            · intro x
              by_cases hx : x = m
              · subst hx; simp [setColor]
              · simp only [setColor, if_neg hx]
                rw [hgs.1 x]
                simp [hx]
            · rw [List.chain'_append]
              refine ⟨hgs.2, List.chain'_singleton m, ?_⟩
              intro x hx y hy
              rcases hedge with rfl | ⟨hne, hadj⟩
              · simp at hx
              · rw [List.getLast?_eq_getLast st hne] at hx
                simp at hx hy
                rw [← hx, ← hy]
                exact hadj
          have hlast : (st ++ [m]).getLast (by simp) = m := List.getLast_append _
          refine dfsGo_sound adj (dfsVisit adj fuel) ?_ ?_ (adj m)
            (setColor c m .gray) (st ++ [m]) (by simp) hgs' ?_ hg
          · intro m' c0 c0' hw0 hv0
            exact (dfsVisit_post adj fuel m' c0 c0' hw0 hv0).1
          · intro m' c0 st0 hne0 hw0 hgs0 hadj0 hv0
            exact ih m' c0 st0 hw0 hgs0 (Or.inr ⟨hne0, hadj0⟩) hv0
          · intro x hx
            rw [hlast]
            exact hx

/-- `detectLoop` only produces these three results. -/
theorem detectLoop_cases (adj' : SignalId → List SignalId) (fuel : ℕ) :
    ∀ (roots : List SignalId) (c : SignalId → Color),
      detectLoop adj' fuel roots c = .ok () ∨
      detectLoop adj' fuel roots c = .error .algebraicLoop ∨
      detectLoop adj' fuel roots c = .error .fuelExhausted := by
  intro roots
  induction roots with
  | nil => intro c; left; rfl
  | cons n rest ih =>
      intro c
      unfold detectLoop
      by_cases hw : c n = .white
      · rw [if_pos hw]
        cases dfsVisit adj' fuel n c with
        | ok c1 => exact ih c1
        | cycleFound => right; left; rfl
        | outOfFuel => right; right; rfl
      · rw [if_neg hw]
        exact ih c

/-- If the outer loop reports an algebraic loop, the graph has a cycle. -/
theorem detectLoop_sound (fuel : ℕ) :
    ∀ (roots : List SignalId) (c : SignalId → Color), (∀ x, c x ≠ .gray) →
      detectLoop adj fuel roots c = .error .algebraicLoop →
      ∃ u, Relation.TransGen (adjRel adj) u u := by
  intro roots
  induction roots with
  | nil => intro c _ h; cases h
  | cons n rest ih =>
      intro c hgray h
      unfold detectLoop at h
      by_cases hw : c n = .white
      · rw [if_pos hw] at h
        cases hv : dfsVisit adj fuel n c with
        | ok c1 =>
            rw [hv] at h
            have hpost := dfsVisit_post adj fuel n c c1 hw hv
            exact ih c1 (fun x hg => (hgray x) ((hpost.1 x).mp hg)) h
        | cycleFound =>
            refine dfsVisit_sound adj fuel n c [] hw ⟨?_, List.chain'_nil⟩ (Or.inl rfl) hv
            intro x
            simp [hgray x]
        | outOfFuel => rw [hv] at h; cases h
      · rw [if_neg hw] at h
        exact ih c hgray h

/-- If the outer loop succeeds, there is a final colouring in which every
root is black and no black node lies on a cycle. -/
theorem detectLoop_complete (fuel : ℕ) :
    ∀ (roots : List SignalId) (c : SignalId → Color), (∀ x, c x ≠ .gray) →
      NoBlackCycle adj c → detectLoop adj fuel roots c = .ok () →
      ∃ c', NoBlackCycle adj c' ∧ (∀ x, c x = .black → c' x = .black) ∧
        ∀ n ∈ roots, c' n = .black := by
  intro roots
  induction roots with
  | nil =>
      intro c _ hnc _
      exact ⟨c, hnc, fun _ hb => hb, by simp⟩
  | cons n rest ih =>
      intro c hgray hnc h
      unfold detectLoop at h
      by_cases hw : c n = .white
      · rw [if_pos hw] at h
        cases hv : dfsVisit adj fuel n c with
        | ok c1 =>
            rw [hv] at h
            obtain ⟨hg1, hb1, hn1, hinv1⟩ := dfsVisit_post adj fuel n c c1 hw hv
            obtain ⟨c', hnc', hb', hroots'⟩ :=
              ih c1 (fun x hg => (hgray x) ((hg1 x).mp hg)) (hinv1 hnc) h
            refine ⟨c', hnc', fun x hb => hb' x (hb1 x hb), ?_⟩
            intro x hx
            rcases List.mem_cons.mp hx with rfl | hx'
            · exact hb' x hn1
            · exact hroots' x hx'
        | cycleFound => rw [hv] at h; cases h
        | outOfFuel => rw [hv] at h; cases h
      · rw [if_neg hw] at h
        cases hcn : c n with
        | white => exact absurd hcn hw
        | gray => exact absurd hcn (hgray n)
        | black =>
            obtain ⟨c', hnc', hb', hroots'⟩ := ih c hgray hnc h
            refine ⟨c', hnc', hb', ?_⟩
            intro x hx
            rcases List.mem_cons.mp hx with rfl | hx'
            · exact hb' x hcn
            · exact hroots' x hx'

end DfsCorrectness

section DfsAdequacy

variable (adj : SignalId → List SignalId) (U : Finset SignalId)

/-- The number of still-white nodes of the universe. -/
def whiteCount (c : SignalId → Color) : ℕ :=
  (U.filter (fun x => c x = .white)).card

theorem whiteCount_le_card (c : SignalId → Color) : whiteCount U c ≤ U.card :=
  Finset.card_le_card (Finset.filter_subset _ _)

theorem whiteCount_setGray_lt {c : SignalId → Color} {n : SignalId}
    (hn : n ∈ U) (hw : c n = .white) :
    whiteCount U (setColor c n .gray) < whiteCount U c := by
  unfold whiteCount
  have hset : U.filter (fun x => setColor c n Color.gray x = .white) =
      (U.filter (fun x => c x = .white)).erase n := by
    ext x
    simp only [Finset.mem_filter, Finset.mem_erase, setColor]
    by_cases hx : x = n
    · subst hx; simp
    · simp [hx]
  rw [hset]
  have hmem : n ∈ U.filter (fun x => c x = .white) := Finset.mem_filter.mpr ⟨hn, hw⟩
  have := Finset.card_erase_of_mem hmem
  rw [this]
  exact Nat.sub_lt (Finset.card_pos.mpr ⟨n, hmem⟩) Nat.one_pos

theorem whiteCount_mono {c c' : SignalId → Color}
    (h : ∀ x, c' x = .white → c x = .white) : whiteCount U c' ≤ whiteCount U c := by
  apply Finset.card_le_card
  intro x hx
  rcases Finset.mem_filter.mp hx with ⟨hU, hwx⟩
  exact Finset.mem_filter.mpr ⟨hU, h x hwx⟩

/-- From the visit postcondition: whites only shrink. -/
theorem whites_shrink_of_post {c c' : SignalId → Color}
    (hg : ∀ x, c' x = .gray ↔ c x = .gray) (hb : ∀ x, c x = .black → c' x = .black) :
    ∀ x, c' x = .white → c x = .white := by
  intro x hw
  cases hcx : c x with
  | white => rfl
  | gray =>
      have := (hg x).mpr hcx
      rw [hw] at this
      cases this
  | black =>
      have := hb x hcx
      rw [hw] at this
      cases this

theorem dfsGo_adeq (fuel : ℕ)
    (hIH : ∀ m c, m ∈ U → c m = .white → whiteCount U c < fuel →
      dfsVisit adj fuel m c ≠ .outOfFuel) :
    ∀ (l : List SignalId) (c : SignalId → Color), (∀ x ∈ l, x ∈ U) →
      whiteCount U c < fuel → dfsGo (dfsVisit adj fuel) l c ≠ .outOfFuel := by
  intro l
  induction l with
  | nil => intro c _ _ h; cases h
  | cons nb rest ih =>
      intro c hl hcount h
      unfold dfsGo at h
      cases hc : c nb with
      | white =>
          rw [hc] at h
          dsimp only at h
          cases hv : dfsVisit adj fuel nb c with
          | outOfFuel => exact hIH nb c (hl nb (List.mem_cons_self nb rest)) hc hcount hv
          | cycleFound => rw [hv] at h; cases h
          | ok c1 =>
              rw [hv] at h
              dsimp only at h
              obtain ⟨hg1, hb1, _, _⟩ := dfsVisit_post adj fuel nb c c1 hc hv
              have hle := whiteCount_mono U (whites_shrink_of_post hg1 hb1)
              exact ih c1 (fun x hx => hl x (List.mem_cons.mpr (Or.inr hx)))
                (Nat.lt_of_le_of_lt hle hcount) h
      | gray => rw [hc] at h; cases h
      | black =>
          rw [hc] at h
          dsimp only at h
          exact ih c (fun x hx => hl x (List.mem_cons.mpr (Or.inr hx))) hcount h

theorem dfsVisit_adeq (hadjU : ∀ s, ∀ x ∈ adj s, x ∈ U) :
    ∀ (fuel : ℕ) (n : SignalId) (c : SignalId → Color), n ∈ U → c n = .white →
      whiteCount U c < fuel → dfsVisit adj fuel n c ≠ .outOfFuel := by
  intro fuel
  induction fuel with
  | zero => intro n c _ _ hcount; exact absurd hcount (Nat.not_lt_zero _)
  | succ fuel ih =>
      intro n c hn hw hcount h
      unfold dfsVisit at h
      cases hg : dfsGo (dfsVisit adj fuel) (adj n) (setColor c n .gray) with
      | ok c1 => rw [hg] at h; cases h
      | cycleFound => rw [hg] at h; cases h
      | outOfFuel =>
          have hlt : whiteCount U (setColor c n .gray) < fuel := by
            have h1 := whiteCount_setGray_lt U hn hw
            omega
          exact dfsGo_adeq adj U fuel ih (adj n) (setColor c n .gray)
            (fun x hx => hadjU n x hx) hlt hg

theorem detectLoop_adeq (hadjU : ∀ s, ∀ x ∈ adj s, x ∈ U) :
    ∀ (roots : List SignalId) (c : SignalId → Color), (∀ n ∈ roots, n ∈ U) →
      detectLoop adj (U.card + 1) roots c ≠ .error .fuelExhausted := by
  intro roots
  induction roots with
  | nil => intro c _ h; cases h
  | cons n rest ih =>
      intro c hroots h
      unfold detectLoop at h
      by_cases hw : c n = .white
      · rw [if_pos hw] at h
        cases hv : dfsVisit adj (U.card + 1) n c with
        | ok c1 =>
            rw [hv] at h
            exact ih c1 (fun x hx => hroots x (List.mem_cons.mpr (Or.inr hx))) h
        | cycleFound => rw [hv] at h; cases h
        | outOfFuel =>
            exact dfsVisit_adeq adj U hadjU (U.card + 1) n c
              (hroots n (List.mem_cons_self n rest)) hw
              (Nat.lt_succ_of_le (whiteCount_le_card U c)) hv
      · rw [if_neg hw] at h
        exact ih c (fun x hx => hroots x (List.mem_cons.mpr (Or.inr hx))) h

end DfsAdequacy

/-- Completeness of `detect_cycles`: a cycle in the non-delay subgraph is
reported as an algebraic loop. -/
theorem detectCycles_complete {R : Type} (edges : List (CompiledEdge R))
    (hcyc : ∃ u, Relation.TransGen (nonDelayRel edges) u u) :
    detectCycles edges = .error .algebraicLoop := by
  have hrel : ∀ a b, nonDelayRel edges a b ↔ adjRel (nonDelayAdj edges) a b :=
    fun a b => (adjRel_nonDelay_iff edges a b).symm
  have hcyc' : ∃ u, Relation.TransGen (adjRel (nonDelayAdj edges)) u u := by
    rcases hcyc with ⟨u, hu⟩
    exact ⟨u, Relation.TransGen.mono (fun a b h => (hrel a b).mp h) hu⟩
  have hadjU : ∀ s, ∀ x ∈ nonDelayAdj edges s, x ∈ nonDelayNodes edges := by
    intro s x hx
    have : nonDelayRel edges s x := (adjRel_nonDelay_iff edges s x).mp hx
    exact (nonDelayRel_mem_nodes this).2
  unfold detectCycles
  rcases detectLoop_cases (nonDelayAdj edges) ((nonDelayNodes edges).card + 1)
      ((nonDelayNodes edges).sort (· ≤ ·)) (fun _ => .white) with hok | hloop | hfuel
  · exfalso
    obtain ⟨c', hnc', _, hroots'⟩ := detectLoop_complete (nonDelayAdj edges) _ _ _
      (fun x h => by cases h) (fun b hb _ => by cases hb) hok
    rcases hcyc' with ⟨u, hu⟩
    have humem : u ∈ nonDelayNodes edges := by
      rcases Relation.TransGen.head'_iff.mp hu with ⟨y, huy, _⟩
      exact (nonDelayRel_mem_nodes ((adjRel_nonDelay_iff edges u y).mp huy)).1
    have : c' u = .black := hroots' u ((Finset.mem_sort _).mpr humem)
    exact hnc' u this hu
  · exact hloop
  · exfalso
    refine detectLoop_adeq (nonDelayAdj edges) (nonDelayNodes edges) hadjU _ _ ?_ hfuel
    intro n hn
    exact (Finset.mem_sort _).mp hn

/-- Soundness of `detect_cycles`: if the non-delay subgraph is acyclic,
cycle detection passes. -/
theorem detectCycles_sound {R : Type} (edges : List (CompiledEdge R))
    (hacyc : ¬ ∃ u, Relation.TransGen (nonDelayRel edges) u u) :
    detectCycles edges = .ok () := by
  have hadjU : ∀ s, ∀ x ∈ nonDelayAdj edges s, x ∈ nonDelayNodes edges := by
    intro s x hx
    have : nonDelayRel edges s x := (adjRel_nonDelay_iff edges s x).mp hx
    exact (nonDelayRel_mem_nodes this).2
  unfold detectCycles
  rcases detectLoop_cases (nonDelayAdj edges) ((nonDelayNodes edges).card + 1)
      ((nonDelayNodes edges).sort (· ≤ ·)) (fun _ => .white) with hok | hloop | hfuel
  · exact hok
  · exfalso
    obtain ⟨u, hu⟩ := detectLoop_sound (nonDelayAdj edges) _ _ _ (fun x h => by cases h) hloop
    exact hacyc ⟨u, Relation.TransGen.mono
      (fun a b h => (adjRel_nonDelay_iff edges a b).mp h) hu⟩
  · exfalso
    refine detectLoop_adeq (nonDelayAdj edges) (nonDelayNodes edges) hadjU _ _ ?_ hfuel
    intro n hn
    exact (Finset.mem_sort _).mp hn

/-- Right-membership projection of a `Forall₂` correspondence. -/
theorem forall₂_mem_right {α β : Type _} {r : α → β → Prop} :
    ∀ {l₁ : List α} {l₂ : List β}, List.Forall₂ r l₁ l₂ → ∀ {b}, b ∈ l₂ →
      ∃ a, a ∈ l₁ ∧ r a b := by
  intro l₁ l₂ h
  induction h with
  | nil => intro b hb; cases hb
  | cons hr _ ih =>
      intro b hb
      rcases List.mem_cons.mp hb with rfl | hb'
      · exact ⟨_, List.mem_cons_self _ _, hr⟩
      · rcases ih hb' with ⟨a, ha, hra⟩
        exact ⟨a, List.mem_cons.mpr (Or.inr ha), hra⟩

/-- A spec-level walk maps to an id-level walk through the compiled
edges, when every spec edge is non-delay. -/
theorem specRel_to_id {R : Type} {spec : GraphSpec} {ns' : SignalNamespace}
    {edges : List (CompiledEdge R)}
    (hf : List.Forall₂ (fun (es : EdgeSpec) (e : CompiledEdge R) =>
        ns'.resolve es.sourcePath = some e.source ∧
        ns'.resolve es.targetPath = some e.target ∧
        e.isDelay = decide (es.transform.type = "delay")) spec.edges edges)
    (hnd : ∀ es ∈ spec.edges, es.transform.type ≠ "delay") :
    ∀ {p q : String}, Relation.TransGen (specEdgeRel spec) p q →
      ∃ i j, ns'.resolve p = some i ∧ ns'.resolve q = some j ∧
        Relation.TransGen (nonDelayRel edges) i j := by
  intro p q h
  induction h with
  | single hs =>
      rcases hs with ⟨es, hes, hsp, htp⟩
      rcases forall₂_mem_left hf hes with ⟨e, he, hrs, hrt, hd⟩
      subst hsp
      subst htp
      refine ⟨e.source, e.target, hrs, hrt, Relation.TransGen.single ⟨e, he, ?_, rfl, rfl⟩⟩
      rw [hd]
      exact decide_eq_false (hnd es hes)
  | tail hpq hqr ih =>
      rcases ih with ⟨i, j, hrp, hrq, htg⟩
      rcases hqr with ⟨es, hes, hsp, htp⟩
      subst hsp
      subst htp
      rcases forall₂_mem_left hf hes with ⟨e, he, hrs, hrt, hd⟩
      rw [hrq] at hrs
      cases Option.some.inj hrs
      refine ⟨i, e.target, hrp, hrt, Relation.TransGen.tail htg ⟨e, he, ?_, rfl, rfl⟩⟩
      rw [hd]
      exact decide_eq_false (hnd es hes)

/-- A spec-level cycle maps to an id-level cycle (all edges non-delay). -/
theorem specCycle_to_idCycle {R : Type} {spec : GraphSpec} {ns' : SignalNamespace}
    {edges : List (CompiledEdge R)}
    (hf : List.Forall₂ (fun (es : EdgeSpec) (e : CompiledEdge R) =>
        ns'.resolve es.sourcePath = some e.source ∧
        ns'.resolve es.targetPath = some e.target ∧
        e.isDelay = decide (es.transform.type = "delay")) spec.edges edges)
    (hnd : ∀ es ∈ spec.edges, es.transform.type ≠ "delay")
    (hcyc : ∃ p, Relation.TransGen (specEdgeRel spec) p p) :
    ∃ u, Relation.TransGen (nonDelayRel edges) u u := by
  rcases hcyc with ⟨p, hp⟩
  rcases specRel_to_id hf hnd hp with ⟨i, j, hri, hrj, htg⟩
  rw [hri] at hrj
  cases Option.some.inj hrj
  exact ⟨i, htg⟩

/-- An id-level walk through the non-delay compiled edges maps back to a
spec-level walk over non-delay spec edges. -/
theorem idRel_to_spec {R : Type} {spec : GraphSpec} {ns' : SignalNamespace}
    {edges : List (CompiledEdge R)}
    (hf : List.Forall₂ (fun (es : EdgeSpec) (e : CompiledEdge R) =>
        ns'.resolve es.sourcePath = some e.source ∧
        ns'.resolve es.targetPath = some e.target ∧
        e.isDelay = decide (es.transform.type = "delay")) spec.edges edges) :
    ∀ {i j : SignalId}, Relation.TransGen (nonDelayRel edges) i j →
      ∃ p q, ns'.resolve p = some i ∧ ns'.resolve q = some j ∧
        Relation.TransGen (specNonDelayRel spec) p q := by
  intro i j h
  induction h with
  | single hs =>
      rcases hs with ⟨e, he, hdl, hsi, htj⟩
      subst hsi
      subst htj
      rcases forall₂_mem_right hf he with ⟨es, hes, hrs, hrt, hd⟩
      have hty : es.transform.type ≠ "delay" := by
        rw [hd] at hdl
        exact of_decide_eq_false hdl
      exact ⟨es.sourcePath, es.targetPath, hrs, hrt,
        Relation.TransGen.single ⟨es, hes, hty, rfl, rfl⟩⟩
  | tail hij hjk ih =>
      rcases ih with ⟨p, q, hrp, hrq, htg⟩
      rcases hjk with ⟨e, he, hdl, hsj, htk⟩
      subst hsj
      subst htk
      rcases forall₂_mem_right hf he with ⟨es, hes, hrs, hrt, hd⟩
      have hty : es.transform.type ≠ "delay" := by
        rw [hd] at hdl
        exact of_decide_eq_false hdl
      have hqe : q = es.sourcePath := SignalNamespace.resolve_inj hrq hrs
      subst hqe
      exact ⟨p, es.targetPath, hrp, hrt,
        Relation.TransGen.tail htg ⟨es, hes, hty, rfl, rfl⟩⟩

/-- An id-level cycle maps back to a spec-level non-delay cycle. -/
theorem idCycle_to_specCycle {R : Type} {spec : GraphSpec} {ns' : SignalNamespace}
    {edges : List (CompiledEdge R)}
    (hf : List.Forall₂ (fun (es : EdgeSpec) (e : CompiledEdge R) =>
        ns'.resolve es.sourcePath = some e.source ∧
        ns'.resolve es.targetPath = some e.target ∧
        e.isDelay = decide (es.transform.type = "delay")) spec.edges edges)
    (hcyc : ∃ u, Relation.TransGen (nonDelayRel edges) u u) :
    ∃ p, Relation.TransGen (specNonDelayRel spec) p p := by
  rcases hcyc with ⟨u, hu⟩
  rcases idRel_to_spec hf hu with ⟨p, q, hrp, hrq, htg⟩
  have hpq : p = q := SignalNamespace.resolve_inj hrp hrq
  subst hpq
  exact ⟨p, htg⟩

/-- A topological-sort failure is the fuel artefact or the incomplete-sort
throw — never an algebraic-loop error. -/
theorem topologicalSort_err_shape {R : Type} {edges : List (CompiledEdge R)}
    {e : CompileErr} (h : topologicalSort edges = .error e) :
    e = .fuelExhausted ∨ e = .toposortIncomplete := by
  simp only [topologicalSort] at h
  split at h
  · left
    injection h with h'
    exact h'.symm
  · split at h
    · right
      injection h with h'
      exact h'.symm
    · cases h

/-- A condition-compilation failure is always `invalidCondition`. -/
theorem compileConditionExpr_err_shape {expr : String} {ns : SignalNamespace}
    {ruleId : String} {e : CompileErr}
    (h : compileConditionExpr expr ns ruleId = .error e) :
    e = .invalidCondition ruleId := by
  simp only [compileConditionExpr] at h
  split at h
  · injection h with h'
    exact h'.symm
  · split at h
    · injection h with h'
      exact h'.symm
    · split at h
      · injection h with h'
        exact h'.symm
      · cases h

/-- A rule-compilation failure is always `invalidCondition`. -/
theorem compileRules_err_shape :
    ∀ (specs : List RuleSpec) (ns : SignalNamespace) (fn : FunctionNamespace)
      {e : CompileErr}, compileRules specs ns fn = .error e →
      ∃ rid, e = .invalidCondition rid := by
  intro specs
  induction specs with
  | nil => intro ns fn e h; cases h
  | cons spec rest ih =>
      intro ns fn e h
      unfold compileRules at h
      cases hcc : compileConditionExpr spec.condition ns spec.id with
      | error e1 =>
          rw [hcc] at h
          simp only [bind, Except.bind] at h
          injection h with h'
          exact ⟨spec.id, h'.symm.trans (compileConditionExpr_err_shape hcc)⟩
      | ok v =>
          obtain ⟨⟨sid, op, rhs⟩, ns1⟩ := v
          rw [hcc] at h
          simp only [bind, Except.bind] at h
          rcases hca : compileActions spec.actions fn with ⟨dfs, args, fn1⟩
          rw [hca] at h
          cases hcr : compileRules rest ns1 fn1 with
          | error e2 =>
              rw [hcr] at h
              injection h with h'
              rcases ih ns1 fn1 hcr with ⟨rid, hrid⟩
              exact ⟨rid, h'.symm.trans hrid⟩
          | ok res =>
              rw [hcr] at h
              obtain ⟨rules, ns2, fn2⟩ := res
              cases h

/-- The algebraic-loop contract of the compiler (claim C4):
(a) an all-non-delay edge list with a directed cycle is rejected by
`detect_cycles` with `AlgebraicLoop`; (b) when every cycle is broken by a
delay edge (the non-delay sub-relation is acyclic), `detect_cycles`
passes; (c) at the `compile` level, a spec whose edges are all non-delay
and contain a cycle fails with `AlgebraicLoop` once the earlier phases
(models, stability, edge parsing, writer ownership) pass; (d) a spec
whose non-delay edge relation is acyclic passes cycle detection, and
`compile` never fails with `AlgebraicLoop` on it. -/
def AlgebraicLoopContract : Prop :=
  (∀ (R : Type) (edges : List (CompiledEdge R)),
      (∀ e ∈ edges, e.isDelay = false) →
      (∃ u, Relation.TransGen (edgeRel edges) u u) →
      detectCycles edges = .error .algebraicLoop) ∧
  (∀ (R : Type) (edges : List (CompiledEdge R)),
      (¬ ∃ u, Relation.TransGen (nonDelayRel edges) u u) →
      detectCycles edges = .ok ()) ∧
  (∀ (R : Type) (env : Env R) (spec : GraphSpec) (ns : SignalNamespace)
      (fn : FunctionNamespace) (dt : ℚ) (models : List ThermalMassModel)
      (ns1 : SignalNamespace) (edges : List (CompiledEdge R)) (ns2 : SignalNamespace)
      (outIds : List SignalId) (ns3 : SignalNamespace),
      parseModels spec.models ns = .ok (models, ns1) →
      (0 < dt → validateStability models dt = .ok ()) →
      parseEdges env spec.edges ns1 = .ok (edges, ns2) →
      modelOutputIds spec.models ns2 = .ok (outIds, ns3) →
      checkWriters (edges.map (fun e => e.target) ++ outIds) [] = .ok () →
      (∀ es ∈ spec.edges, es.transform.type ≠ "delay") →
      (∃ p, Relation.TransGen (specEdgeRel spec) p p) →
      compile env spec ns fn dt = .error .algebraicLoop) ∧
  (∀ (R : Type) (env : Env R) (spec : GraphSpec) (ns : SignalNamespace)
      (fn : FunctionNamespace) (dt : ℚ) (models : List ThermalMassModel)
      (ns1 : SignalNamespace) (edges : List (CompiledEdge R)) (ns2 : SignalNamespace)
      (outIds : List SignalId) (ns3 : SignalNamespace),
      parseModels spec.models ns = .ok (models, ns1) →
      (0 < dt → validateStability models dt = .ok ()) →
      parseEdges env spec.edges ns1 = .ok (edges, ns2) →
      modelOutputIds spec.models ns2 = .ok (outIds, ns3) →
      checkWriters (edges.map (fun e => e.target) ++ outIds) [] = .ok () →
      (¬ ∃ p, Relation.TransGen (specNonDelayRel spec) p p) →
      detectCycles edges = .ok () ∧ compile env spec ns fn dt ≠ .error .algebraicLoop)

/-- C4: a `GraphSpec` whose edges are all non-delay and whose edge set
contains a directed cycle fails with `AlgebraicLoop` (at the
`detect_cycles` level unconditionally, at the `compile` level once the
earlier phases pass), and a spec in which every cycle goes through a
delay edge passes cycle detection, so `compile` never reports
`AlgebraicLoop` for it. -/
theorem fluxC4_algebraic_loop : AlgebraicLoopContract := by
  refine ⟨?_, ?_, ?_, ?_⟩
  · intro R edges hnd hcyc
    apply detectCycles_complete
    rcases hcyc with ⟨u, hu⟩
    refine ⟨u, Relation.TransGen.mono ?_ hu⟩
    rintro a b ⟨e, he, hs, ht⟩
    exact ⟨e, he, hnd e he, hs, ht⟩
  · intro R edges hacyc
    exact detectCycles_sound edges hacyc
  · intro R env spec ns fn dt models ns1 edges ns2 outIds ns3 hpm hval hpe hmo hcw hnd hcyc
    have hfa := (parseEdges_spec env spec.edges ns1 edges ns2 hpe).2
    exact compile_err_detect env spec ns fn dt hpm hval hpe hmo hcw
      (detectCycles_complete edges (specCycle_to_idCycle hfa hnd hcyc))
  · intro R env spec ns fn dt models ns1 edges ns2 outIds ns3 hpm hval hpe hmo hcw hacyc
    have hfa := (parseEdges_spec env spec.edges ns1 edges ns2 hpe).2
    have hidacyc : ¬ ∃ u, Relation.TransGen (nonDelayRel edges) u u := by
      intro hcyc
      exact hacyc (idCycle_to_specCycle hfa hcyc)
    have hdc : detectCycles edges = .ok () := detectCycles_sound edges hidacyc
    refine ⟨hdc, ?_⟩
    intro hcompile
    cases hts : topologicalSort edges with
    | error e =>
        have hcomp := compile_err_toposort env spec ns fn dt hpm hval hpe hmo hcw hdc hts
        rw [hcomp] at hcompile
        injection hcompile with h'
        rcases topologicalSort_err_shape hts with h1 | h1 <;> rw [h'] at h1 <;> cases h1
    | ok sorted =>
        cases hcr : compileRules spec.rules ns3 fn with
        | error e =>
            have hcomp := compile_err_rules env spec ns fn dt hpm hval hpe hmo hcw hdc hts hcr
            rw [hcomp] at hcompile
            injection hcompile with h'
            rcases compileRules_err_shape spec.rules ns3 fn hcr with ⟨rid, hrid⟩
            rw [h'] at hrid
            cases hrid
        | ok res =>
            obtain ⟨rules, ns4, fn1⟩ := res
            have hcomp := compile_ok_build env spec ns fn dt hpm hval hpe hmo hcw hdc hts hcr
            rw [hcomp] at hcompile
            cases hcompile

/-- A concrete two-edge cycle `0 → 1 → 0` of non-delay edges. -/
def cexLoopE1 : CompiledEdge ℕ := ⟨0, 1, .linear 1 0 none none, false⟩

/-- The closing edge of the concrete cycle. -/
def cexLoopE2 : CompiledEdge ℕ := ⟨1, 0, .linear 1 0 none none, false⟩

/-- The concrete cyclic edge list. -/
def cexLoopEdges : List (CompiledEdge ℕ) := [cexLoopE1, cexLoopE2]

/-- Witness for C4: the concrete two-edge cycle is rejected with
`AlgebraicLoop`. -/
theorem fluxC4_algebraic_loop_witness :
    detectCycles cexLoopEdges = .error CompileErr.algebraicLoop := by
  have h01 : edgeRel cexLoopEdges 0 1 := ⟨cexLoopE1, by simp [cexLoopEdges], rfl, rfl⟩
  have h10 : edgeRel cexLoopEdges 1 0 := ⟨cexLoopE2, by simp [cexLoopEdges], rfl, rfl⟩
  exact fluxC4_algebraic_loop.1 ℕ cexLoopEdges (by decide)
    ⟨0, Relation.TransGen.tail (Relation.TransGen.single h01) h10⟩

/-! ### Correctness of `topological_sort` (claim C7) -/

/-- The immediate in-edge indices of a signal (the edges counted by
`in_degree[s]`). -/
def inEdgeIdxs {R : Type} (edges : List (CompiledEdge R)) (s : SignalId) : List ℕ :=
  (immediateIndices edges).filter
    (fun i => match edges.get? i with
      | some e => e.target = s
      | none => false)

theorem kahnDeg0_eq_inEdge {R : Type} (edges : List (CompiledEdge R)) (s : SignalId) :
    kahnDeg0 edges s = ((inEdgeIdxs edges s).length : ℤ) := rfl

theorem immediateIndices_nodup {R : Type} (edges : List (CompiledEdge R)) :
    (immediateIndices edges).Nodup :=
  List.Nodup.filter _ (List.nodup_range _)

theorem inEdgeIdxs_nodup {R : Type} (edges : List (CompiledEdge R)) (s : SignalId) :
    (inEdgeIdxs edges s).Nodup :=
  List.Nodup.filter _ (immediateIndices_nodup edges)

theorem mem_immediateIndices {R : Type} {edges : List (CompiledEdge R)} {i : ℕ} :
    i ∈ immediateIndices edges ↔
      ∃ e, edges.get? i = some e ∧ e.isDelay = false := by
  unfold immediateIndices
  rw [List.mem_filter, List.mem_range]
  constructor
  · rintro ⟨hlt, hp⟩
    cases hg : edges.get? i with
    | none => rw [hg] at hp; cases hp
    | some e =>
        rw [hg] at hp
        simp only [Bool.not_eq_true'] at hp
        exact ⟨e, rfl, hp⟩
  · rintro ⟨e, hg, hd⟩
    obtain ⟨hlt, -⟩ := List.get?_eq_some.mp hg
    refine ⟨hlt, ?_⟩
    rw [hg]
    simp [hd]

theorem mem_inEdgeIdxs {R : Type} {edges : List (CompiledEdge R)} {s : SignalId} {i : ℕ} :
    i ∈ inEdgeIdxs edges s ↔
      i ∈ immediateIndices edges ∧ ∃ e, edges.get? i = some e ∧ e.target = s := by
  unfold inEdgeIdxs
  rw [List.mem_filter]
  constructor
  · rintro ⟨him, hp⟩
    refine ⟨him, ?_⟩
    cases hg : edges.get? i with
    | none => rw [hg] at hp; cases hp
    | some e =>
        rw [hg] at hp
        exact ⟨e, rfl, of_decide_eq_true hp⟩
  · rintro ⟨him, e, hg, ht⟩
    refine ⟨him, ?_⟩
    rw [hg]
    exact decide_eq_true ht

theorem mem_kahnOutgoing {R : Type} {edges : List (CompiledEdge R)} {s : SignalId} {i : ℕ} :
    i ∈ kahnOutgoing edges s ↔
      i ∈ immediateIndices edges ∧ ∃ e, edges.get? i = some e ∧ e.source = s := by
  unfold kahnOutgoing
  rw [List.mem_filter]
  constructor
  · rintro ⟨him, hp⟩
    refine ⟨him, ?_⟩
    cases hg : edges.get? i with
    | none => rw [hg] at hp; cases hp
    | some e =>
        rw [hg] at hp
        exact ⟨e, rfl, of_decide_eq_true hp⟩
  · rintro ⟨him, e, hg, hs⟩
    refine ⟨him, ?_⟩
    rw [hg]
    exact decide_eq_true hs

theorem mem_insertSorted (x : ℕ) :
    ∀ (l : List ℕ) (y : ℕ), y ∈ insertSorted x l ↔ y = x ∨ y ∈ l := by
  intro l
  induction l with
  | nil => intro y; simp [insertSorted]
  | cons z zs ih =>
      intro y
      unfold insertSorted
      by_cases hlt : x < z
      · rw [if_pos hlt]
        simp [or_comm, or_assoc, or_left_comm]
      · rw [if_neg hlt]
        by_cases heq : x = z
        · subst heq
          rw [if_pos rfl]
          simp

        · rw [if_neg heq]
          simp only [List.mem_cons, ih]
          tauto

theorem sorted_insertSorted (x : ℕ) :
    ∀ (l : List ℕ), List.Sorted (· ≤ ·) l → List.Sorted (· ≤ ·) (insertSorted x l) := by
  intro l
  induction l with
  | nil => intro _; simp [insertSorted]
  | cons z zs ih =>
      intro hs
      rcases List.sorted_cons.mp hs with ⟨hz, hzs⟩
      unfold insertSorted
      by_cases hlt : x < z
      · rw [if_pos hlt]
        refine List.sorted_cons.mpr ⟨?_, hs⟩
        intro b hb
        rcases List.mem_cons.mp hb with rfl | hb'
        · exact le_of_lt hlt
        · exact le_trans (le_of_lt hlt) (hz b hb')
      · rw [if_neg hlt]
        by_cases heq : x = z
        · rw [if_pos heq]
          exact hs
        · rw [if_neg heq]
          refine List.sorted_cons.mpr ⟨?_, ih hzs⟩
          intro b hb
          rcases (mem_insertSorted x zs b).mp hb with rfl | hb'
          · exact le_of_not_lt hlt
          · exact hz b hb'

/-- The topological-order property of an emitted index list: every
immediate in-edge of an emitted edge's source was emitted earlier. -/
def OrderProp {R : Type} (edges : List (CompiledEdge R)) (order : List ℕ) : Prop :=
  ∀ (k : ℕ) (hk : k < order.length) (e : CompiledEdge R),
    edges.get? (order.get ⟨k, hk⟩) = some e →
    ∀ i ∈ inEdgeIdxs edges e.source,
      ∃ (k' : ℕ) (hk' : k' < k), order.get ⟨k', lt_trans hk' hk⟩ = i

/-- Appending an edge whose source's in-edges were all already emitted
preserves the topological-order property. -/
theorem orderProp_append {R : Type} {edges : List (CompiledEdge R)} {order : List ℕ}
    {idx : ℕ} {e : CompiledEdge R}
    (hp : OrderProp edges order) (hg : edges.get? idx = some e)
    (hin : ∀ i ∈ inEdgeIdxs edges e.source, i ∈ order) :
    OrderProp edges (order ++ [idx]) := by
  intro k hk e' hg' i hi
  have hlen : (order ++ [idx]).length = order.length + 1 := by simp
  by_cases hklt : k < order.length
  · have hget : (order ++ [idx]).get ⟨k, hk⟩ = order.get ⟨k, hklt⟩ :=
      List.get_append k hklt
    rw [hget] at hg'
    rcases hp k hklt e' hg' i hi with ⟨k', hk', heq⟩
    refine ⟨k', hk', ?_⟩
    rw [List.get_append k' (lt_trans hk' hklt)]
    exact heq
  · have hke : k = order.length := by
      rw [hlen] at hk
      omega
    have hget : (order ++ [idx]).get ⟨k, hk⟩ = idx := by
      subst hke
      simp
    rw [hget] at hg'
    rw [hg] at hg'
    cases Option.some.inj hg'
    have hmem := hin i hi
    rcases List.mem_iff_get.mp hmem with ⟨⟨k', hk'⟩, heq⟩
    refine ⟨k', by omega, ?_⟩
    rw [List.get_append k' hk']
    exact heq

/-- The loop invariant of Kahn's algorithm as implemented: the in-degree
map counts the unprocessed immediate in-edges, every ready signal has
in-degree zero, the processed set and the emitted order hold the same
indices, the order is duplicate-free, holds only immediate edge indices,
satisfies the topological-order property, and the ready list is sorted
ascending (the `std::set`). -/
structure KahnInv {R : Type} (edges : List (CompiledEdge R)) (st : KahnState) : Prop where
  degEq : ∀ s, st.deg s =
    (((inEdgeIdxs edges s).filter (fun i => i ∉ st.processed)).length : ℤ)
  readyDeg : ∀ s ∈ st.ready, st.deg s = 0
  procOrder : ∀ i, i ∈ st.processed ↔ i ∈ st.order
  orderNodup : st.order.Nodup
  orderImm : ∀ i ∈ st.order, i ∈ immediateIndices edges
  orderProp : OrderProp edges st.order
  readySorted : List.Sorted (· ≤ ·) st.ready

/-- Under the invariant, a zero-in-degree signal has all its immediate
in-edges already emitted. -/
theorem inv_inEdges_emitted {R : Type} {edges : List (CompiledEdge R)} {st : KahnState}
    (hinv : KahnInv edges st) {sig : SignalId} (h0 : st.deg sig = 0) :
    ∀ i ∈ inEdgeIdxs edges sig, i ∈ st.order := by
  intro i hi
  have hd := hinv.degEq sig
  rw [h0] at hd
  have hlen : ((inEdgeIdxs edges sig).filter (fun i => i ∉ st.processed)).length = 0 := by
    exact_mod_cast hd.symm
  have hnil := List.length_eq_zero.mp hlen
  have hnp := List.filter_eq_nil.mp hnil i hi
  simp only [decide_eq_true_eq, not_not] at hnp
  exact (hinv.procOrder i).mp hnp

/-- Processing the outgoing immediate edges of a popped zero-in-degree
signal preserves the Kahn invariant. -/
theorem kahnProcessOut_inv {R : Type} (edges : List (CompiledEdge R)) (sig : SignalId) :
    ∀ (idxs : List ℕ) (st : KahnState),
      (∀ i ∈ idxs, i ∈ kahnOutgoing edges sig) →
      (∀ i ∈ inEdgeIdxs edges sig, i ∈ st.order) →
      KahnInv edges st →
      KahnInv edges (kahnProcessOut edges idxs st) ∧
      (∀ i ∈ inEdgeIdxs edges sig, i ∈ (kahnProcessOut edges idxs st).order) := by
  intro idxs
  induction idxs with
  | nil =>
      intro st _ hord hinv
      unfold kahnProcessOut
      exact ⟨hinv, hord⟩
  | cons idx rest ih =>
      intro st hsub hord hinv
      by_cases hmem : idx ∈ st.processed
      · have hstep : kahnProcessOut edges (idx :: rest) st = kahnProcessOut edges rest st := by
          conv_lhs => rw [kahnProcessOut.eq_def]
          dsimp only
          rw [if_pos hmem]
        rw [hstep]
        exact ih st (fun i hi => hsub i (List.mem_cons.mpr (Or.inr hi))) hord hinv
      · rcases mem_kahnOutgoing.mp (hsub idx (List.mem_cons_self _ _)) with ⟨him, e, hg, hsrc⟩
        have hstep : kahnProcessOut edges (idx :: rest) st =
            kahnProcessOut edges rest
              { ready := if st.deg e.target - 1 = 0 then insertSorted e.target st.ready
                  else st.ready
                deg := fun s => if s = e.target then st.deg e.target - 1 else st.deg s
                processed := idx :: st.processed
                order := st.order ++ [idx] } := by
          conv_lhs => rw [kahnProcessOut.eq_def]
          dsimp only
          rw [if_neg hmem, hg]
        rw [hstep]
        have hidxIn : idx ∈ inEdgeIdxs edges e.target := mem_inEdgeIdxs.mpr ⟨him, e, hg, rfl⟩
        have hidxUnproc : idx ∈ (inEdgeIdxs edges e.target).filter
            (fun i => i ∉ st.processed) := by
          rw [List.mem_filter]
          exact ⟨hidxIn, decide_eq_true hmem⟩
        have hpos : 1 ≤ ((inEdgeIdxs edges e.target).filter
            (fun i => i ∉ st.processed)).length :=
          List.length_pos_of_mem hidxUnproc
        have hdegt : st.deg e.target =
            (((inEdgeIdxs edges e.target).filter (fun i => i ∉ st.processed)).length : ℤ) :=
          hinv.degEq e.target
        have htnotready : e.target ∉ st.ready := by
          intro hmem'
          have h0 := hinv.readyDeg e.target hmem'
          rw [hdegt] at h0
          omega
        have hidxNotOrder : idx ∉ st.order := fun h => hmem ((hinv.procOrder idx).mpr h)
        have hfilterStep : ∀ (l : List ℕ), l.Nodup → idx ∈ l →
            (l.filter (fun i => i ∉ idx :: st.processed)).length =
              (l.filter (fun i => i ∉ st.processed)).length - 1 := by
          intro l hnd hidxl
          have hsplit : l.filter (fun i => i ∉ idx :: st.processed) =
              (l.filter (fun i => i ∉ st.processed)).filter (fun i => i != idx) := by
            rw [List.filter_filter]
            apply List.filter_congr
            intro a _
            by_cases h1 : a = idx <;> by_cases h2 : a ∈ st.processed <;>
              simp [h1, h2, List.mem_cons]
          rw [hsplit]
          have hndf : (l.filter (fun i => i ∉ st.processed)).Nodup := List.Nodup.filter _ hnd
          have hidxf : idx ∈ l.filter (fun i => i ∉ st.processed) := by
            rw [List.mem_filter]
            exact ⟨hidxl, decide_eq_true hmem⟩
          rw [← List.Nodup.erase_eq_filter hndf idx]
          exact List.length_erase_of_mem hidxf
        have hfilterSkip : ∀ (s : SignalId), s ≠ e.target →
            (inEdgeIdxs edges s).filter (fun i => i ∉ idx :: st.processed) =
              (inEdgeIdxs edges s).filter (fun i => i ∉ st.processed) := by
          intro s hne
          apply List.filter_congr
          intro a ha
          have hane : a ≠ idx := by
            intro hae
            subst hae
            rcases mem_inEdgeIdxs.mp ha with ⟨-, e', hg', ht'⟩
            rw [hg] at hg'
            cases Option.some.inj hg'
            exact hne ht'.symm
          simp [List.mem_cons, hane]
        have hinv' : KahnInv edges
            { ready := if st.deg e.target - 1 = 0 then insertSorted e.target st.ready
                else st.ready
              deg := fun s => if s = e.target then st.deg e.target - 1 else st.deg s
              processed := idx :: st.processed
              order := st.order ++ [idx] } := by
          constructor
          · intro s
            dsimp only
            by_cases hs : s = e.target
            · subst hs
              rw [if_pos rfl,
                hfilterStep (inEdgeIdxs edges e.target) (inEdgeIdxs_nodup edges e.target)
                  hidxIn, hdegt]
              omega
            · rw [if_neg hs, hfilterSkip s hs]
              exact hinv.degEq s
          · intro s hs
            dsimp only at hs ⊢
            by_cases hd0 : st.deg e.target - 1 = 0
            · rw [if_pos hd0] at hs
              rcases (mem_insertSorted _ _ _).mp hs with rfl | hs'
              · rw [if_pos rfl]
                exact hd0
              · have hne : s ≠ e.target := fun h => htnotready (h ▸ hs')
                rw [if_neg hne]
                exact hinv.readyDeg s hs'
            · rw [if_neg hd0] at hs
              have hne : s ≠ e.target := fun h => htnotready (h ▸ hs)
              rw [if_neg hne]
              exact hinv.readyDeg s hs
          · intro i
            dsimp only
            rw [List.mem_cons, List.mem_append, List.mem_singleton, hinv.procOrder i]
            tauto
          · dsimp only
            rw [List.nodup_append]
            refine ⟨hinv.orderNodup, List.nodup_singleton idx, ?_⟩
            intro a ha hb
            rw [List.mem_singleton] at hb
            subst hb
            exact hidxNotOrder ha
          · intro i hi
            dsimp only at hi
            rcases List.mem_append.mp hi with h | h
            · exact hinv.orderImm i h
            · rw [List.mem_singleton] at h
              subst h
              exact him
          · dsimp only
            refine orderProp_append hinv.orderProp hg ?_
            rw [hsrc]
            exact hord
          · dsimp only
            by_cases hd0 : st.deg e.target - 1 = 0
            · rw [if_pos hd0]
              exact sorted_insertSorted _ _ hinv.readySorted
            · rw [if_neg hd0]
              exact hinv.readySorted
        exact ih _ (fun i hi => hsub i (List.mem_cons.mpr (Or.inr hi)))
          (fun i hi => List.mem_append_left _ (hord i hi)) hinv'

/-- The Kahn loop returns an order satisfying the invariant's order
facts. -/
theorem kahnLoop_inv {R : Type} (edges : List (CompiledEdge R)) :
    ∀ (fuel : ℕ) (st : KahnState) (order' : List ℕ), KahnInv edges st →
      kahnLoop edges (kahnOutgoing edges) fuel st = some order' →
      order'.Nodup ∧ (∀ i ∈ order', i ∈ immediateIndices edges) ∧
        OrderProp edges order' := by
  intro fuel
  induction fuel with
  | zero =>
      intro st order' hinv h
      obtain ⟨ready, deg, processed, order⟩ := st
      cases ready with
      | nil =>
          have he : kahnLoop edges (kahnOutgoing edges) 0
              ⟨[], deg, processed, order⟩ = some order := rfl
          rw [he] at h
          cases h
          exact ⟨hinv.orderNodup, hinv.orderImm, hinv.orderProp⟩
      | cons sig rest =>
          have he : kahnLoop edges (kahnOutgoing edges) 0
              ⟨sig :: rest, deg, processed, order⟩ = none := rfl
          rw [he] at h
          cases h
  | succ fuel ih =>
      intro st order' hinv h
      obtain ⟨ready, deg, processed, order⟩ := st
      cases ready with
      | nil =>
          have he : kahnLoop edges (kahnOutgoing edges) (fuel + 1)
              ⟨[], deg, processed, order⟩ = some order := rfl
          rw [he] at h
          cases h
          exact ⟨hinv.orderNodup, hinv.orderImm, hinv.orderProp⟩
      | cons sig rest =>
          have he : kahnLoop edges (kahnOutgoing edges) (fuel + 1)
              ⟨sig :: rest, deg, processed, order⟩ =
              kahnLoop edges (kahnOutgoing edges) fuel
                (kahnProcessOut edges (kahnOutgoing edges sig)
                  ⟨rest, deg, processed, order⟩) := rfl
          rw [he] at h
          have hdeg0 : deg sig = 0 := hinv.readyDeg sig (List.mem_cons_self _ _)
          have hord : ∀ i ∈ inEdgeIdxs edges sig, i ∈ order :=
            inv_inEdges_emitted hinv hdeg0
          have hinvPop : KahnInv edges ⟨rest, deg, processed, order⟩ :=
            ⟨hinv.degEq, fun s hs => hinv.readyDeg s (List.mem_cons.mpr (Or.inr hs)),
              hinv.procOrder, hinv.orderNodup, hinv.orderImm, hinv.orderProp,
              (List.sorted_cons.mp hinv.readySorted).2⟩
          obtain ⟨hinv', -⟩ := kahnProcessOut_inv edges sig (kahnOutgoing edges sig)
            ⟨rest, deg, processed, order⟩ (fun i hi => hi) hord hinvPop
          exact ih _ order' hinv' h

/-- The initial Kahn state of `topological_sort` satisfies the
invariant. -/
theorem kahnInit_inv {R : Type} (edges : List (CompiledEdge R)) :
    KahnInv edges
      ⟨((nonDelayNodes edges).filter (fun s => kahnDeg0 edges s = 0)).sort (· ≤ ·),
        kahnDeg0 edges, [], []⟩ := by
  constructor
  · intro s
    dsimp only
    have hf : (inEdgeIdxs edges s).filter (fun i => i ∉ ([] : List ℕ)) =
        inEdgeIdxs edges s :=
      List.filter_eq_self.mpr (fun a _ => by simp)
    rw [hf]
    exact kahnDeg0_eq_inEdge edges s
  · intro s hs
    dsimp only at hs ⊢
    exact (Finset.mem_filter.mp ((Finset.mem_sort _).mp hs)).2
  · intro i
    simp
  · exact List.nodup_nil
  · intro i hi
    cases hi
  · intro k hk e hg i hi
    exact absurd hk (by simp)
  · exact Finset.sort_sorted _ _

/-- Applying `get?` along the filtered index range recovers the filtered
list itself. -/
theorem range_filter_filterMap {α : Type _} :
    ∀ (l : List α) (p : α → Bool),
      ((List.range l.length).filter
        (fun i => (l.get? i).elim false p)).filterMap (fun i => l.get? i) =
        l.filter p := by
  intro l
  induction l with
  | nil => intro p; rfl
  | cons a t ih =>
      intro p
      have hqs : ((fun i => ((a :: t).get? i).elim false p) ∘ Nat.succ) =
          (fun i => (t.get? i).elim false p) := rfl
      have hfs : ((fun i => (a :: t).get? i) ∘ Nat.succ) = (fun i => t.get? i) := rfl
      rw [List.length_cons, List.range_succ_eq_map, List.filter_cons]
      cases hpa : p a with
      | true =>
          rw [if_pos (by exact hpa), List.filterMap_cons]
          rw [List.filter_map, List.filterMap_map, hqs, hfs, ih p]
          conv_rhs => rw [List.filter_cons, if_pos hpa]
          rfl
      | false =>
          rw [if_neg (by simp [hpa]), List.filter_map, List.filterMap_map, hqs, hfs, ih p]
          conv_rhs => rw [List.filter_cons, if_neg (by simp [hpa])]

/-- Inversion of a successful `topological_sort`: the returned list is
the delay edges in spec order followed by the emitted immediate edges,
the emitted indices are a permutation of the immediate indices, and the
emission order is topological. -/
theorem topologicalSort_ok_spec {R : Type} {edges sorted : List (CompiledEdge R)}
    (h : topologicalSort edges = .ok sorted) :
    ∃ order : List ℕ,
      sorted = edges.filter (fun e => e.isDelay) ++
        order.filterMap (fun i => edges.get? i) ∧
      order.Perm (immediateIndices edges) ∧
      OrderProp edges order := by
  simp only [topologicalSort] at h
  cases hk : kahnLoop edges (kahnOutgoing edges)
      ((nonDelayNodes edges).card + edges.length + 1)
      ⟨((nonDelayNodes edges).filter (fun s => kahnDeg0 edges s = 0)).sort (· ≤ ·),
        kahnDeg0 edges, [], []⟩ with
  | none => rw [hk] at h; cases h
  | some order =>
      rw [hk] at h
      dsimp only at h
      by_cases hlen : order.length ≠ (immediateIndices edges).length
      · rw [if_pos hlen] at h
        cases h
      · rw [if_neg hlen] at h
        injection h with h'
        obtain ⟨hnd, himm, hprop⟩ := kahnLoop_inv edges _ _ order (kahnInit_inv edges) hk
        have hperm : order.Perm (immediateIndices edges) := by
          have hsub : order.Subperm (immediateIndices edges) :=
            List.subperm_of_subset hnd himm
          exact hsub.perm_of_length_le (le_of_eq (not_ne_iff.mp hlen).symm)
        exact ⟨order, h'.symm, hperm, hprop⟩

/-- Inversion of a successful `compile`: every phase succeeded, and the
program's edges are the topological sort of the parsed edges. -/
theorem compile_ok_inversion {R : Type} (env : Env R) (spec : GraphSpec)
    (ns : SignalNamespace) (fn : FunctionNamespace) (dt : ℚ)
    {prog : CompiledProgram R} {ns' : SignalNamespace} {fn' : FunctionNamespace}
    (h : compile env spec ns fn dt = .ok (prog, ns', fn')) :
    ∃ models ns1 edges ns2 outIds ns3 rules,
      parseModels spec.models ns = .ok (models, ns1) ∧
      (0 < dt → validateStability models dt = .ok ()) ∧
      parseEdges env spec.edges ns1 = .ok (edges, ns2) ∧
      modelOutputIds spec.models ns2 = .ok (outIds, ns3) ∧
      checkWriters (edges.map (fun e => e.target) ++ outIds) [] = .ok () ∧
      detectCycles edges = .ok () ∧
      topologicalSort edges = .ok prog.edges ∧
      compileRules spec.rules ns3 fn = .ok (rules, ns', fn') ∧
      prog.models = models ∧ prog.rules = rules := by
  cases hpm : parseModels spec.models ns with
  | error e => rw [compile_err_models env spec ns fn dt hpm] at h; cases h
  | ok pm =>
      obtain ⟨models, ns1⟩ := pm
      have hval : 0 < dt → validateStability models dt = .ok () := by
        intro hdt
        cases hvs : validateStability models dt with
        | error e =>
            rw [compile_err_stability env spec ns fn dt hpm hdt hvs] at h
            cases h
        | ok u => cases u; rfl
      cases hpe : parseEdges env spec.edges ns1 with
      | error e => rw [compile_err_edges env spec ns fn dt hpm hval hpe] at h; cases h
      | ok pe =>
          obtain ⟨edges, ns2⟩ := pe
          cases hmo : modelOutputIds spec.models ns2 with
          | error e =>
              rw [compile_err_modelOutputs env spec ns fn dt hpm hval hpe hmo] at h
              cases h
          | ok mo =>
              obtain ⟨outIds, ns3⟩ := mo
              cases hcw : checkWriters (edges.map (fun e => e.target) ++ outIds) [] with
              | error e =>
                  rw [compile_err_writers env spec ns fn dt hpm hval hpe hmo hcw] at h
                  cases h
              | ok u =>
                  cases u
                  cases hdc : detectCycles edges with
                  | error e =>
                      rw [compile_err_detect env spec ns fn dt hpm hval hpe hmo hcw hdc] at h
                      cases h
                  | ok u2 =>
                      cases u2
                      cases hts : topologicalSort edges with
                      | error e =>
                          rw [compile_err_toposort env spec ns fn dt hpm hval hpe hmo hcw
                            hdc hts] at h
                          cases h
                      | ok sortedEdges =>
                          cases hcr : compileRules spec.rules ns3 fn with
                          | error e =>
                              rw [compile_err_rules env spec ns fn dt hpm hval hpe hmo hcw
                                hdc hts hcr] at h
                              cases h
                          | ok res =>
                              obtain ⟨rules, ns4, fn1⟩ := res
                              rw [compile_ok_build env spec ns fn dt hpm hval hpe hmo hcw
                                hdc hts hcr] at h
                              injection h with h1
                              injection h1 with hprog hrest
                              injection hrest with hns hfn
                              subst hprog
                              subst hns
                              subst hfn
                              exact ⟨models, ns1, edges, ns2, outIds, ns3, rules, rfl, hval,
                                hpe, hmo, hcw, hdc, hts, hcr, rfl, rfl⟩

/-- The topological-order property in positional form: of two emitted
edges where the first feeds the second's source, the first is emitted
strictly earlier. -/
theorem orderProp_lt {R : Type} {edges : List (CompiledEdge R)} {order : List ℕ}
    (hnd : order.Nodup) (himm : ∀ i ∈ order, i ∈ immediateIndices edges)
    (hp : OrderProp edges order) :
    ∀ (k1 k2 : ℕ) (h1 : k1 < order.length) (h2 : k2 < order.length)
      (e1 e2 : CompiledEdge R),
      edges.get? (order.get ⟨k1, h1⟩) = some e1 →
      edges.get? (order.get ⟨k2, h2⟩) = some e2 →
      e1.target = e2.source → k1 < k2 := by
  intro k1 k2 h1 h2 e1 e2 hg1 hg2 ht
  have hmem : order.get ⟨k1, h1⟩ ∈ inEdgeIdxs edges e2.source :=
    mem_inEdgeIdxs.mpr ⟨himm _ (List.get_mem order k1 h1), e1, hg1, ht⟩
  rcases hp k2 h2 e2 hg2 _ hmem with ⟨k', hk', heq⟩
  have hfin : (⟨k', lt_trans hk' h2⟩ : Fin order.length) = ⟨k1, h1⟩ :=
    (List.Nodup.get_inj_iff hnd).mp heq
  have hk'eq : k' = k1 := by
    have := congrArg Fin.val hfin
    simpa using this
  omega

/-- The edge-ordering contract of `topological_sort` (claim C7):
(i) a successful sort returns the delay edges first, in spec order,
followed by the immediate edges along an emitted index order that is a
permutation of the immediate indices — so the tail is a permutation of
the non-delay edges — and that satisfies the topological-order property;
(ii) `std::set` insertion keeps the ready list sorted and only adds the
new signal; (iii) the loop pops the head of the ready list, which for a
sorted ready list is its least signal; (iv) at the `compile` level the
program's edge list is exactly the topological sort of the parsed
edges. -/
def TopoSortContract : Prop :=
  (∀ (R : Type) (edges sorted : List (CompiledEdge R)),
      topologicalSort edges = .ok sorted →
      ∃ order : List ℕ,
        sorted = edges.filter (fun e => e.isDelay) ++
          order.filterMap (fun i => edges.get? i) ∧
        order.Perm (immediateIndices edges) ∧
        (order.filterMap (fun i => edges.get? i)).Perm
          (edges.filter (fun e => !e.isDelay)) ∧
        (∀ (k1 k2 : ℕ) (h1 : k1 < order.length) (h2 : k2 < order.length)
            (e1 e2 : CompiledEdge R),
            edges.get? (order.get ⟨k1, h1⟩) = some e1 →
            edges.get? (order.get ⟨k2, h2⟩) = some e2 →
            e1.target = e2.source → k1 < k2)) ∧
  (∀ (x : ℕ) (l : List ℕ), List.Sorted (· ≤ ·) l →
      List.Sorted (· ≤ ·) (insertSorted x l) ∧
      ∀ y, y ∈ insertSorted x l ↔ y = x ∨ y ∈ l) ∧
  (∀ (R : Type) (edges : List (CompiledEdge R)) (outgoing : SignalId → List ℕ)
      (fuel : ℕ) (st : KahnState) (sig : SignalId) (rest : List SignalId),
      st.ready = sig :: rest → List.Sorted (· ≤ ·) st.ready →
      (∀ y ∈ st.ready, sig ≤ y) ∧
      kahnLoop edges outgoing (fuel + 1) st =
        kahnLoop edges outgoing fuel
          (kahnProcessOut edges (outgoing sig) { st with ready := rest })) ∧
  (∀ (R : Type) (env : Env R) (spec : GraphSpec) (ns : SignalNamespace)
      (fn : FunctionNamespace) (dt : ℚ) (prog : CompiledProgram R)
      (ns' : SignalNamespace) (fn' : FunctionNamespace),
      compile env spec ns fn dt = .ok (prog, ns', fn') →
      ∃ (edges : List (CompiledEdge R)) (ns1 ns2 : SignalNamespace),
        parseEdges env spec.edges ns1 = .ok (edges, ns2) ∧
        topologicalSort edges = .ok prog.edges)

/-- C7: a successfully compiled program's edge sequence places the delay
edges first in spec order, then the non-delay edges in a topological
order of the non-delay subgraph, with ties broken by popping the
smallest ready `SignalId` first. -/
theorem fluxC7_topological_order : TopoSortContract := by
  refine ⟨?_, ?_, ?_, ?_⟩
  · intro R edges sorted h
    obtain ⟨order, hsorted, hperm, hprop⟩ := topologicalSort_ok_spec h
    have hnd : order.Nodup := hperm.nodup_iff.mpr (immediateIndices_nodup edges)
    have himm : ∀ i ∈ order, i ∈ immediateIndices edges := fun i hi => hperm.mem_iff.mp hi
    refine ⟨order, hsorted, hperm, ?_, orderProp_lt hnd himm hprop⟩
    have hfm := hperm.filterMap (fun i => edges.get? i)
    have h2 : immediateIndices edges = (List.range edges.length).filter
        (fun i => (edges.get? i).elim false (fun e => !e.isDelay)) := by
      unfold immediateIndices
      apply List.filter_congr
      intro i _
      cases hg : edges.get? i <;> rfl
    have heq : (immediateIndices edges).filterMap (fun i => edges.get? i) =
        edges.filter (fun e => !e.isDelay) := by
      rw [h2]
      exact range_filter_filterMap edges (fun e => !e.isDelay)
    rw [heq] at hfm
    exact hfm
  · intro x l hs
    exact ⟨sorted_insertSorted x l hs, fun y => mem_insertSorted x l y⟩
  · intro R edges outgoing fuel st sig rest hready hsorted
    constructor
    · intro y hy
      rw [hready] at hy hsorted
      rcases List.mem_cons.mp hy with rfl | hy'
      · exact le_refl y
      · exact (List.sorted_cons.mp hsorted).1 y hy'
    · obtain ⟨ready, deg, processed, order⟩ := st
      dsimp only at hready
      subst hready
      rfl
  · intro R env spec ns fn dt prog ns' fn' h
    obtain ⟨models, ns1, edges, ns2, outIds, ns3, rules, hpm, hval, hpe, hmo, hcw, hdc,
      hts, hcr, hm, hr⟩ := compile_ok_inversion env spec ns fn dt h
    exact ⟨edges, ns1, ns2, hpe, hts⟩

/-- A concrete single non-delay edge `0 → 1`. -/
def cexTopoE : CompiledEdge ℕ := ⟨0, 1, .linear 1 0 none none, false⟩

/-- The singleton edge list for the C7 witness. -/
def cexTopoEdges : List (CompiledEdge ℕ) := [cexTopoE]

/-- Witness for C7: the singleton non-delay edge list sorts to itself,
with all the contract's ordering facts. -/
theorem fluxC7_topological_order_witness :
    ∃ order : List ℕ,
      [cexTopoE] = cexTopoEdges.filter (fun e => e.isDelay) ++
        order.filterMap (fun i => cexTopoEdges.get? i) ∧
      order.Perm (immediateIndices cexTopoEdges) ∧
      (order.filterMap (fun i => cexTopoEdges.get? i)).Perm
        (cexTopoEdges.filter (fun e => !e.isDelay)) ∧
      (∀ (k1 k2 : ℕ) (h1 : k1 < order.length) (h2 : k2 < order.length)
          (e1 e2 : CompiledEdge ℕ),
          cexTopoEdges.get? (order.get ⟨k1, h1⟩) = some e1 →
          cexTopoEdges.get? (order.get ⟨k2, h2⟩) = some e2 →
          e1.target = e2.source → k1 < k2) :=
  fluxC7_topological_order.1 ℕ cexTopoEdges [cexTopoE] (by
    have h1 : ((nonDelayNodes cexTopoEdges).filter
        (fun s => kahnDeg0 cexTopoEdges s = 0)).sort (· ≤ ·) = [0] := by
      have h0 : (nonDelayNodes cexTopoEdges).filter
          (fun s => kahnDeg0 cexTopoEdges s = 0) = ({0} : Finset ℕ) := by decide
      rw [h0]
      exact Finset.sort_singleton _ 0
    have h2 : (nonDelayNodes cexTopoEdges).card = 2 := by decide
    simp only [topologicalSort]
    rw [h1, h2]
    rfl)

/-- The duplicate-writer scenario: two edges targeting `b`. -/
def cexDupSpec : GraphSpec :=
  ⟨[], [⟨"a", "b", ⟨"linear", [("scale", .f 2), ("offset", .f 1)]⟩⟩,
        ⟨"c", "b", ⟨"linear", [("scale", .f 2), ("offset", .f 1)]⟩⟩], []⟩

/-- The compiled edges of `cexDupSpec` (ids: a=0, b=1, c=2). -/
def cexDupEdges : List (CompiledEdge ℕ) :=
  [⟨0, 1, .linear 2 1 none none, false⟩, ⟨2, 1, .linear 2 1 none none, false⟩]

/-- Witness for C5 at a concrete input. -/
theorem fluxC5_single_writer_witness :
    (parseModels cexDupSpec.models SignalNamespace.empty = .ok ([], SignalNamespace.empty) ∧
      parseEdges envCex cexDupSpec.edges SignalNamespace.empty =
        .ok (cexDupEdges, ⟨["a", "b", "c"]⟩) ∧
      modelOutputIds cexDupSpec.models ⟨["a", "b", "c"]⟩ = .ok ([], ⟨["a", "b", "c"]⟩)) ∧
    ∃ id, compile envCex cexDupSpec SignalNamespace.empty FunctionNamespace.empty 1 =
      .error (.multipleWriters id) :=
  ⟨⟨by decide, by decide, by decide⟩,
   fluxC5_single_writer.1 ℕ envCex cexDupSpec SignalNamespace.empty FunctionNamespace.empty
     1 [] SignalNamespace.empty cexDupEdges ⟨["a", "b", "c"]⟩ [] ⟨["a", "b", "c"]⟩
     (by decide) (fun _ => by decide) (by decide) (by decide)
     (Or.inl ⟨0, 1, _, _, by decide, rfl, rfl, rfl⟩)⟩

/-! ### The coordinator: load failures, partial writes, and the empty-update
rendezvous (claims C1, C2, C10) -/

namespace CoordState

variable {R : Type}

/-- Looking up the remapped session: `mapSession` rewrites exactly the
matching entries. -/
theorem find_map_session :
    ∀ (l : List (String × ProviderSession)) (sid : String)
      (f : ProviderSession → ProviderSession),
      ((l.map (fun p => if p.1 = sid then (p.1, f p.2) else p)).find?
          (fun p => p.1 = sid)).map (fun p => p.2) =
        ((l.find? (fun p => p.1 = sid)).map (fun p => p.2)).map f := by
  intro l
  induction l with
  | nil => intro sid f; rfl
  | cons p t ih =>
      intro sid f
      by_cases hp : p.1 = sid
      · simp [hp]
      · simpa [hp] using ih sid f

/-- `mapSession` commutes with `findSession` on the mapped id. -/
theorem findSession_mapSession (st : CoordState R) (sid : String)
    (f : ProviderSession → ProviderSession) :
    (st.mapSession sid f).findSession sid = (st.findSession sid).map f := by
  unfold mapSession findSession
  exact find_map_session st.sessions sid f

/-- Pruning never drops the active session. -/
theorem findSession_prune_active (st : CoordState R) (sid : String) (now : ℕ) :
    (st.pruneStaleSessions sid now).findSession sid = st.findSession sid := by
  unfold pruneStaleSessions findSession
  dsimp only
  congr 1
  induction st.sessions with
  | nil => rfl
  | cons p t ih =>
      by_cases hp : p.1 = sid
      · simp [List.filter_cons, hp]
      · by_cases hstale : now - p.2.lastUpdate > st.sessionTimeoutMs
        · simpa [List.filter_cons, hp, hstale] using ih
        · simpa [List.filter_cons, hp, hstale] using ih

theorem mapSession_signalNs (st : CoordState R) (sid : String)
    (f : ProviderSession → ProviderSession) :
    (st.mapSession sid f).signalNs = st.signalNs := rfl

theorem mapSession_store (st : CoordState R) (sid : String)
    (f : ProviderSession → ProviderSession) :
    (st.mapSession sid f).store = st.store := rfl

theorem mapSession_protected (st : CoordState R) (sid : String)
    (f : ProviderSession → ProviderSession) :
    (st.mapSession sid f).protectedWriteSignals = st.protectedWriteSignals := rfl

theorem mapSession_simTime (st : CoordState R) (sid : String)
    (f : ProviderSession → ProviderSession) :
    (st.mapSession sid f).simTime = st.simTime := rfl

theorem mapSession_tickGeneration (st : CoordState R) (sid : String)
    (f : ProviderSession → ProviderSession) :
    (st.mapSession sid f).tickGeneration = st.tickGeneration := rfl

theorem mapSession_dt (st : CoordState R) (sid : String)
    (f : ProviderSession → ProviderSession) :
    (st.mapSession sid f).dt = st.dt := rfl

theorem mapSession_engine (st : CoordState R) (sid : String)
    (f : ProviderSession → ProviderSession) :
    (st.mapSession sid f).engine = st.engine := rfl

theorem prune_signalNs (st : CoordState R) (sid : String) (now : ℕ) :
    (st.pruneStaleSessions sid now).signalNs = st.signalNs := rfl

theorem prune_store (st : CoordState R) (sid : String) (now : ℕ) :
    (st.pruneStaleSessions sid now).store = st.store := rfl

theorem prune_protected (st : CoordState R) (sid : String) (now : ℕ) :
    (st.pruneStaleSessions sid now).protectedWriteSignals = st.protectedWriteSignals := rfl

theorem prune_simTime (st : CoordState R) (sid : String) (now : ℕ) :
    (st.pruneStaleSessions sid now).simTime = st.simTime := rfl

theorem prune_tickGeneration (st : CoordState R) (sid : String) (now : ℕ) :
    (st.pruneStaleSessions sid now).tickGeneration = st.tickGeneration := rfl

theorem prune_dt (st : CoordState R) (sid : String) (now : ℕ) :
    (st.pruneStaleSessions sid now).dt = st.dt := rfl

theorem prune_engine (st : CoordState R) (sid : String) (now : ℕ) :
    (st.pruneStaleSessions sid now).engine = st.engine := rfl

/-- C1 (code bug): when the parser succeeds but compilation fails — after
both namespaces were cleared — the catch block reports the error and
leaves every member as it was: the namespaces hold exactly what the
by-reference `compile` interned before throwing, `loaded_` keeps its old
value, the engine keeps the stale program, and on a previously loaded
coordinator `Reset` and `ReadSignals` still succeed instead of failing
`NotLoaded` (the spec requires the coordinator to be left unloaded). -/
theorem fluxC1_compile_failure_keeps_loaded :
    ∀ (R' : Type) (env : Env R') (st : CoordState R') (spec : GraphSpec) (hash : String)
      (e : CompileErr),
      ¬(hash ≠ "" ∧ hash = st.currentConfigHash) →
      compile env spec SignalNamespace.empty FunctionNamespace.empty st.dt = .error e →
      loadConfig env st (.ok spec) hash =
        (.compileError e,
          { st with
              signalNs := (compileNsTrace env spec SignalNamespace.empty
                FunctionNamespace.empty st.dt).1,
              funcNs := (compileNsTrace env spec SignalNamespace.empty
                FunctionNamespace.empty st.dt).2 }) ∧
      (loadConfig env st (.ok spec) hash).2.loaded = st.loaded ∧
      (loadConfig env st (.ok spec) hash).2.engine = st.engine ∧
      (st.loaded = true →
        (resetCoord env (loadConfig env st (.ok spec) hash).2).1 = .ok ∧
        ∀ paths, (readSignals (loadConfig env st (.ok spec) hash).2 paths).isSome = true) := by
  intro R' env st spec hash e hhash hcompile
  have hrun : loadConfig env st (.ok spec) hash =
      (.compileError e,
        { st with
            signalNs := (compileNsTrace env spec SignalNamespace.empty
              FunctionNamespace.empty st.dt).1,
            funcNs := (compileNsTrace env spec SignalNamespace.empty
              FunctionNamespace.empty st.dt).2 }) := by
    unfold loadConfig
    rw [if_neg hhash]
    dsimp only
    rw [hcompile]
  refine ⟨hrun, by rw [hrun], by rw [hrun], ?_⟩
  intro hloaded
  constructor
  · rw [hrun]
    unfold resetCoord
    dsimp only
    rw [hloaded]
    rfl
  · intro paths
    rw [hrun]
    unfold readSignals
    dsimp only
    rw [hloaded]
    rfl

/-- A previously loaded coordinator for the C1 witness. -/
def cexC1State : CoordState ℕ := { CoordState.init 1 with loaded := true }

/-- A spec whose only model has an unknown kind, so compilation fails. -/
def cexBadSpec : GraphSpec := ⟨[⟨"m1", "bogus", []⟩], [], []⟩

/-- Witness for C1: the failing reload keeps the coordinator loaded, and
`Reset` still succeeds afterwards. -/
theorem fluxC1_compile_failure_keeps_loaded_witness :
    (loadConfig envCex cexC1State (.ok cexBadSpec) "h").2.loaded = true ∧
    (resetCoord envCex (loadConfig envCex cexC1State (.ok cexBadSpec) "h").2).1 =
      .ok := by
  have h := fluxC1_compile_failure_keeps_loaded ℕ envCex cexC1State cexBadSpec "h"
    (.unknownModelKind "bogus") (by decide) (by rfl)
  refine ⟨?_, (h.2.2.2 rfl).1⟩
  rw [h.2.1]
  exact rfl

/-- C2 (amended): an `UpdateSignals` that hits an unknown or protected
signal (or a store failure) returns the corresponding error, but the
signal store keeps every write made before the offending entry — the
loop returns from its middle without rolling back — while the tick
bookkeeping (`sim_time`, `tick_generation`) is untouched; and the write
loop commits each successful entry before examining the next. -/
def UpdatePrefixContract : Prop :=
  (∀ (R' : Type) (env : Env R') (st : CoordState R') (now : ℕ) (sessionId : String)
      (signals : List (String × ℚ × String)) (sess : ProviderSession)
      (e : UpdWriteErr) (store' : SignalStore),
      st.loaded = true →
      st.findSession sessionId = some sess →
      applyUpdates st.signalNs st.protectedWriteSignals signals st.store =
        (some e, store') →
      (updateSignals env st now sessionId signals).1 = .writeError e ∧
      (updateSignals env st now sessionId signals).2.store = store' ∧
      (updateSignals env st now sessionId signals).2.simTime = st.simTime ∧
      (updateSignals env st now sessionId signals).2.tickGeneration =
        st.tickGeneration) ∧
  (∀ (ns : SignalNamespace) (prot : Finset SignalId) (path : String) (value : ℚ)
      (unit : String) (rest : List (String × ℚ × String)) (store : SignalStore),
      (ns.resolve path = none →
        applyUpdates ns prot ((path, value, unit) :: rest) store =
          (some (.unknownSignal path), store)) ∧
      (∀ id, ns.resolve path = some id → id ∈ prot →
        applyUpdates ns prot ((path, value, unit) :: rest) store =
          (some (.permissionDenied path), store)) ∧
      (∀ id store', ns.resolve path = some id → id ∉ prot →
        store.write id value unit = .ok store' →
        applyUpdates ns prot ((path, value, unit) :: rest) store =
          applyUpdates ns prot rest store'))

/-- C2 (amended): failed updates return an error with the successful
prefix of writes committed, not an unchanged store. -/
theorem fluxC2_prefix_writes : UpdatePrefixContract := by
  constructor
  · intro R' env st now sessionId signals sess e store' hl hfind happ
    have hrun : updateSignals env st now sessionId signals =
        (.writeError e,
          { (st.mapSession sessionId
              (fun s => { s with lastUpdate := now })).pruneStaleSessions sessionId now
            with store := store' }) := by
      unfold updateSignals
      rw [hl]
      dsimp only [Bool.not_true]
      rw [if_neg (by simp)]
      rw [hfind]
      dsimp only
      simp only [mapSession_signalNs, mapSession_store, mapSession_protected,
        prune_signalNs, prune_store, prune_protected]
      rw [happ]
    refine ⟨by rw [hrun], by rw [hrun], ?_, ?_⟩
    · rw [hrun]
      exact (prune_simTime (st.mapSession sessionId (fun s => { s with lastUpdate := now }))
        sessionId now).trans
        (mapSession_simTime st sessionId (fun s => { s with lastUpdate := now }))
    · rw [hrun]
      exact (prune_tickGeneration
        (st.mapSession sessionId (fun s => { s with lastUpdate := now })) sessionId now).trans
        (mapSession_tickGeneration st sessionId (fun s => { s with lastUpdate := now }))
  · intro ns prot path value unit rest store
    refine ⟨?_, ?_, ?_⟩
    · intro hres
      unfold applyUpdates
      rw [hres]
    · intro id hres hmem
      unfold applyUpdates
      rw [hres]
      dsimp only
      rw [if_pos hmem]
    · intro id store' hres hmem hw
      conv_lhs => rw [applyUpdates.eq_def]
      dsimp only
      rw [hres]
      dsimp only
      rw [if_neg hmem, hw]

/-- A loaded coordinator for the C2 scenarios: one known signal `a`
(id 0), one registered session `s`. -/
def cexC2State : CoordState ℕ :=
  { engine := Engine.init
    store := SignalStore.init
    signalNs := ⟨["a"]⟩
    funcNs := FunctionNamespace.empty
    tickGeneration := 0
    lastCompletedGeneration := 0
    lastCompletedSimTime := 0
    lastCompletedCommands := []
    loaded := true
    currentConfigHash := ""
    dt := 1
    simTime := 0
    protectedWriteSignals := ∅
    physicsOwnedSignals := ∅
    sessions := [("s", ⟨"p", [], 0, none⟩)]
    sessionTimeoutMs := 5000 }

/-- Counterexample to C2 as stated: the call fails with `UnknownSignal`
for the second entry, yet the first entry's value 5 is in the store
(the untouched store reads 0). -/
theorem fluxC2_counterexample :
    (updateSignals envCex cexC2State 0 "s" [("a", 5, "W"), ("zz", 1, "")]).1 =
      .writeError (.unknownSignal "zz") ∧
    ((updateSignals envCex cexC2State 0 "s"
        [("a", 5, "W"), ("zz", 1, "")]).2.store.read 0).value = 5 ∧
    (cexC2State.store.read 0).value = 0 := by
  refine ⟨by decide, by decide, by decide⟩

/-- Witness for C2 at the concrete scenario: the amended theorem applies
and exhibits the committed prefix. -/
theorem fluxC2_prefix_writes_witness :
    (updateSignals envCex cexC2State 0 "s" [("a", 5, "W"), ("zz", 1, "")]).1 =
      .writeError (.unknownSignal "zz") ∧
    ((updateSignals envCex cexC2State 0 "s"
        [("a", 5, "W"), ("zz", 1, "")]).2.store.read 0).unit = "W" := by
  have h1 : (applyUpdates cexC2State.signalNs cexC2State.protectedWriteSignals
      [("a", 5, "W"), ("zz", 1, "")] cexC2State.store).1 =
      some (.unknownSignal "zz") := by decide
  have happ : applyUpdates cexC2State.signalNs cexC2State.protectedWriteSignals
      [("a", 5, "W"), ("zz", 1, "")] cexC2State.store =
      (some (.unknownSignal "zz"),
       (applyUpdates cexC2State.signalNs cexC2State.protectedWriteSignals
         [("a", 5, "W"), ("zz", 1, "")] cexC2State.store).2) :=
    Prod.ext h1 rfl
  have h := fluxC2_prefix_writes.1 ℕ envCex cexC2State 0 "s"
    [("a", 5, "W"), ("zz", 1, "")] ⟨"p", [], 0, none⟩ (.unknownSignal "zz")
    ((applyUpdates cexC2State.signalNs cexC2State.protectedWriteSignals
      [("a", 5, "W"), ("zz", 1, "")] cexC2State.store).2)
    (by rfl) (by decide) happ
  refine ⟨h.1, ?_⟩
  rw [h.2.1]
  decide

/-- C10: an `UpdateSignals` with an empty signal list on a loaded
coordinator with a valid session records the session's submission for the
current generation, and when it completes the rendezvous (every remaining
session has submitted), the engine ticks, `sim_time` advances by `dt`,
and the generation increments. -/
theorem fluxC10_empty_update_rendezvous :
    ∀ (R' : Type) (env : Env R') (st st1 st2 : CoordState R') (now : ℕ)
      (sessionId : String) (sess : ProviderSession) (engine' : Engine R')
      (store'' : SignalStore),
      st.loaded = true →
      st.findSession sessionId = some sess →
      st1 = (st.mapSession sessionId
        (fun s => { s with lastUpdate := now })).pruneStaleSessions sessionId now →
      st2 = st1.mapSession sessionId
        (fun s => { s with lastTickGeneration := some st1.tickGeneration }) →
      (!st2.sessions.isEmpty && st2.sessions.all (fun p =>
        match p.2.lastTickGeneration with
        | none => false
        | some v => !(v < st1.tickGeneration))) = true →
      Engine.tick env st2.engine st2.dt st2.store = .ok (engine', store'') →
      (updateSignals env st now sessionId []).1 =
        .ticked (st.simTime + st.dt)
          ((updateSignals env st now sessionId []).2.filterCommandsForSession sessionId
            engine'.commandQueue) ∧
      (updateSignals env st now sessionId []).2.simTime = st.simTime + st.dt ∧
      (updateSignals env st now sessionId []).2.tickGeneration = st.tickGeneration + 1 ∧
      (updateSignals env st now sessionId []).2.lastCompletedGeneration =
        st.tickGeneration + 1 ∧
      (updateSignals env st now sessionId []).2.findSession sessionId =
        some { sess with lastUpdate := now,
                         lastTickGeneration := some st.tickGeneration } := by
  intro R' env st st1 st2 now sessionId sess engine' store'' hl hfind hst1 hst2 hready htick
  have hrun : updateSignals env st now sessionId [] =
      (.ticked (st2.simTime + st2.dt)
        (filterCommandsForSession
          { st2 with
            engine := { engine' with commandQueue := [] }
            store := store''
            simTime := st2.simTime + st2.dt
            tickGeneration := st2.tickGeneration + 1
            lastCompletedGeneration := st2.tickGeneration + 1
            lastCompletedSimTime := st2.simTime + st2.dt
            lastCompletedCommands := engine'.commandQueue } sessionId
          engine'.commandQueue),
       { st2 with
          engine := { engine' with commandQueue := [] }
          store := store''
          simTime := st2.simTime + st2.dt
          tickGeneration := st2.tickGeneration + 1
          lastCompletedGeneration := st2.tickGeneration + 1
          lastCompletedSimTime := st2.simTime + st2.dt
          lastCompletedCommands := engine'.commandQueue }) := by
    unfold updateSignals
    rw [hl]
    dsimp only [Bool.not_true]
    rw [if_neg (by simp)]
    rw [hfind]
    dsimp only
    rw [← hst1]
    simp only [applyUpdates]
    rw [← hst2]
    rw [if_pos hready]
    rw [htick]
    rfl
  have hs1gen : st1.tickGeneration = st.tickGeneration := by
    rw [hst1]
    exact (prune_tickGeneration
      (st.mapSession sessionId (fun s => { s with lastUpdate := now })) sessionId now).trans
      (mapSession_tickGeneration st sessionId (fun s => { s with lastUpdate := now }))
  have hs2simTime : st2.simTime = st.simTime := by
    rw [hst2, mapSession_simTime, hst1]
    exact (prune_simTime
      (st.mapSession sessionId (fun s => { s with lastUpdate := now })) sessionId now).trans
      (mapSession_simTime st sessionId (fun s => { s with lastUpdate := now }))
  have hs2dt : st2.dt = st.dt := by
    rw [hst2, mapSession_dt, hst1]
    exact (prune_dt
      (st.mapSession sessionId (fun s => { s with lastUpdate := now })) sessionId now).trans
      (mapSession_dt st sessionId (fun s => { s with lastUpdate := now }))
  have hs2gen : st2.tickGeneration = st.tickGeneration := by
    rw [hst2, mapSession_tickGeneration]
    exact hs1gen
  have hfind2 : st2.findSession sessionId =
      some { sess with lastUpdate := now,
                       lastTickGeneration := some st.tickGeneration } := by
    rw [hst2, findSession_mapSession, hst1, findSession_prune_active,
      findSession_mapSession, hfind, ← hst1, hs1gen]
    rfl
  refine ⟨?_, ?_, ?_, ?_, ?_⟩
  · rw [hrun, hs2simTime, hs2dt]
  · rw [hrun]
    dsimp only
    rw [hs2simTime, hs2dt]
  · rw [hrun]
    dsimp only
    rw [hs2gen]
  · rw [hrun]
    dsimp only
    rw [hs2gen]
  · rw [hrun]
    dsimp only
    unfold findSession at hfind2 ⊢
    dsimp only at hfind2 ⊢
    exact hfind2

/-- A loaded single-session coordinator for the C10 witness. -/
def cexC10State : CoordState ℕ :=
  { engine := { Engine.init with loaded := true }
    store := SignalStore.init
    signalNs := ⟨["a"]⟩
    funcNs := FunctionNamespace.empty
    tickGeneration := 0
    lastCompletedGeneration := 0
    lastCompletedSimTime := 0
    lastCompletedCommands := []
    loaded := true
    currentConfigHash := ""
    dt := 1
    simTime := 0
    protectedWriteSignals := ∅
    physicsOwnedSignals := ∅
    sessions := [("s", ⟨"p", [], 0, none⟩)]
    sessionTimeoutMs := 5000 }

/-- The touched-and-pruned intermediate state of the C10 witness run. -/
def cexC10St1 : CoordState ℕ :=
  (cexC10State.mapSession "s"
    (fun s => { s with lastUpdate := 0 })).pruneStaleSessions "s" 0

/-- The submitted intermediate state of the C10 witness run. -/
def cexC10St2 : CoordState ℕ :=
  cexC10St1.mapSession "s"
    (fun s => { s with lastTickGeneration := some cexC10St1.tickGeneration })

/-- Witness for C10: the empty-list update from the only session ticks
the engine and advances the clock and generation. -/
theorem fluxC10_empty_update_rendezvous_witness :
    (updateSignals envCex cexC10State 0 "s" []).1 =
      .ticked (cexC10State.simTime + cexC10State.dt)
        ((updateSignals envCex cexC10State 0 "s" []).2.filterCommandsForSession "s"
          ({ Engine.init with loaded := true } : Engine ℕ).commandQueue) ∧
    (updateSignals envCex cexC10State 0 "s" []).2.tickGeneration = 1 :=
  have h := fluxC10_empty_update_rendezvous ℕ envCex cexC10State cexC10St1 cexC10St2
    0 "s" ⟨"p", [], 0, none⟩ { Engine.init with loaded := true } SignalStore.init
    rfl (by decide) rfl rfl (by decide) rfl
  ⟨h.1, h.2.2.1⟩

end CoordState

end FluxGraph
